import Mathlib

/-!
Verification development for the access-path planner
(src/mongo/db/query/planner_access.cpp).

The planner and its data model are shallowly embedded: each C++ function of
planner_access.cpp becomes a Lean definition of the same name; external
collaborators (the bounds builder, the indexability oracle, solution-node
property computation) are either parameters (an oracle structure) or, where
the specification fixes their behaviour, definitions modelled from the spec
and marked as such.  Fallible code (verify / invariant / returning NULL)
returns a three-valued result: ok, noPlan (the NULL "no indexed plan"
sentinel) or abort (a failed verify/invariant assertion, which in the
original throws and therefore also never delivers a plan).
-/

/-- BSON values as needed by the planner: index key patterns contain either
numbers (1 / -1 for btree order) or strings ("2d", "2dsphere", "text",
"hashed"); predicate data are opaque scalar values. -/
inductive BVal where
  | int (i : Int)
  | str (s : String)
deriving DecidableEq, Repr

/-- A BSON element: a field name together with a value. -/
structure BElt where
  name : String
  val : BVal
deriving DecidableEq, Repr

/-- A BSON object is an ordered list of elements. -/
abbrev BObj := List BElt

/-- BSONElement::type() == String test used by the source on key patterns. -/
def BVal.isString : BVal → Bool
  | .str _ => true
  | .int _ => false

/-- BSONElement::numberInt() as used for the $natural sort/hint direction. -/
def BVal.numberInt : BVal → Int
  | .int i => i
  | .str _ => 0

/-- BSONObj::getFieldDotted restricted to a plain top-level lookup (the only
use in this file is the field "$natural"). Returns none for eoo(). -/
def bobjGetField (o : BObj) (f : String) : Option BElt :=
  o.find? (fun e => e.name = f)

/-- Match-expression node types (MatchExpression::MatchType), restricted to
the variants planner_access.cpp dispatches on. -/
inductive MatchType where
  | AND | OR | NOR | NOT
  | EQ | LT | LTE | GT | GTE | REGEX | MOD | EXISTS | IN_SET | TYPE_OP
  | GEO | GEO_NEAR | TEXT
  | ELEM_MATCH_OBJECT | ELEM_MATCH_VALUE | ALL
deriving DecidableEq, Repr

/-- The enumerator's IndexTag: which index and which key position a predicate
was assigned to.  An absent tag is represented by Option none at the node,
so the kNoIndex sentinel needs no representation. -/
structure IndexTag where
  index : Nat
  pos : Nat
deriving DecidableEq, Repr

/-- Per-variant payload of a match expression: the BSONElement of a leaf
comparison (EqualityMatchExpression::getData), the query/language of a TEXT
predicate, or an opaque handle for geometry. -/
inductive ExprPayload where
  | nothing
  | elt (e : BElt)
  | textArgs (query : String) (language : String)
  | geoArgs (g : Nat)
deriving DecidableEq, Repr

/-- A canonical-query predicate tree node (MatchExpression): a match type,
an optional IndexTag, a payload and child expressions. -/
inductive MatchExpr where
  | node (ty : MatchType) (tag : Option IndexTag) (pay : ExprPayload)
      (children : List MatchExpr)

def MatchExpr.ty : MatchExpr → MatchType
  | .node t _ _ _ => t

def MatchExpr.tag : MatchExpr → Option IndexTag
  | .node _ g _ _ => g

def MatchExpr.pay : MatchExpr → ExprPayload
  | .node _ _ p _ => p

def MatchExpr.children : MatchExpr → List MatchExpr
  | .node _ _ _ cs => cs

def MatchExpr.numChildren (e : MatchExpr) : Nat := e.children.length

/-- EqualityMatchExpression::getData (defaulting on a mismatched cast, which
in the original would be undefined behaviour). -/
def MatchExpr.getData : MatchExpr → BElt
  | .node _ _ (.elt e) _ => e
  | _ => ⟨"", .int 0⟩

/-- TextMatchExpression::getQuery. -/
def MatchExpr.getTextQuery : MatchExpr → String
  | .node _ _ (.textArgs q _) _ => q
  | _ => ""

/-- TextMatchExpression::getLanguage. -/
def MatchExpr.getTextLanguage : MatchExpr → String
  | .node _ _ (.textArgs _ l) _ => l
  | _ => ""

/-- GeoNearMatchExpression::getData / GeoMatchExpression::getGeoQuery as an
opaque handle. -/
def MatchExpr.getGeoArg : MatchExpr → Nat
  | .node _ _ (.geoArgs g) _ => g
  | _ => 0

/-- ListOfMatchExpression::add — append a child. -/
def MatchExpr.addChild (e : MatchExpr) (c : MatchExpr) : MatchExpr :=
  match e with
  | .node t g p cs => .node t g p (cs ++ [c])

/-- Index key column kind / index type (IndexEntry.type in the source). -/
inductive IndexType where
  | btree | twoD | twoDSphere | text | hashed
deriving DecidableEq, Repr

/-- An IndexEntry: key pattern (a BSON object), multikey flag and type. -/
structure IndexEntry where
  keyPattern : BObj
  multikey : Bool
  type : IndexType
deriving DecidableEq, Repr

/-- Bounds tightness verdicts of the bounds builder
(IndexBoundsBuilder::BoundsTightness). -/
inductive Tightness where
  | EXACT | INEXACT_COVERED | INEXACT_FETCH
deriving DecidableEq, Repr

/-- BInterval endpoints: MinKey, MaxKey or a scalar value. -/
inductive BoundVal where
  | minKey | maxKey | scalar (v : BVal)
deriving DecidableEq, Repr

/-- One interval of an ordered interval list. -/
structure BInterval where
  lo : BoundVal
  hi : BoundVal
  loInclusive : Bool
  hiInclusive : Bool
deriving DecidableEq, Repr

/-- An OrderedIntervalList: intervals over one index-key field. An empty
name means the key position is still unassigned. -/
structure OIL where
  name : String := ""
  intervals : List BInterval := []
deriving DecidableEq, Repr

/-- IndexBounds: one OIL per key-pattern position, or alternatively an
explicit simple [startKey, endKey) range. -/
structure IndexBounds where
  fields : List OIL := []
  isSimpleRange : Bool := false
  startKey : BObj := []
  endKey : BObj := []
  endKeyInclusive : Bool := false
deriving DecidableEq, Repr

/-- Query solution nodes (QuerySolutionNode subclasses used by
planner_access.cpp). Every node carries its optional filter, as in the
C++ base class. -/
inductive QSN where
  | collScan (name : String) (filter : Option MatchExpr) (tailable : Bool)
      (direction : Int) (maxScan : Nat)
  | ixscan (indexKeyPattern : BObj) (indexIsMultiKey : Bool)
      (bounds : IndexBounds) (filter : Option MatchExpr) (direction : Int)
      (maxScan : Nat) (addKeyMetadata : Bool)
  | geo2d (indexKeyPattern : BObj) (gq : Nat) (filter : Option MatchExpr)
  | geoNear2dsphere (indexKeyPattern : BObj) (nq : Nat)
      (baseBounds : IndexBounds) (filter : Option MatchExpr)
      (addPointMeta : Bool) (addDistMeta : Bool)
  | textNode (indexKeyPattern : BObj) (query : String) (language : String)
      (indexPrefixObj : BObj) (filter : Option MatchExpr)
  | fetch (filter : Option MatchExpr) (children : List QSN)
  | andHash (filter : Option MatchExpr) (children : List QSN)
  | andSorted (filter : Option MatchExpr) (children : List QSN)
  | orNode (filter : Option MatchExpr) (children : List QSN)
  | mergeSort (sort : BObj) (filter : Option MatchExpr) (children : List QSN)

/-- QuerySolutionNode::getType() == STAGE_TEXT (the isTextNode functor). -/
def QSN.isTextStage : QSN → Bool
  | .textNode _ _ _ _ _ => true
  | _ => false

def QSN.getFilter : QSN → Option MatchExpr
  | .collScan _ f _ _ _ => f
  | .ixscan _ _ _ f _ _ _ => f
  | .geo2d _ _ f => f
  | .geoNear2dsphere _ _ _ f _ _ => f
  | .textNode _ _ _ _ f => f
  | .fetch f _ => f
  | .andHash f _ => f
  | .andSorted f _ => f
  | .orNode f _ => f
  | .mergeSort _ f _ => f

def QSN.setFilter : QSN → Option MatchExpr → QSN
  | .collScan n _ t d m, f => .collScan n f t d m
  | .ixscan kp mk b _ d m ak, f => .ixscan kp mk b f d m ak
  | .geo2d kp g _, f => .geo2d kp g f
  | .geoNear2dsphere kp nq bb _ ap ad, f => .geoNear2dsphere kp nq bb f ap ad
  | .textNode kp q l p _, f => .textNode kp q l p f
  | .fetch _ cs, f => .fetch f cs
  | .andHash _ cs, f => .andHash f cs
  | .andSorted _ cs, f => .andSorted f cs
  | .orNode _ cs, f => .orNode f cs
  | .mergeSort s _ cs, f => .mergeSort s f cs

def QSN.getChildren : QSN → List QSN
  | .fetch _ cs => cs
  | .andHash _ cs => cs
  | .andSorted _ cs => cs
  | .orNode _ cs => cs
  | .mergeSort _ _ cs => cs
  | _ => []

/-- The parsed-query data consumed here (LiteParsedQuery). -/
structure ParsedQuery where
  sort : BObj := []
  hint : BObj := []
  maxScan : Nat := 0
  returnKey : Bool := false
deriving Repr

/-- Projection flags consumed by the geo-near leaf constructor. -/
structure Projection where
  wantGeoNearPoint : Bool := false
  wantGeoNearDistance : Bool := false
deriving Repr

/-- The CanonicalQuery data consumed by this module. -/
structure CanonicalQuery where
  ns : String := ""
  root : MatchExpr
  parsed : ParsedQuery := {}
  proj : Option Projection := none

/-- QueryPlannerParams: none of its flags are read in this module. -/
structure QueryPlannerParams where
  unusedFlags : Nat := 0

/-- Three-valued outcome of a planner routine: a produced value, the NULL
"no indexed plan" result, or a failed verify()/invariant() assertion (which
throws in the original, so it also produces no plan). -/
inductive BuildResult (α : Type) where
  | ok (a : α)
  | noPlan
  | abort

/-- Result of the boolean-returning processIndexScans is re-expressed with
ok carrying the mutated state; a C++ return of false maps to noPlan (its
callers translate it to NULL). -/
def BuildResult.isOk {α : Type} : BuildResult α → Bool
  | .ok _ => true
  | _ => false

/-!
Indexability oracle.  The functions of mongo/db/query/indexability.h are not
part of this repository snapshot; they are modelled from the spec
(section 6: "nodeCanUseIndexOnOwnField, isBoundsGenerating,
isBoundsGeneratingNot, arrayUsesIndexOnChildren").
-/

/-- Modelled from the spec: a predicate that can use an index on its own
field is a leaf comparison, a geometric predicate or a text predicate. -/
def nodeCanUseIndexOnOwnField (e : MatchExpr) : Bool :=
  match e.ty with
  | .EQ | .LT | .LTE | .GT | .GTE | .REGEX | .MOD | .EXISTS | .IN_SET
  | .TYPE_OP | .GEO | .GEO_NEAR | .TEXT => true
  | _ => false

/-- Modelled from the spec: a bounds-generating NOT is the negation of a
predicate that can use an index on its own field. -/
def isBoundsGeneratingNot (e : MatchExpr) : Bool :=
  match e.ty, e.children with
  | .NOT, [c] => nodeCanUseIndexOnOwnField c
  | _, _ => false

/-- Modelled from the spec: bounds-generating expressions are those usable
on their own field, or bounds-generating negations of such. -/
def isBoundsGenerating (e : MatchExpr) : Bool :=
  nodeCanUseIndexOnOwnField e || isBoundsGeneratingNot e

/-- MatchExpression::isLogical. -/
def MatchExpr.isLogical (e : MatchExpr) : Bool :=
  match e.ty with
  | .AND | .OR | .NOR | .NOT => true
  | _ => false

/-- Modelled from the spec: the array operators that use indices on their
children are $all and the object form of $elemMatch. -/
def arrayUsesIndexOnChildren (e : MatchExpr) : Bool :=
  match e.ty with
  | .ELEM_MATCH_OBJECT | .ALL => true
  | _ => false

/-!
Bounds-builder operations with behaviour fixed by the spec.  The
translate family is kept abstract in the oracle below; all-values fill,
bounds alignment and whole-index bounds are modelled from the spec
(sections 4.3 and 6).
-/

/-- The all-values interval [MinKey, MaxKey]. -/
def allValuesInterval : BInterval :=
  ⟨.minKey, .maxKey, true, true⟩

/-- Modelled from the spec: IndexBoundsBuilder::allValuesForField binds the
OIL to the key element's field name with the single all-values interval. -/
def allValuesForField (kpElt : BElt) : OIL :=
  { name := kpElt.name, intervals := [allValuesInterval] }

/-- Modelled from the spec: IndexBoundsBuilder::allValuesBounds produces
all-values bounds across every key-pattern position. -/
def allValuesBounds (kp : BObj) : IndexBounds :=
  { fields := kp.map allValuesForField }

def reverseInterval (i : BInterval) : BInterval :=
  ⟨i.hi, i.lo, i.hiInclusive, i.loInclusive⟩

def reverseOIL (o : OIL) : OIL :=
  { name := o.name, intervals := (o.intervals.map reverseInterval).reverse }

/-- Whether the scan direction implied by the leading key column is -1. -/
def kpFirstDescending (kp : BObj) : Bool :=
  match kp.head? with
  | some e =>
    match e.val with
    | .int i => i < 0
    | .str _ => false
  | none => false

/-- Modelled from the spec: IndexBoundsBuilder::alignBounds aligns bounds to
the chosen direction, reversing the intervals when the direction is -1. -/
def alignBounds (bounds : IndexBounds) (kp : BObj) : IndexBounds :=
  if kpFirstDescending kp then
    { bounds with fields := bounds.fields.map reverseOIL }
  else bounds

/-- Modelled from the spec: QueryPlannerCommon::reverseScans reverses the
interval bounds of a scan for a backward traversal. -/
def reverseScanBounds (bounds : IndexBounds) : IndexBounds :=
  { bounds with fields := bounds.fields.map reverseOIL }

/-- The external collaborators kept abstract: the three translate
operations of the bounds builder (IndexBoundsBuilder::translate,
translateAndIntersect, translateAndUnion) and the solution-node property
calculators (QuerySolutionNode::getSort after computeProperties, and
sortedByDiskLoc), which live outside this repository snapshot. -/
structure PlannerOracle where
  translate : MatchExpr → BElt → IndexEntry → OIL × Tightness
  translateAndIntersect : MatchExpr → BElt → IndexEntry → OIL → OIL × Tightness
  translateAndUnion : MatchExpr → BElt → IndexEntry → OIL → OIL × Tightness
  getSort : QSN → List BObj
  sortedByDiskLoc : QSN → Bool

/-- Modelled from the spec: MatchExpression::shallowClone produces a
structurally equal copy of the predicate; with value semantics this is the
identity. -/
def shallowClone (e : MatchExpr) : MatchExpr := e

/-- QueryPlannerAccess::makeCollectionScan (planner_access.cpp lines 62-91). -/
def makeCollectionScan (query : CanonicalQuery) (tailable : Bool)
    (_params : QueryPlannerParams) : QSN :=
  let filter := some (shallowClone query.root)
  let dir0 : Int := 1
  let sortObj := query.parsed.sort
  let dir1 : Int :=
    if sortObj.isEmpty then dir0
    else
      match bobjGetField sortObj "$natural" with
      | some natural => if 0 ≤ natural.val.numberInt then 1 else -1
      | none => dir0
  let dir2 : Int :=
    if query.parsed.hint.isEmpty then dir1
    else
      match bobjGetField query.parsed.hint "$natural" with
      | some natural => if 0 ≤ natural.val.numberInt then 1 else -1
      | none => dir1
  .collScan query.ns filter tailable dir2 query.parsed.maxScan

/-- QueryPlannerAccess::makeLeafNode (planner_access.cpp lines 94-178).
Returns the new leaf together with the tightness out-parameter. -/
def makeLeafNode (ob : PlannerOracle) (query : CanonicalQuery)
    (index : IndexEntry) (pos : Nat) (expr : MatchExpr) :
    BuildResult (QSN × Tightness) :=
  let indexIs2D : Bool :=
    match index.keyPattern.head? with
    | some elt => elt.val = .str "2d"
    | none => false
  if expr.ty = .GEO_NEAR then
    -- 2d geoNear requires a hard limit and was taken out before this point:
    -- verify(!indexIs2D).
    if indexIs2D then .abort
    else
      let apm := match query.proj with
        | some p => p.wantGeoNearPoint
        | none => false
      let adm := match query.proj with
        | some p => p.wantGeoNearDistance
        | none => false
      let bb : IndexBounds :=
        { fields := List.replicate index.keyPattern.length {} }
      .ok (.geoNear2dsphere index.keyPattern expr.getGeoArg bb none apm adm,
           .EXACT)
  else if indexIs2D then
    -- verify(MatchExpression::GEO == expr->matchType()).
    if expr.ty = .GEO then
      .ok (.geo2d index.keyPattern expr.getGeoArg none, .EXACT)
    else .abort
  else if expr.ty = .TEXT then
    .ok (.textNode index.keyPattern expr.getTextQuery expr.getTextLanguage
          [] none, .EXACT)
  else
    match index.keyPattern[pos]? with
    | none => .abort  -- verify(it.more()) / verify(!keyElt.eoo())
    | some keyElt =>
      let (oil, tightness) := ob.translate expr keyElt index
      let bounds : IndexBounds :=
        { fields :=
            (List.replicate index.keyPattern.length ({} : OIL)).set pos oil }
      .ok (.ixscan index.keyPattern index.multikey bounds none 1
            query.parsed.maxScan query.parsed.returnKey, tightness)

/-- QueryPlannerAccess::shouldMergeWithLeaf (planner_access.cpp lines
180-219).  The NULL guards of the source cannot fire with value semantics;
none models a failed verify/invariant on an unexpected stage type or an
out-of-range key position. -/
def shouldMergeWithLeaf (_expr : MatchExpr) (index : IndexEntry) (pos : Nat)
    (node : QSN) (mergeType : MatchType) : Option Bool :=
  match node with
  | .geo2d _ _ _ => some true
  | .textNode _ _ _ _ _ => some true
  | .geoNear2dsphere _ _ _ _ _ _ => some true
  | .ixscan _ _ bounds _ _ _ _ =>
    match bounds.fields[pos]? with
    | none => none
    | some oil =>
      if oil.name = "" then some true
      else if mergeType = .AND then some (!index.multikey)
      else some true
  | _ => none  -- invariant(type == STAGE_IXSCAN)

/-- Shared key-element lookup plus OIL update for mergeWithLeafNode. -/
def mergeBoundsFields (ob : PlannerOracle) (expr : MatchExpr)
    (index : IndexEntry) (pos : Nat) (bounds : IndexBounds)
    (mergeType : MatchType) : BuildResult (IndexBounds × Tightness) :=
  match index.keyPattern[pos]? with
  | none => .abort  -- verify(it.more()) / verify(!keyElt.eoo())
  | some keyElt =>
    match bounds.fields[pos]? with
    | none => .abort  -- verify(boundsToFillOut->fields.size() > pos)
    | some oil =>
      if oil.name = "" then
        let (oil', t) := ob.translate expr keyElt index
        .ok ({ bounds with fields := bounds.fields.set pos oil' }, t)
      else if mergeType = .AND then
        let (oil', t) := ob.translateAndIntersect expr keyElt index oil
        .ok ({ bounds with fields := bounds.fields.set pos oil' }, t)
      else if mergeType = .OR then
        let (oil', t) := ob.translateAndUnion expr keyElt index oil
        .ok ({ bounds with fields := bounds.fields.set pos oil' }, t)
      else .abort  -- verify(MatchExpression::OR == mergeType)

/-- QueryPlannerAccess::mergeWithLeafNode (planner_access.cpp lines
221-282): updates the leaf in place and reports the tightness. -/
def mergeWithLeafNode (ob : PlannerOracle) (expr : MatchExpr)
    (index : IndexEntry) (pos : Nat) (node : QSN) (mergeType : MatchType) :
    BuildResult (QSN × Tightness) :=
  match node with
  | .geo2d kp g f => .ok (.geo2d kp g f, .INEXACT_FETCH)
  | .textNode kp q l p f => .ok (.textNode kp q l p f, .INEXACT_COVERED)
  | .geoNear2dsphere kp nq bb f ap ad =>
    match mergeBoundsFields ob expr index pos bb mergeType with
    | .ok (bb', t) => .ok (.geoNear2dsphere kp nq bb' f ap ad, t)
    | .noPlan => .noPlan
    | .abort => .abort
  | .ixscan kp mk bounds f d ms ak =>
    match mergeBoundsFields ob expr index pos bounds mergeType with
    | .ok (bounds', t) => .ok (.ixscan kp mk bounds' f d ms ak, t)
    | .noPlan => .noPlan
    | .abort => .abort
  | _ => .abort  -- verify(type == STAGE_IXSCAN)

/-- Number of text-index prefix columns: key-pattern positions before the
first String-typed element (the _fts field). -/
def textPrefixEnd : BObj → Nat
  | [] => 0
  | e :: r => if e.val.isString then 0 else textPrefixEnd r + 1

/-- The scan over the AND filter children of a text node (planner_access.cpp
lines 340-353): children whose tag position lies before prefixEnd are
stashed at their position in the prefix array and detached; the others are
kept, in order.  An untagged child fails invariant(NULL != ixtag). -/
def stashPrefixLoop (prefixEnd : Nat) :
    List MatchExpr → List (Option MatchExpr) → List MatchExpr →
    BuildResult (List (Option MatchExpr) × List MatchExpr)
  | [], arr, kept => .ok (arr, kept)
  | c :: rest, arr, kept =>
    match c.tag with
    | none => .abort
    | some ixtag =>
      if prefixEnd ≤ ixtag.pos then stashPrefixLoop prefixEnd rest arr (kept ++ [c])
      else stashPrefixLoop prefixEnd rest (arr.set ixtag.pos (some c)) kept

/-- Walk of the stashed prefix array (planner_access.cpp lines 356-365):
each slot must hold an EQ predicate whose data is appended to the index
prefix object. -/
def collectPrefixEqs : List (Option MatchExpr) → Option (List BElt)
  | [] => some []
  | none :: _ => none
  | some c :: rest =>
    if c.ty = .EQ then (collectPrefixEqs rest).map (fun l => c.getData :: l)
    else none

/-- QueryPlannerAccess::finishTextNode (planner_access.cpp lines 285-381). -/
def finishTextNode (node : QSN) (_index : IndexEntry) : BuildResult QSN :=
  match node with
  | .textNode kp q lang pfx filt =>
    let prefixEnd := textPrefixEnd kp
    if prefixEnd = 0 then .ok (.textNode kp q lang pfx filt)
    else
      match filt with
      | none => .abort  -- invariant(NULL != tn->filter.get())
      | some f =>
        if f.ty = .AND then
          if f.numChildren < prefixEnd then .abort  -- invariant(numChildren >= prefixEnd)
          else
            match stashPrefixLoop prefixEnd f.children
                (List.replicate prefixEnd none) [] with
            | .ok (arr, kept) =>
              match collectPrefixEqs arr with
              | none => .abort  -- invariant(prefix is a non-null EQ)
              | some elts =>
                let newFilt : Option MatchExpr :=
                  match kept with
                  | [] => none
                  | [c] => some c
                  | _ => some (.node f.ty f.tag f.pay kept)
                .ok (.textNode kp q lang elts newFilt)
            | .noPlan => .noPlan
            | .abort => .abort
        else
          -- Only one prefix term: invariant(1 == prefixEnd) and it is an EQ.
          if prefixEnd = 1 ∧ f.ty = .EQ then
            .ok (.textNode kp q lang [f.getData] none)
          else .abort
  | _ => .abort  -- static_cast<TextNode*> on a non-text stage

/-- The all-values fill loop of finishLeafNode (planner_access.cpp lines
436-449): starting at the first empty field, walk the remaining key-pattern
elements, synthesising all-values bounds for each still-empty position. -/
def fillAllValues : List BElt → Nat → List OIL → BuildResult (Nat × List OIL)
  | [], idx, fields => .ok (idx, fields)
  | kpElt :: rest, idx, fields =>
    match fields[idx]? with
    | none => .abort  -- out-of-range vector access
    | some o =>
      if o.name = "" then
        if o.intervals.isEmpty then
          fillAllValues rest (idx + 1) (fields.set idx (allValuesForField kpElt))
        else .abort  -- verify(intervals.empty())
      else fillAllValues rest (idx + 1) fields

/-- The bounds part of finishLeafNode (planner_access.cpp lines 397-457),
shared between index scans and 2dsphere-near scans. -/
def finishBounds (bounds : IndexBounds) (kp : BObj) : BuildResult IndexBounds :=
  let firstEmptyField := bounds.fields.findIdx (fun o => o.name = "")
  if firstEmptyField = bounds.fields.length then
    .ok (alignBounds bounds kp)
  else
    match bounds.fields[firstEmptyField]? with
    | none => .abort
    | some o =>
      if o.intervals.isEmpty = false then .abort  -- verify(intervals.empty())
      else if kp.length < firstEmptyField then .abort  -- verify(it.more())
      else
        match fillAllValues (kp.drop firstEmptyField) firstEmptyField
            bounds.fields with
        | .ok (idx, fields') =>
          if idx = fields'.length then
            .ok (alignBounds { bounds with fields := fields' } kp)
          else .abort  -- verify(firstEmptyField == bounds->fields.size())
        | .noPlan => .noPlan
        | .abort => .abort

/-- QueryPlannerAccess::finishLeafNode (planner_access.cpp lines 384-457). -/
def finishLeafNode (node : QSN) (index : IndexEntry) : BuildResult QSN :=
  match node with
  | .geo2d kp g f => .ok (.geo2d kp g f)
  | .textNode kp q l p f => finishTextNode (.textNode kp q l p f) index
  | .geoNear2dsphere kp nq bb f ap ad =>
    match finishBounds bb index.keyPattern with
    | .ok bb' => .ok (.geoNear2dsphere kp nq bb' f ap ad)
    | .noPlan => .noPlan
    | .abort => .abort
  | .ixscan kp mk bounds f d ms ak =>
    match finishBounds bounds index.keyPattern with
    | .ok bounds' => .ok (.ixscan kp mk bounds' f d ms ak)
    | .noPlan => .noPlan
    | .abort => .abort
  | _ => .abort  -- verify(type == STAGE_IXSCAN)

mutual

/-- QueryPlannerAccess::findElemMatchChildren (planner_access.cpp lines
460-473): collect tagged own-field predicates inside an $elemMatch subtree,
descending through AND and nested ELEM_MATCH_OBJECT nodes. -/
def findElemMatchChildren : MatchExpr → List MatchExpr
  | .node _ _ _ cs => femcChildren cs

def femcChildren : List MatchExpr → List MatchExpr
  | [] => []
  | c :: rest =>
    (if nodeCanUseIndexOnOwnField c ∧ c.tag ≠ none then [c]
     else if c.ty = .AND ∨ c.ty = .ELEM_MATCH_OBJECT then
       findElemMatchChildren c
     else []) ++ femcChildren rest

end

/-- QueryPlannerAccess::_addFilterToSolutionNode (planner_access.cpp lines
1138-1168).  none models the verify on a merge type that is neither AND
nor OR when the existing filter must be wrapped. -/
def addFilterToSolutionNode (node : QSN) (m : MatchExpr) (ty : MatchType) :
    Option QSN :=
  match node.getFilter with
  | none => some (node.setFilter (some m))
  | some f =>
    if f.ty = ty then some (node.setFilter (some (f.addChild m)))
    else if ty = .AND then
      some (node.setFilter (some (.node .AND none .nothing [shallowClone f, m])))
    else if ty = .OR then
      some (node.setFilter (some (.node .OR none .nothing [shallowClone f, m])))
    else none  -- verify(MatchExpression::OR == type)

/-- The mutable local state of processIndexScans: the in-flight scan being
extended, its index number, the children so far retained on the root, and
the emitted solution leaves. -/
structure ScanState where
  currentScan : Option QSN := none
  currentIndexNumber : Option Nat := none
  kept : List MatchExpr := []
  out : List QSN := []

/-- Finish and emit the in-flight scan before opening a new leaf
(planner_access.cpp lines 713-719 and 568-574): a missing scan requires
currentIndexNumber to be the kNoIndex sentinel. -/
def emitCurrentScan (indices : List IndexEntry) (st : ScanState) :
    BuildResult ScanState :=
  match st.currentScan with
  | some cs =>
    match st.currentIndexNumber with
    | none => .abort
    | some n =>
      match indices[n]? with
      | none => .abort
      | some idx =>
        match finishLeafNode cs idx with
        | .ok fin => .ok { st with currentScan := none, out := st.out ++ [fin] }
        | .noPlan => .noPlan
        | .abort => .abort
  | none =>
    if st.currentIndexNumber = none then .ok st
    else .abort  -- verify(IndexTag::kNoIndex == currentIndexNumber)

/-- Final flush when the child walk ends (planner_access.cpp lines
781-785). -/
def flushScanEnd (indices : List IndexEntry) (st : ScanState) :
    BuildResult ScanState :=
  match st.currentScan with
  | none => .ok st
  | some cs =>
    match st.currentIndexNumber with
    | none => .abort
    | some n =>
      match indices[n]? with
      | none => .abort
      | some idx =>
        match finishLeafNode cs idx with
        | .ok fin => .ok { st with currentScan := none, out := st.out ++ [fin] }
        | .noPlan => .noPlan
        | .abort => .abort

/-- The open-a-new-leaf path of the inner $elemMatch loop
(planner_access.cpp lines 567-591): emit the in-flight scan, make a new
leaf for the inner predicate on the outer tag's index, and attach the
predicate as an early filter when the bounds are INEXACT_COVERED over a
non-multikey index. -/
def elemMatchOpenNew (ob : PlannerOracle) (query : CanonicalQuery)
    (indices : List IndexEntry) (rootTy : MatchType) (outerIndex : Nat)
    (innerPos : Nat) (emChild : MatchExpr) (st : ScanState) :
    BuildResult ScanState :=
  match emitCurrentScan indices st with
  | .ok st1 =>
    match indices[outerIndex]? with
    | none => .abort
    | some idx =>
      match makeLeafNode ob query idx innerPos emChild with
      | .ok (cs, t) =>
        if t = .INEXACT_COVERED ∧ idx.multikey = false then
          match addFilterToSolutionNode cs emChild rootTy with
          | some cs' =>
            .ok { st1 with currentScan := some cs', currentIndexNumber := some outerIndex }
          | none => .abort
        else
          .ok { st1 with currentScan := some cs, currentIndexNumber := some outerIndex }
      | .noPlan => .noPlan
      | .abort => .abort
  | .noPlan => .noPlan
  | .abort => .abort

/-- The inner loop of processIndexScans over the tagged predicates found
inside an $elemMatch child of an AND (planner_access.cpp lines 541-592). -/
def elemMatchScanLoop (ob : PlannerOracle) (query : CanonicalQuery)
    (indices : List IndexEntry) (rootTy : MatchType) (outerIndex : Nat) :
    List MatchExpr → ScanState → BuildResult ScanState
  | [], st => .ok st
  | emChild :: rest, st =>
    match emChild.tag with
    | none => .abort  -- invariant(NULL != emChild->getTag())
    | some innerTag =>
      let step : BuildResult ScanState :=
        match st.currentScan, st.currentIndexNumber with
        | some cs, some n =>
          if n = outerIndex then
            match indices[n]? with
            | none => .abort
            | some idx =>
              match shouldMergeWithLeaf emChild idx innerTag.pos cs rootTy with
              | none => .abort
              | some true =>
                match mergeWithLeafNode ob emChild idx innerTag.pos cs rootTy with
                | .ok (cs', t) =>
                  if t = .INEXACT_COVERED ∧ idx.multikey = false then
                    match addFilterToSolutionNode cs' emChild rootTy with
                    | some cs'' => .ok { st with currentScan := some cs'' }
                    | none => .abort
                  else .ok { st with currentScan := some cs' }
                | .noPlan => .noPlan
                | .abort => .abort
              | some false =>
                elemMatchOpenNew ob query indices rootTy outerIndex
                  innerTag.pos emChild st
          else
            elemMatchOpenNew ob query indices rootTy outerIndex
              innerTag.pos emChild st
        | _, _ =>
          elemMatchOpenNew ob query indices rootTy outerIndex
            innerTag.pos emChild st
      match step with
      | .ok st' => elemMatchScanLoop ob query indices rootTy outerIndex rest st'
      | .noPlan => .noPlan
      | .abort => .abort

/-- The tightness dispatch after merging a child into the in-flight scan
(planner_access.cpp lines 659-710): EXACT drops the child; INEXACT_COVERED
over a text or non-multikey index detaches the child and affixes it to the
scan itself; under an OR root the leaf is finished, wrapped in a Fetch
carrying the child, emitted, and the state reset; otherwise the child is
kept on the root for later affixing. -/
def mergedScanDispatch (ob : PlannerOracle) (rootTy : MatchType) (idx : IndexEntry) (effPos : Nat)
    (child : MatchExpr) (cs : QSN) (st : ScanState) :
    BuildResult ScanState :=
  match mergeWithLeafNode ob child idx effPos cs rootTy with
  | .ok (cs', t) =>
    if t = .EXACT then
      .ok { st with currentScan := some cs' }
    else if t = .INEXACT_COVERED ∧ (idx.type = .text ∨ idx.multikey = false) then
      match addFilterToSolutionNode cs' child rootTy with
      | some cs'' => .ok { st with currentScan := some cs'' }
      | none => .abort
    else if rootTy = .OR then
      match finishLeafNode cs' idx with
      | .ok fin =>
        .ok { st with currentScan := none, currentIndexNumber := none, out := st.out ++ [.fetch (some child) [fin]] }
      | .noPlan => .noPlan
      | .abort => .abort
    else
      .ok { st with currentScan := some cs', kept := st.kept ++ [child] }
  | .noPlan => .noPlan
  | .abort => .abort

/-- The open-a-new-leaf path of the main loop (planner_access.cpp lines
712-778): emit the in-flight scan, open a new leaf, then dispatch on its
tightness (EXACT outside an array operator drops the child; INEXACT_COVERED
over a non-multikey index affixes it to the scan; under an OR root the leaf
is Fetch-wrapped with the child as filter; otherwise the child is kept). -/
def mainOpenNew (ob : PlannerOracle) (query : CanonicalQuery)
    (indices : List IndexEntry) (rootTy : MatchType) (inArrayOperator : Bool)
    (effIndex effPos : Nat) (child : MatchExpr) (st : ScanState) :
    BuildResult ScanState :=
  match emitCurrentScan indices st with
  | .ok st1 =>
    match indices[effIndex]? with
    | none => .abort
    | some idx =>
      match makeLeafNode ob query idx effPos child with
      | .ok (cs, t) =>
        if t = .EXACT ∧ inArrayOperator = false then
          .ok { st1 with currentScan := some cs, currentIndexNumber := some effIndex }
        else if t = .INEXACT_COVERED ∧ idx.multikey = false then
          match addFilterToSolutionNode cs child rootTy with
          | some cs' =>
            .ok { st1 with currentScan := some cs', currentIndexNumber := some effIndex }
          | none => .abort
        else if rootTy = .OR then
          match finishLeafNode cs idx with
          | .ok fin =>
            .ok { st1 with currentScan := none, currentIndexNumber := none, out := st1.out ++ [.fetch (some child) [fin]] }
          | .noPlan => .noPlan
          | .abort => .abort
        else
          .ok { st1 with currentScan := some cs, currentIndexNumber := some effIndex, kept := st1.kept ++ [child] }
      | .noPlan => .noPlan
      | .abort => .abort
  | .noPlan => .noPlan
  | .abort => .abort

/-- QueryPlannerAccess::processIndexScans (planner_access.cpp lines
476-788), with the recursion into buildIndexedDataAccess abstracted as the
function argument bida.  ok carries the children remaining on the root and
the emitted solution list; noPlan is the C++ return of false. -/
def processIndexScans (bida : MatchExpr → Bool → BuildResult QSN)
    (ob : PlannerOracle) (query : CanonicalQuery)
    (indices : List IndexEntry) (rootTy : MatchType)
    (inArrayOperator : Bool) :
    List MatchExpr → ScanState → BuildResult (List MatchExpr × List QSN)
  | [], st =>
    match flushScanEnd indices st with
    | .ok st' => .ok (st'.kept, st'.out)
    | .noPlan => .noPlan
    | .abort => .abort
  | child :: rest, st =>
    match child.tag with
    | none =>
      -- Untagged child: stop; this child and everything after it stays on
      -- the root (tagged children come first).
      match flushScanEnd indices { st with kept := st.kept ++ child :: rest } with
      | .ok st' => .ok (st'.kept, st'.out)
      | .noPlan => .noPlan
      | .abort => .abort
    | some ixtag =>
      if isBoundsGenerating child = false then
        if rootTy = .AND ∧ child.ty = .ELEM_MATCH_OBJECT then
          match elemMatchScanLoop ob query indices rootTy ixtag.index
              (findElemMatchChildren child) st with
          | .ok st' =>
            processIndexScans bida ob query indices rootTy inArrayOperator
              rest { st' with kept := st'.kept ++ [child] }
          | .noPlan => .noPlan
          | .abort => .abort
        else
          -- A logical child evaluates itself; outside an array operator it
          -- is detached from the root, inside one it stays attached.
          let stKeep :=
            if inArrayOperator then { st with kept := st.kept ++ [child] }
            else st
          match bida child inArrayOperator with
          | .ok childSolution =>
            processIndexScans bida ob query indices rootTy inArrayOperator
              rest { stKeep with out := stKeep.out ++ [childSolution] }
          | .noPlan => .noPlan
          | .abort => .abort
      else
        let effTagR : BuildResult IndexTag :=
          if child.ty = .NOT then
            match child.children.head? with
            | some c0 =>
              match c0.tag with
              | some t => .ok t  -- invariant(IndexTag::kNoIndex != ixtag->index)
              | none => .abort
            | none => .abort
          else .ok ixtag
        match effTagR with
        | .ok effTag =>
          let step : BuildResult ScanState :=
            match st.currentScan, st.currentIndexNumber with
            | some cs, some n =>
              if n = effTag.index then
                match indices[n]? with
                | none => .abort
                | some idx =>
                  match shouldMergeWithLeaf child idx effTag.pos cs rootTy with
                  | none => .abort
                  | some true =>
                    mergedScanDispatch ob rootTy idx effTag.pos child cs st
                  | some false =>
                    mainOpenNew ob query indices rootTy inArrayOperator
                      effTag.index effTag.pos child st
              else
                mainOpenNew ob query indices rootTy inArrayOperator
                  effTag.index effTag.pos child st
            | _, _ =>
              mainOpenNew ob query indices rootTy inArrayOperator
                effTag.index effTag.pos child st
          match step with
          | .ok st' =>
            processIndexScans bida ob query indices rootTy inArrayOperator
              rest st'
          | .noPlan => .noPlan
          | .abort => .abort
        | .noPlan => .noPlan
        | .abort => .abort

def MatchExpr.withChildren : MatchExpr → List MatchExpr → MatchExpr
  | .node t g p _, cs => .node t g p cs

/-- std::swap(children[i], children.back()) on a list; out-of-range indices
leave the list unchanged (they cannot arise at the call site). -/
def swapWithLast (cs : List QSN) (i : Nat) : List QSN :=
  match cs.getLast?, cs[i]? with
  | some last, some ci => (cs.set i last).set (cs.length - 1) ci
  | _, _ => cs

/-- The AndHash sort-provider search of buildIndexedAnd (planner_access.cpp
lines 842-849): the first child whose sort set contains the query's sort is
swapped with the last child. -/
def swapSortChildToBack (ob : PlannerOracle) (query : CanonicalQuery)
    (cs : List QSN) : List QSN :=
  match cs.findIdx? (fun c => (ob.getSort c).contains query.parsed.sort) with
  | some i => swapWithLast cs i
  | none => cs

/-- The tail of buildIndexedAnd (planner_access.cpp lines 853-883): outside
an array operator, children still attached to the AND are re-checked by a
Fetch above the intersection, unwrapping a one-child AND. -/
def fetchResidualAnd (root : MatchExpr) (inArrayOperator : Bool)
    (andResult : QSN) (kept : List MatchExpr) : BuildResult QSN :=
  if inArrayOperator then .ok andResult
  else if kept.length = 0 then .ok andResult
  else
    let filt : MatchExpr :=
      match kept with
      | [c] => c  -- an $and of one thing is that thing
      | _ => root.withChildren kept
    .ok (.fetch (some filt) [andResult])

/-- QueryPlannerAccess::buildIndexedAnd (planner_access.cpp lines 791-884),
with the recursion into buildIndexedDataAccess abstracted as bida. -/
def buildIndexedAnd (bida : MatchExpr → Bool → BuildResult QSN)
    (ob : PlannerOracle) (query : CanonicalQuery)
    (indices : List IndexEntry) (root : MatchExpr)
    (inArrayOperator : Bool) : BuildResult QSN :=
  match processIndexScans bida ob query indices root.ty inArrayOperator
      root.children {} with
  | .noPlan => .noPlan
  | .abort => .abort
  | .ok (kept, ixscanNodes) =>
    match ixscanNodes with
    | [] => .abort  -- verify(ixscanNodes.size() >= 1)
    | [single] =>
      -- Short-circuit: an AND of one child is just the child.
      fetchResidualAnd root inArrayOperator single kept
    | _ =>
      let andResult :=
        if ixscanNodes.all ob.sortedByDiskLoc then
          QSN.andSorted none ixscanNodes
        else
          QSN.andHash none (swapSortChildToBack ob query ixscanNodes)
      fetchResidualAnd root inArrayOperator andResult kept

/-- The shared-sort-order intersection loop of buildIndexedOr
(planner_access.cpp lines 929-944), with the early exit on an empty
intersection. -/
def intersectSortsFold (ob : PlannerOracle) :
    List BObj → List QSN → List BObj
  | shared, [] => shared
  | shared, s :: rest =>
    let isect := shared.filter (fun o => (ob.getSort s).contains o)
    if isect.isEmpty then isect else intersectSortsFold ob isect rest

/-- The stable partition moving text stages to the front of a node's
children (planner_access.cpp line 965). -/
def stablePartitionTextToFront (n : QSN) : QSN :=
  match n with
  | .fetch f cs =>
    .fetch f ((cs.partition QSN.isTextStage).1 ++ (cs.partition QSN.isTextStage).2)
  | .andHash f cs =>
    .andHash f ((cs.partition QSN.isTextStage).1 ++ (cs.partition QSN.isTextStage).2)
  | .andSorted f cs =>
    .andSorted f ((cs.partition QSN.isTextStage).1 ++ (cs.partition QSN.isTextStage).2)
  | .orNode f cs =>
    .orNode f ((cs.partition QSN.isTextStage).1 ++ (cs.partition QSN.isTextStage).2)
  | .mergeSort s f cs =>
    .mergeSort s f ((cs.partition QSN.isTextStage).1 ++ (cs.partition QSN.isTextStage).2)
  | other => other

/-- QueryPlannerAccess::buildIndexedOr (planner_access.cpp lines 887-972),
with the recursion into buildIndexedDataAccess abstracted as bida. -/
def buildIndexedOr (bida : MatchExpr → Bool → BuildResult QSN)
    (ob : PlannerOracle) (query : CanonicalQuery)
    (indices : List IndexEntry) (root : MatchExpr)
    (inArrayOperator : Bool) : BuildResult QSN :=
  match processIndexScans bida ob query indices root.ty inArrayOperator
      root.children {} with
  | .noPlan => .noPlan
  | .abort => .abort
  | .ok (kept, ixscanNodes) =>
    if inArrayOperator = false ∧ kept.length ≠ 0 then
      -- An OR cannot have filters hanging off of it: a non-indexed child
      -- of the OR is a fatal condition.
      .noPlan
    else
      match ixscanNodes with
      | [single] => .ok (stablePartitionTextToFront single)
      | _ =>
        let shouldMergeSortR : BuildResult Bool :=
          if query.parsed.sort.isEmpty then .ok false
          else
            match ixscanNodes with
            | [] => .abort  -- ixscanNodes[0] on an empty vector
            | s0 :: restScans =>
              let shared0 := ob.getSort s0
              let shared :=
                if shared0.isEmpty then shared0
                else intersectSortsFold ob shared0 restScans
              .ok (shared.contains query.parsed.sort)
        match shouldMergeSortR with
        | .ok sms =>
          let orResult :=
            if sms then QSN.mergeSort query.parsed.sort none ixscanNodes
            else QSN.orNode none ixscanNodes
          .ok (stablePartitionTextToFront orResult)
        | .noPlan => .noPlan
        | .abort => .abort

/-- The child-collection loop of the $all case of buildIndexedDataAccess
(planner_access.cpp lines 1050-1058): children whose recursive build
returns NULL are skipped. -/
def allBuildChildren (bida : MatchExpr → Bool → BuildResult QSN) :
    List MatchExpr → BuildResult (List QSN)
  | [] => .ok []
  | c :: rest =>
    match bida c true with
    | .abort => .abort
    | .noPlan => allBuildChildren bida rest
    | .ok s =>
      match allBuildChildren bida rest with
      | .ok l => .ok (s :: l)
      | .noPlan => .noPlan
      | .abort => .abort

/-- One step of QueryPlannerAccess::buildIndexedDataAccess
(planner_access.cpp lines 975-1095), parameterized by the recursive call
bida. -/
def buildStep (bida : MatchExpr → Bool → BuildResult QSN)
    (ob : PlannerOracle) (query : CanonicalQuery)
    (indices : List IndexEntry) (root : MatchExpr)
    (inArrayOperator : Bool) : BuildResult QSN :=
  if root.isLogical ∧ isBoundsGeneratingNot root = false then
    if root.ty = .AND then
      buildIndexedAnd bida ob query indices root inArrayOperator
    else if root.ty = .OR then
      buildIndexedOr bida ob query indices root inArrayOperator
    else
      -- Can't do anything with negated logical nodes index-wise.
      .noPlan
  else
    match root.tag with
    | none => .noPlan  -- no index to use here
    | some tag =>
      if isBoundsGenerating root then
        match indices[tag.index]? with
        | none => .abort
        | some idx =>
          match makeLeafNode ob query idx tag.pos root with
          | .ok (soln, tightness) =>
            match finishLeafNode soln idx with
            | .ok soln' =>
              if inArrayOperator then .ok soln'
              else if tightness = .EXACT then .ok soln'
              else if tightness = .INEXACT_COVERED ∧ idx.multikey = false then
                match soln'.getFilter with
                | some _ => .abort  -- verify(NULL == soln->filter.get())
                | none => .ok (soln'.setFilter (some root))
              else .ok (.fetch (some root) [soln'])
            | .noPlan => .noPlan
            | .abort => .abort
          | .noPlan => .noPlan
          | .abort => .abort
      else if arrayUsesIndexOnChildren root then
        let solutionR : BuildResult QSN :=
          if root.ty = .ALL then
            match allBuildChildren bida root.children with
            | .ok built =>
              match built with
              | [] => .noPlan  -- no children, no point in hashing nothing
              | [c] => .ok c   -- AND of one child is just that child
              | _ => .ok (.andHash none built)
            | .noPlan => .noPlan
            | .abort => .abort
          else
            -- ELEM_MATCH_OBJECT: verify(1 == root->numChildren()).
            match root.children with
            | [c] => bida c true
            | _ => .abort
        match solutionR with
        | .ok solution =>
          if inArrayOperator then .ok solution
          else .ok (.fetch (some root) [solution])
        | .noPlan => .noPlan
        | .abort => .abort
      else .noPlan

/-- QueryPlannerAccess::buildIndexedDataAccess with an explicit recursion
budget; the budget only bounds the recursion depth, exhausting it is an
abort and never a plan or a NULL result. -/
def buildIndexedDataAccess (ob : PlannerOracle) (query : CanonicalQuery)
    (indices : List IndexEntry) :
    Nat → MatchExpr → Bool → BuildResult QSN
  | 0, _, _ => .abort
  | fuel + 1, root, inArrayOperator =>
    buildStep
      (fun c inA => buildIndexedDataAccess ob query indices fuel c inA)
      ob query indices root inArrayOperator

/-- QueryPlannerAccess::scanWholeIndex (planner_access.cpp lines
1097-1135). -/
def scanWholeIndex (index : IndexEntry) (query : CanonicalQuery)
    (_params : QueryPlannerParams) (direction : Int) : QSN :=
  let bounds0 := allValuesBounds index.keyPattern
  let (bounds1, dir1) : IndexBounds × Int :=
    if direction = -1 then (reverseScanBounds bounds0, -1) else (bounds0, 1)
  let isn : QSN :=
    .ixscan index.keyPattern index.multikey bounds1 none dir1
      query.parsed.maxScan query.parsed.returnKey
  let filter := shallowClone query.root
  if filter.ty = .AND ∧ filter.numChildren = 0 then isn
  else .fetch (some filter) [isn]

/-- QueryPlannerAccess::makeIndexScan (planner_access.cpp lines
1170-1207). -/
def makeIndexScan (index : IndexEntry) (query : CanonicalQuery)
    (_params : QueryPlannerParams) (startKey endKey : BObj) : QSN :=
  let bounds : IndexBounds :=
    { isSimpleRange := true, startKey := startKey, endKey := endKey,
      endKeyInclusive := false }
  let isn : QSN :=
    .ixscan index.keyPattern index.multikey bounds none 1
      query.parsed.maxScan query.parsed.returnKey
  let filter := shallowClone query.root
  if filter.ty = .AND ∧ filter.numChildren = 0 then isn
  else .fetch (some filter) [isn]

/-- Whether a key pattern contains the "text" marker value (the _fts
column of a text index key pattern). -/
def kpHasTextMarker (kp : BObj) : Bool :=
  kp.any (fun e => e.val = .str "text")

mutual

/-- A predicate holds on every node of a solution tree. -/
def qsnAll (p : QSN → Prop) : QSN → Prop
  | .collScan a b c d e => p (.collScan a b c d e)
  | .ixscan a b c d e f g => p (.ixscan a b c d e f g)
  | .geo2d a b c => p (.geo2d a b c)
  | .geoNear2dsphere a b c d e f => p (.geoNear2dsphere a b c d e f)
  | .textNode a b c d e => p (.textNode a b c d e)
  | .fetch f cs => p (.fetch f cs) ∧ qsnAllList p cs
  | .andHash f cs => p (.andHash f cs) ∧ qsnAllList p cs
  | .andSorted f cs => p (.andSorted f cs) ∧ qsnAllList p cs
  | .orNode f cs => p (.orNode f cs) ∧ qsnAllList p cs
  | .mergeSort s f cs => p (.mergeSort s f cs) ∧ qsnAllList p cs

def qsnAllList (p : QSN → Prop) : List QSN → Prop
  | [] => True
  | c :: cs => qsnAll p c ∧ qsnAllList p cs

end

/-- Multikey covered-filter safety of a single node: an index scan over a
multikey index whose key pattern is not that of a text index carries no
filter. -/
def multikeyCoveredSafe (n : QSN) : Prop :=
  match n with
  | .ixscan kp mk _ f _ _ _ =>
    mk = true → kpHasTextMarker kp = false → f = none
  | _ => True

/-- One OIL is properly bound to its key-pattern element: it carries the
element's field name and a non-empty interval list. -/
def oilBoundOk (kpElt : BElt) (o : OIL) : Prop :=
  o.name = kpElt.name ∧ o.intervals ≠ []

/-- Bounds of an in-flight scan: one OIL per key-pattern position, each
either still untouched (empty name, no intervals) or properly bound. -/
def partialBoundsOk (kp : BObj) (bounds : IndexBounds) : Prop :=
  bounds.fields.length = kp.length ∧
  ∀ (i : Nat) o e, bounds.fields[i]? = some o → kp[i]? = some e →
    (o.name = "" ∧ o.intervals = []) ∨ oilBoundOk e o

/-- Finished bounds: one OIL per key-pattern position, every position
properly bound. -/
def finishedBoundsOk (kp : BObj) (bounds : IndexBounds) : Prop :=
  bounds.fields.length = kp.length ∧
  ∀ (i : Nat) o e, bounds.fields[i]? = some o → kp[i]? = some e → oilBoundOk e o

/-- Finished-bounds invariant of a single solution node, relative to the
node's own recorded key pattern: index scans have one properly bound OIL
per key-pattern position (simple-range scans excepted, as they carry no
per-field bounds at all). -/
def ixscanBoundsFinished (n : QSN) : Prop :=
  match n with
  | .ixscan kp _ bounds _ _ _ _ => finishedBoundsOk kp bounds
  | _ => True

/-- A bounds-builder obeying its contract: every translate-family output
is bound to the supplied key element's field with at least one interval. -/
def oracleBoundsContract (ob : PlannerOracle) : Prop :=
  (∀ e k idx, oilBoundOk k (ob.translate e k idx).1) ∧
  (∀ e k idx o, oilBoundOk k (ob.translateAndIntersect e k idx o).1) ∧
  (∀ e k idx o, oilBoundOk k (ob.translateAndUnion e k idx o).1)

/-- A catalog in which text indexes are recognisable from their key
pattern: every text-typed index has the "text" marker in its pattern. -/
def textIndexesMarked (indices : List IndexEntry) : Prop :=
  ∀ idx ∈ indices, idx.type = .text → kpHasTextMarker idx.keyPattern = true

/-!
Concrete fixtures used by the witnesses: a deterministic bounds builder
(point bounds named after the key element; EXACT for equalities,
INEXACT_COVERED for regexes, INEXACT_FETCH for mod), small key patterns,
indices and tagged predicate trees.
-/

def sampleTightness (e : MatchExpr) : Tightness :=
  match e.ty with
  | .REGEX => .INEXACT_COVERED
  | .MOD => .INEXACT_FETCH
  | _ => .EXACT

def sampleOIL (e : MatchExpr) (keyElt : BElt) : OIL :=
  { name := keyElt.name
    intervals := [⟨.scalar e.getData.val, .scalar e.getData.val, true, true⟩] }

def sampleOracle : PlannerOracle :=
  { translate := fun e k _ => (sampleOIL e k, sampleTightness e)
    translateAndIntersect := fun e k _ _ => (sampleOIL e k, sampleTightness e)
    translateAndUnion := fun e k _ _ => (sampleOIL e k, sampleTightness e)
    getSort := fun _ => []
    sortedByDiskLoc := fun _ => false }

def kpA : BObj := [⟨"a", .int 1⟩]
def kpB : BObj := [⟨"b", .int 1⟩]
def kpC : BObj := [⟨"c", .int 1⟩]
def kpAB : BObj := [⟨"a", .int 1⟩, ⟨"b", .int 1⟩]

def idxA : IndexEntry := ⟨kpA, false, .btree⟩
def idxB : IndexEntry := ⟨kpB, false, .btree⟩
def idxC : IndexEntry := ⟨kpC, false, .btree⟩
def idxAB : IndexEntry := ⟨kpAB, false, .btree⟩

def eqPred (f : String) (v : Int) (tag : Option IndexTag) : MatchExpr :=
  .node .EQ tag (.elt ⟨f, .int v⟩) []

def regexPred (f : String) (tag : Option IndexTag) : MatchExpr :=
  .node .REGEX tag (.elt ⟨f, .str "re"⟩) []

def modPred (f : String) (tag : Option IndexTag) : MatchExpr :=
  .node .MOD tag (.elt ⟨f, .int 2⟩) []

def andRootAB : MatchExpr :=
  .node .AND none .nothing
    [eqPred "a" 5 (some ⟨0, 0⟩), eqPred "b" 7 (some ⟨0, 1⟩)]

def qAB : CanonicalQuery := { root := andRootAB }

/-- Projection of a solution node's recorded index key pattern (empty for
non-index nodes); used to tell concrete scans apart. -/
def qsnKeyPattern : QSN → BObj
  | .ixscan kp _ _ _ _ _ _ => kp
  | .geo2d kp _ _ => kp
  | .geoNear2dsphere kp _ _ _ _ _ => kp
  | .textNode kp _ _ _ _ => kp
  | _ => []

/-- C2: for shouldMergeWithLeaf on an existing IndexScan leaf, an unbound
position (empty OIL name) is always mergeable; a bound position is always
mergeable under an OR merge, and under an AND merge is mergeable exactly
when the index is not multikey. -/
theorem c2_shouldMergeWithLeaf_ixscan_spec
    (expr : MatchExpr) (index : IndexEntry) (pos : Nat)
    (kp : BObj) (mk : Bool) (bounds : IndexBounds) (f : Option MatchExpr)
    (d : Int) (ms : Nat) (ak : Bool) (oil : OIL)
    (hpos : bounds.fields[pos]? = some oil) :
    (oil.name = "" → ∀ mt,
      shouldMergeWithLeaf expr index pos (.ixscan kp mk bounds f d ms ak) mt
        = some true) ∧
    (oil.name ≠ "" →
      shouldMergeWithLeaf expr index pos (.ixscan kp mk bounds f d ms ak) .OR
        = some true) ∧
    (oil.name ≠ "" →
      shouldMergeWithLeaf expr index pos (.ixscan kp mk bounds f d ms ak) .AND
        = some (!index.multikey)) := by
  refine ⟨fun h mt => ?_, fun h => ?_, fun h => ?_⟩ <;>
    simp [shouldMergeWithLeaf, hpos, h]

/-- Witness for C2 at a concrete leaf: position 0 of the bounds holds the
default (unbound) OIL, so every merge kind is accepted; rebinding the OIL
name exercises the bound-position cases. -/
theorem c2_shouldMergeWithLeaf_ixscan_spec_witness :
    (([({} : OIL)] : List OIL)[0]? = some ({} : OIL) ∧
      (({} : OIL).name = "" → ∀ mt,
        shouldMergeWithLeaf (eqPred "a" 5 none) idxA 0
          (.ixscan kpA false { fields := [{}] } none 1 0 false) mt
          = some true)) ∧
    ((([⟨"a", []⟩] : List OIL)[0]? = some (⟨"a", []⟩ : OIL) ∧
      ((⟨"a", []⟩ : OIL).name ≠ "" →
        shouldMergeWithLeaf (eqPred "a" 5 none) idxA 0
          (.ixscan kpA false { fields := [⟨"a", []⟩] } none 1 0 false) .AND
          = some (!idxA.multikey)))) :=
  ⟨⟨rfl, (c2_shouldMergeWithLeaf_ixscan_spec (eqPred "a" 5 none) idxA 0
      kpA false { fields := [{}] } none 1 0 false {} rfl).1⟩,
   ⟨rfl, (c2_shouldMergeWithLeaf_ixscan_spec (eqPred "a" 5 none) idxA 0
      kpA false { fields := [⟨"a", []⟩] } none 1 0 false ⟨"a", []⟩ rfl).2.2⟩⟩

def qEmptyAnd : CanonicalQuery := { root := .node .AND none .nothing [] }

/-- C10 counterexample: the claim says each of the three scan constructors
discards the cloned root filter when the root is the empty AND, but
makeCollectionScan attaches the clone unconditionally: on a query whose
root is the empty AND the produced collection scan still carries the
cloned (empty-AND) filter instead of none. -/
theorem c10_makeCollectionScan_keeps_empty_and_filter :
    (makeCollectionScan qEmptyAnd false {}).getFilter
        = some (.node .AND none .nothing []) ∧
    (makeCollectionScan qEmptyAnd false {}).getFilter ≠ none :=
  ⟨rfl, by simp [makeCollectionScan, QSN.getFilter]⟩

/-- C10 amended: makeCollectionScan always attaches a shallow clone of the
canonical query's root as the collection scan's filter, even for the empty
AND; scanWholeIndex and makeIndexScan attach the clone exactly when the
root is not the empty AND, returning the bare index scan otherwise.  The
caller's predicate tree itself is never consumed: all three constructors
read the root only through shallowClone. -/
theorem c10_scan_constructors_filter_spec :
    (∀ (q : CanonicalQuery) (t : Bool) (p : QueryPlannerParams),
      (makeCollectionScan q t p).getFilter = some (shallowClone q.root)) ∧
    (∀ (idx : IndexEntry) (q : CanonicalQuery) (p : QueryPlannerParams)
        (d : Int),
      (q.root.ty = .AND ∧ q.root.numChildren = 0 →
        (scanWholeIndex idx q p d).getFilter = none) ∧
      (¬(q.root.ty = .AND ∧ q.root.numChildren = 0) →
        (scanWholeIndex idx q p d).getFilter = some (shallowClone q.root))) ∧
    (∀ (idx : IndexEntry) (q : CanonicalQuery) (p : QueryPlannerParams)
        (startKey endKey : BObj),
      (q.root.ty = .AND ∧ q.root.numChildren = 0 →
        (makeIndexScan idx q p startKey endKey).getFilter = none) ∧
      (¬(q.root.ty = .AND ∧ q.root.numChildren = 0) →
        (makeIndexScan idx q p startKey endKey).getFilter
          = some (shallowClone q.root))) := by
  refine ⟨fun q t p => rfl, fun idx q p d => ⟨fun h => ?_, fun h => ?_⟩,
    fun idx q p s e => ⟨fun h => ?_, fun h => ?_⟩⟩ <;>
    simp [scanWholeIndex, makeIndexScan, shallowClone, QSN.getFilter, h]

/-- Witness for the amended C10 theorem: the empty-AND query keeps no
filter on a whole-index scan, while a two-predicate AND query gets the
cloned root as the fetch filter of makeIndexScan. -/
theorem c10_scan_constructors_filter_spec_witness :
    ((qEmptyAnd.root.ty = .AND ∧ qEmptyAnd.root.numChildren = 0) ∧
      (scanWholeIndex idxA qEmptyAnd {} 1).getFilter = none) ∧
    (¬(qAB.root.ty = .AND ∧ qAB.root.numChildren = 0) ∧
      (makeIndexScan idxA qAB {} [] []).getFilter
        = some (shallowClone qAB.root)) :=
  ⟨⟨⟨rfl, rfl⟩,
    (c10_scan_constructors_filter_spec.2.1 idxA qEmptyAnd {} 1).1 ⟨rfl, rfl⟩⟩,
   ⟨by simp [qAB, andRootAB, MatchExpr.numChildren, MatchExpr.children,
       MatchExpr.ty],
    (c10_scan_constructors_filter_spec.2.2 idxA qAB {} [] []).2
      (by simp [qAB, andRootAB, MatchExpr.numChildren, MatchExpr.children,
        MatchExpr.ty])⟩⟩

/-- C7: in buildIndexedAnd, an empty leaf-solution list from the scan
collector fails the plan (the verify aborts, so no plan reaches the
caller), and a singleton list short-circuits: no intersection node is
built, the single element itself is the result (wrapped in the standard
residual Fetch only when residual children remain outside an array
operator). -/
theorem c7_buildIndexedAnd_empty_single
    (bida : MatchExpr → Bool → BuildResult QSN) (ob : PlannerOracle)
    (query : CanonicalQuery) (indices : List IndexEntry) (root : MatchExpr)
    (inArrayOperator : Bool) (kept : List MatchExpr) (scans : List QSN)
    (hpis : processIndexScans bida ob query indices root.ty inArrayOperator
      root.children {} = .ok (kept, scans)) :
    (scans = [] →
      buildIndexedAnd bida ob query indices root inArrayOperator = .abort ∧
      ∀ s, buildIndexedAnd bida ob query indices root inArrayOperator
        ≠ .ok s) ∧
    (∀ s, scans = [s] →
      (buildIndexedAnd bida ob query indices root inArrayOperator = .ok s ∨
       ∃ f, buildIndexedAnd bida ob query indices root inArrayOperator
         = .ok (.fetch (some f) [s]))) ∧
    (∀ s, scans = [s] → (inArrayOperator = true ∨ kept = []) →
      buildIndexedAnd bida ob query indices root inArrayOperator = .ok s) := by
  refine ⟨fun hempty => ?_, fun s hone => ?_, fun s hone hbare => ?_⟩
  · subst hempty
    simp [buildIndexedAnd, hpis]
  · subst hone
    simp only [buildIndexedAnd, hpis, fetchResidualAnd]
    by_cases hA : inArrayOperator
    · simp [hA]
    · simp only [hA, if_false]
      by_cases hk : kept.length = 0
      · simp [hk]
      · right
        cases kept with
        | nil => simp at hk
        | cons c cs =>
          cases cs with
          | nil => exact ⟨c, by simp⟩
          | cons d ds => exact ⟨root.withChildren (c :: d :: ds), by simp⟩
  · subst hone
    simp only [buildIndexedAnd, hpis, fetchResidualAnd]
    rcases hbare with hA | hk
    · simp [hA]
    · subst hk
      simp

/-- Witness for C7: the two-equality AND over the compound index produces
the singleton scan list with no residual children, and buildIndexedAnd
returns that single scan unchanged. -/
theorem c7_buildIndexedAnd_empty_single_witness :
    processIndexScans (fun _ _ => .abort) sampleOracle qAB [idxAB]
        (MatchExpr.ty andRootAB) false (MatchExpr.children andRootAB) {}
      = .ok ([], [.ixscan kpAB false
          { fields := [⟨"a", [⟨.scalar (.int 5), .scalar (.int 5), true, true⟩]⟩,
                       ⟨"b", [⟨.scalar (.int 7), .scalar (.int 7), true, true⟩]⟩] }
          none 1 0 false]) ∧
    buildIndexedAnd (fun _ _ => .abort) sampleOracle qAB [idxAB] andRootAB false
      = .ok (.ixscan kpAB false
          { fields := [⟨"a", [⟨.scalar (.int 5), .scalar (.int 5), true, true⟩]⟩,
                       ⟨"b", [⟨.scalar (.int 7), .scalar (.int 7), true, true⟩]⟩] }
          none 1 0 false) :=
  ⟨rfl,
   (c7_buildIndexedAnd_empty_single (fun _ _ => .abort) sampleOracle qAB
      [idxAB] andRootAB false [] _ rfl).2.2 _ rfl (Or.inr rfl)⟩

/-- C6: buildIndexedOr returns the no-plan failure whenever, outside an
array operator, the OR root still has children after scan collection (an
OR branch could not be indexed): no solution node is produced. -/
theorem c6_buildIndexedOr_residual_noPlan
    (bida : MatchExpr → Bool → BuildResult QSN) (ob : PlannerOracle)
    (query : CanonicalQuery) (indices : List IndexEntry) (root : MatchExpr)
    (kept : List MatchExpr) (scans : List QSN)
    (hpis : processIndexScans bida ob query indices root.ty false
      root.children {} = .ok (kept, scans))
    (hkept : kept ≠ []) :
    buildIndexedOr bida ob query indices root false = .noPlan ∧
    ∀ s, buildIndexedOr bida ob query indices root false ≠ .ok s := by
  have hlen : kept.length ≠ 0 := by
    simpa [List.length_eq_zero] using hkept
  constructor
  · simp [buildIndexedOr, hpis, hlen]
  · intro s
    simp [buildIndexedOr, hpis, hlen]

def orRootResidual : MatchExpr :=
  .node .OR none .nothing
    [eqPred "a" 5 (some ⟨0, 0⟩), eqPred "c" 9 none]

def qOrResidual : CanonicalQuery := { root := orRootResidual }

/-- Witness for C6: an OR whose second branch is untagged leaves that
branch on the root after scan collection, and buildIndexedOr fails with
the no-plan result. -/
theorem c6_buildIndexedOr_residual_noPlan_witness :
    processIndexScans (fun _ _ => .abort) sampleOracle qOrResidual [idxA]
        (MatchExpr.ty orRootResidual) false
        (MatchExpr.children orRootResidual) {}
      = .ok ([eqPred "c" 9 none],
          [.ixscan kpA false
            { fields := [⟨"a", [⟨.scalar (.int 5), .scalar (.int 5), true,
                true⟩]⟩] } none 1 0 false]) ∧
    ([eqPred "c" 9 none] : List MatchExpr) ≠ [] ∧
    buildIndexedOr (fun _ _ => .abort) sampleOracle qOrResidual [idxA]
      orRootResidual false = .noPlan :=
  ⟨rfl, by simp,
   (c6_buildIndexedOr_residual_noPlan (fun _ _ => .abort) sampleOracle
      qOrResidual [idxA] orRootResidual [eqPred "c" 9 none] _ rfl
      (by simp)).1⟩

/-- The child-collection loop of the $all case keeps, in order, exactly
the non-NULL recursively built plans (with the array-operator flag set). -/
theorem allBuildChildren_ok_eq (bida : MatchExpr → Bool → BuildResult QSN) :
    ∀ (cs : List MatchExpr) (built : List QSN),
      allBuildChildren bida cs = .ok built →
      built = cs.filterMap (fun c =>
        match bida c true with
        | .ok s => some s
        | _ => none) := by
  intro cs
  induction cs with
  | nil =>
    intro built h
    simp only [allBuildChildren] at h
    cases h
    simp
  | cons c rest ih =>
    intro built h
    simp only [allBuildChildren] at h
    rcases hb : bida c true with s | _ | _ <;> rw [hb] at h
    · rcases hr : allBuildChildren bida rest with l | _ | _ <;> rw [hr] at h
      · cases h
        simp [List.filterMap_cons, hb, ih _ hr]
      · cases h
      · cases h
    · simp [List.filterMap_cons, hb, ih _ h]
    · cases h

/-- C9: on an $all node, buildIndexedDataAccess builds an AndHash whose
children are the recursively built indexed plans of the sub-clauses (with
inArrayOperator set, NULL results skipped); zero children fail with the
no-plan result, one child collapses the AndHash to that child. -/
theorem c9_buildIndexedDataAccess_all (ob : PlannerOracle)
    (query : CanonicalQuery) (indices : List IndexEntry) (fuel : Nat)
    (tag : IndexTag) (pay : ExprPayload) (cs : List MatchExpr)
    (inArrayOperator : Bool) (built : List QSN)
    (hab : allBuildChildren
      (fun c b => buildIndexedDataAccess ob query indices fuel c b) cs
      = .ok built) :
    built = cs.filterMap (fun c =>
      match buildIndexedDataAccess ob query indices fuel c true with
      | .ok s => some s
      | _ => none) ∧
    (built = [] →
      buildIndexedDataAccess ob query indices (fuel + 1)
        (.node .ALL (some tag) pay cs) inArrayOperator = .noPlan) ∧
    (∀ c, built = [c] →
      buildIndexedDataAccess ob query indices (fuel + 1)
        (.node .ALL (some tag) pay cs) inArrayOperator
      = if inArrayOperator then .ok c
        else .ok (.fetch (some (.node .ALL (some tag) pay cs)) [c])) ∧
    (2 ≤ built.length →
      buildIndexedDataAccess ob query indices (fuel + 1)
        (.node .ALL (some tag) pay cs) inArrayOperator
      = if inArrayOperator then .ok (.andHash none built)
        else .ok (.fetch (some (.node .ALL (some tag) pay cs))
            [.andHash none built])) := by
  have hguards :
      (MatchExpr.node .ALL (some tag) pay cs).isLogical = false ∧
      isBoundsGenerating (.node .ALL (some tag) pay cs) = false ∧
      arrayUsesIndexOnChildren (.node .ALL (some tag) pay cs) = true := by
    refine ⟨rfl, ?_, rfl⟩
    simp [isBoundsGenerating, nodeCanUseIndexOnOwnField, isBoundsGeneratingNot,
      MatchExpr.ty, MatchExpr.children]
  refine ⟨allBuildChildren_ok_eq _ cs built hab, fun hempty => ?_,
    fun c hone => ?_, fun htwo => ?_⟩
  · subst hempty
    simp [buildIndexedDataAccess, buildStep, hguards.1, hguards.2.1,
      hguards.2.2, MatchExpr.isLogical, MatchExpr.ty, MatchExpr.tag,
      MatchExpr.children, hab]
  · subst hone
    by_cases hA : inArrayOperator <;>
      simp [buildIndexedDataAccess, buildStep, MatchExpr.isLogical,
        MatchExpr.ty, MatchExpr.tag, MatchExpr.children, hab, hguards.2.1,
        isBoundsGenerating, nodeCanUseIndexOnOwnField, isBoundsGeneratingNot,
        arrayUsesIndexOnChildren, hA]
  · match built, htwo with
    | b1 :: b2 :: brest, _ =>
      by_cases hA : inArrayOperator <;>
        simp [buildIndexedDataAccess, buildStep, MatchExpr.isLogical,
          MatchExpr.ty, MatchExpr.tag, MatchExpr.children, hab, hguards.2.1,
          isBoundsGenerating, nodeCanUseIndexOnOwnField,
          isBoundsGeneratingNot, arrayUsesIndexOnChildren, hA]

def allRoot2 : MatchExpr :=
  .node .ALL (some ⟨0, 0⟩) .nothing
    [eqPred "a" 5 (some ⟨0, 0⟩), eqPred "b" 6 (some ⟨1, 0⟩)]

def qAll2 : CanonicalQuery := { root := allRoot2 }

def scanA5 : QSN :=
  .ixscan kpA false
    { fields := [⟨"a", [⟨.scalar (.int 5), .scalar (.int 5), true, true⟩]⟩] }
    none 1 0 false

def scanB6 : QSN :=
  .ixscan kpB false
    { fields := [⟨"b", [⟨.scalar (.int 6), .scalar (.int 6), true, true⟩]⟩] }
    none 1 0 false

/-- Witness for C9: a two-clause $all builds both sub-plans with the
array-operator flag set and wraps their AndHash in a Fetch carrying the
$all node. -/
theorem c9_buildIndexedDataAccess_all_witness :
    allBuildChildren
      (fun c b => buildIndexedDataAccess sampleOracle qAll2 [idxA, idxB] 2 c b)
      (MatchExpr.children allRoot2) = .ok [scanA5, scanB6] ∧
    buildIndexedDataAccess sampleOracle qAll2 [idxA, idxB] 3 allRoot2 false
      = .ok (.fetch (some allRoot2) [.andHash none [scanA5, scanB6]]) :=
  ⟨rfl, by
    have h := (c9_buildIndexedDataAccess_all sampleOracle qAll2 [idxA, idxB]
      2 ⟨0, 0⟩ .nothing (MatchExpr.children allRoot2) false
      [scanA5, scanB6] rfl).2.2.2 (by simp)
    simpa [allRoot2, MatchExpr.children] using h⟩

def sortX : BObj := [⟨"x", .int 1⟩]

/-- Oracle for the AndHash sort-placement scenario: only the scan over
key pattern {a:1} advertises the requested sort. -/
def cexSortOracle : PlannerOracle :=
  { sampleOracle with
    getSort := fun s =>
      match s with
      | .ixscan kp _ _ _ _ _ _ => if kp = kpA then [sortX] else []
      | _ => [] }

def cexAnd3 : MatchExpr :=
  .node .AND none .nothing
    [eqPred "a" 5 (some ⟨0, 0⟩), eqPred "b" 6 (some ⟨1, 0⟩),
     eqPred "c" 7 (some ⟨2, 0⟩)]

def qCex3 : CanonicalQuery := { root := cexAnd3, parsed := { sort := sortX } }

def scanC7 : QSN :=
  .ixscan kpC false
    { fields := [⟨"c", [⟨.scalar (.int 7), .scalar (.int 7), true, true⟩]⟩] }
    none 1 0 false

/-- Pointwise description of the std::swap of children[i] with the last
child: position i receives the old last element, the last position
receives the old element i, and every other position is unchanged. -/
theorem swapWithLast_spec (cs : List QSN) (i : Nat) (hi : i < cs.length) :
    (swapWithLast cs i).length = cs.length ∧
    (swapWithLast cs i)[i]? = cs.getLast? ∧
    (swapWithLast cs i)[cs.length - 1]? = cs[i]? ∧
    ∀ j : Nat, j ≠ i → j ≠ cs.length - 1 →
      (swapWithLast cs i)[j]? = cs[j]? := by
  have hpos : 0 < cs.length := Nat.lt_of_le_of_lt (Nat.zero_le i) hi
  have hlast' : cs.getLast? = cs[cs.length - 1]? := List.getLast?_eq_getElem? cs
  obtain ⟨ci, hci⟩ : ∃ x, cs[i]? = some x := ⟨_, List.getElem?_eq_getElem hi⟩
  have hl1 : cs.length - 1 < cs.length := Nat.sub_lt hpos Nat.one_pos
  obtain ⟨last, hlast⟩ : ∃ x, cs[cs.length - 1]? = some x :=
    ⟨_, List.getElem?_eq_getElem hl1⟩
  have hswap : swapWithLast cs i = (cs.set i last).set (cs.length - 1) ci := by
    unfold swapWithLast
    rw [hlast', hlast, hci]
  refine ⟨by simp [hswap], ?_, ?_, ?_⟩
  · by_cases hie : i = cs.length - 1
    · subst hie
      have hcl : ci = last := by
        have h2 := hci.symm.trans hlast
        exact (Option.some.injEq _ _).mp h2
      subst hcl
      rw [hswap, hlast']
      rw [List.getElem?_set_eq_of_lt _ (by simpa using hl1), hlast]
    · rw [hswap, hlast']
      rw [List.getElem?_set_ne (fun h => hie h.symm)]
      rw [List.getElem?_set_eq_of_lt _ hi, hlast]
  · by_cases hie : i = cs.length - 1
    · subst hie
      rw [hswap]
      rw [List.getElem?_set_eq_of_lt _ (by simpa using hi), hci]
    · rw [hswap]
      rw [List.getElem?_set_eq_of_lt _ (by simpa using hl1), hci]
  · intro j hji hjl
    rw [hswap]
    rw [List.getElem?_set_ne (fun h => hjl h.symm)]
    rw [List.getElem?_set_ne (fun h => hji h.symm)]

/-- C8 counterexample: with three scans where the first child is the one
advertising the requested sort, buildIndexedAnd produces the AndHash
children [c, b, a] — the previously last child jumps to the front — while
the claimed rotation would produce [b, c, a]; the two orders differ (the
key patterns of the displaced scans differ). -/
theorem c8_counterexample :
    buildIndexedDataAccess cexSortOracle qCex3 [idxA, idxB, idxC] 2 cexAnd3
        false
      = .ok (.andHash none [scanC7, scanB6, scanA5]) ∧
    [scanC7, scanB6, scanA5].map qsnKeyPattern
      ≠ [scanB6, scanC7, scanA5].map qsnKeyPattern :=
  ⟨rfl, by decide⟩

/-- C8 amended: when buildIndexedAnd builds an AndHash and some child's
sort set contains the query's requested sort, the first such child (index
i) is swapped with the last child: it moves to the last position, the
previously last child takes position i, and every other child keeps its
position (so the relative order of the others is preserved only when
i is already one of the last two positions). -/
theorem c8_buildIndexedAnd_andHash_swap
    (bida : MatchExpr → Bool → BuildResult QSN) (ob : PlannerOracle)
    (query : CanonicalQuery) (indices : List IndexEntry) (root : MatchExpr)
    (kept : List MatchExpr) (scans : List QSN) (i : Nat)
    (hpis : processIndexScans bida ob query indices root.ty false
      root.children {} = .ok (kept, scans))
    (hkept : kept = [])
    (hlen : 2 ≤ scans.length)
    (hns : scans.all ob.sortedByDiskLoc = false)
    (hfind : scans.findIdx?
      (fun c => (ob.getSort c).contains query.parsed.sort) = some i)
    (hi : i < scans.length) :
    ∃ ch, buildIndexedAnd bida ob query indices root false
        = .ok (.andHash none ch) ∧
      ch.length = scans.length ∧
      ch[i]? = scans.getLast? ∧
      ch[scans.length - 1]? = scans[i]? ∧
      ∀ j : Nat, j ≠ i → j ≠ scans.length - 1 → ch[j]? = scans[j]? := by
  subst hkept
  cases scans with
  | nil => simp at hlen
  | cons s1 rest =>
    cases rest with
    | nil => simp at hlen
    | cons s2 srest =>
      refine ⟨swapWithLast (s1 :: s2 :: srest) i, ?_,
        (swapWithLast_spec _ i hi).1, (swapWithLast_spec _ i hi).2.1,
        (swapWithLast_spec _ i hi).2.2.1, (swapWithLast_spec _ i hi).2.2.2⟩
      have hsw : swapSortChildToBack ob query (s1 :: s2 :: srest)
          = swapWithLast (s1 :: s2 :: srest) i := by
        unfold swapSortChildToBack
        rw [hfind]
      simp only [buildIndexedAnd, hpis]
      rw [hns]
      simp only [Bool.false_eq_true, if_false, hsw, fetchResidualAnd]
      simp

/-- Witness for the amended C8 theorem at the three-scan fixture: the
sort-providing scan sits at index 0 and is swapped with the last scan. -/
theorem c8_buildIndexedAnd_andHash_swap_witness :
    processIndexScans (fun _ _ => .abort) cexSortOracle qCex3
        [idxA, idxB, idxC] (MatchExpr.ty cexAnd3) false
        (MatchExpr.children cexAnd3) {}
      = .ok ([], [scanA5, scanB6, scanC7]) ∧
    ([scanA5, scanB6, scanC7].all cexSortOracle.sortedByDiskLoc = false) ∧
    ([scanA5, scanB6, scanC7].findIdx?
      (fun c => (cexSortOracle.getSort c).contains qCex3.parsed.sort)
        = some 0) ∧
    (∃ ch, buildIndexedAnd (fun _ _ => .abort) cexSortOracle qCex3
        [idxA, idxB, idxC] cexAnd3 false = .ok (.andHash none ch) ∧
      ch.length = [scanA5, scanB6, scanC7].length ∧
      ch[0]? = [scanA5, scanB6, scanC7].getLast? ∧
      ch[[scanA5, scanB6, scanC7].length - 1]? = [scanA5, scanB6, scanC7][0]? ∧
      ∀ j : Nat, j ≠ 0 → j ≠ [scanA5, scanB6, scanC7].length - 1 →
        ch[j]? = [scanA5, scanB6, scanC7][j]?) :=
  ⟨rfl, rfl, rfl,
   c8_buildIndexedAnd_andHash_swap (fun _ _ => .abort) cexSortOracle qCex3
     [idxA, idxB, idxC] cexAnd3 [] [scanA5, scanB6, scanC7] 0 rfl rfl
     (by simp) rfl rfl (by simp)⟩

/-- Whether a (tagged) predicate sits at or beyond the text prefix end. -/
def tagPosAtLeast (k : Nat) (c : MatchExpr) : Bool :=
  match c.tag with
  | some t => decide (k ≤ t.pos)
  | none => false

/-- Characterisation of the prefix-stash walk: on success every walked
child was tagged, the kept children are exactly those tagged at or beyond
prefixEnd (in order), the array keeps its length, and every newly stashed
slot i holds a walked child tagged at position i (below prefixEnd). -/
theorem stashPrefixLoop_ok (k : Nat) :
    ∀ (cs : List MatchExpr) (arr : List (Option MatchExpr))
      (kept : List MatchExpr) (arr' : List (Option MatchExpr))
      (kept' : List MatchExpr),
      stashPrefixLoop k cs arr kept = .ok (arr', kept') →
      (∀ c ∈ cs, c.tag ≠ none) ∧
      kept' = kept ++ cs.filter (tagPosAtLeast k) ∧
      arr'.length = arr.length ∧
      (∀ (i : Nat) (c : MatchExpr), arr'[i]? = some (some c) →
        arr[i]? = some (some c) ∨
        (c ∈ cs ∧ ∃ t, c.tag = some t ∧ t.pos = i ∧ t.pos < k)) := by
  intro cs
  induction cs with
  | nil =>
    intro arr kept arr' kept' h
    simp only [stashPrefixLoop] at h
    cases h
    exact ⟨by simp, by simp, rfl, fun i c hi => Or.inl hi⟩
  | cons c rest ih =>
    intro arr kept arr' kept' h
    simp only [stashPrefixLoop] at h
    rcases htag : c.tag with _ | t <;> simp only [htag] at h
    · cases h
    · by_cases hpos : k ≤ t.pos
      · rw [if_pos hpos] at h
        obtain ⟨htags, hkept, hlen, harr⟩ := ih _ _ _ _ h
        refine ⟨?_, ?_, hlen, ?_⟩
        · intro x hx
          rcases List.mem_cons.mp hx with rfl | hx
          · simp [htag]
          · exact htags x hx
        · rw [hkept, List.filter_cons]
          simp [tagPosAtLeast, htag, hpos]
        · intro i x hi
          rcases harr i x hi with h1 | ⟨hmem, ht⟩
          · exact Or.inl h1
          · exact Or.inr ⟨List.mem_cons_of_mem _ hmem, ht⟩
      · rw [if_neg hpos] at h
        obtain ⟨htags, hkept, hlen, harr⟩ := ih _ _ _ _ h
        refine ⟨?_, ?_, by rw [hlen]; simp, ?_⟩
        · intro x hx
          rcases List.mem_cons.mp hx with rfl | hx
          · simp [htag]
          · exact htags x hx
        · rw [hkept, List.filter_cons]
          simp [tagPosAtLeast, htag, hpos]
        · intro i x hi
          rcases harr i x hi with h1 | ⟨hmem, ht⟩
          · rw [List.getElem?_set] at h1
            by_cases hit : t.pos = i
            · by_cases hlt : t.pos < arr.length
              · rw [if_pos hit, if_pos hlt] at h1
                cases h1
                exact Or.inr ⟨List.mem_cons_self _ _,
                  t, htag, hit, Nat.lt_of_not_le hpos⟩
              · rw [if_pos hit, if_neg hlt] at h1
                cases h1
            · rw [if_neg hit] at h1
              exact Or.inl h1
          · exact Or.inr ⟨List.mem_cons_of_mem _ hmem, ht⟩

/-- Characterisation of the prefix-collection walk: on success the output
has one BSON element per slot, each the data of the EQ predicate stashed
in that slot. -/
theorem collectPrefixEqs_ok :
    ∀ (arr : List (Option MatchExpr)) (elts : List BElt),
      collectPrefixEqs arr = some elts →
      elts.length = arr.length ∧
      ∀ (i : Nat) (e : BElt), elts[i]? = some e →
        ∃ c, arr[i]? = some (some c) ∧ c.ty = .EQ ∧ e = c.getData := by
  intro arr
  induction arr with
  | nil =>
    intro elts h
    simp only [collectPrefixEqs] at h
    cases h
    exact ⟨rfl, by simp⟩
  | cons o rest ih =>
    intro elts h
    rcases o with _ | c
    · simp [collectPrefixEqs] at h
    · simp only [collectPrefixEqs] at h
      by_cases heq : c.ty = .EQ
      · rw [if_pos heq] at h
        rcases hr : collectPrefixEqs rest with _ | l <;> rw [hr] at h
        · cases h
        · obtain ⟨hlen, hall⟩ := ih l hr
          cases h
          refine ⟨by simp [hlen], ?_⟩
          intro i e hi
          cases i with
          | zero =>
            simp only [List.getElem?_cons_zero] at hi
            cases hi
            exact ⟨c, by simp, heq, rfl⟩
          | succ j =>
            simp only [List.getElem?_cons_succ] at hi
            obtain ⟨c', hc', hty, hdata⟩ := hall j e hi
            exact ⟨c', by simpa using hc', hty, hdata⟩
      · rw [if_neg heq] at h
        cases h

/-- C5: for a Text leaf over a key pattern with prefixEnd > 0 prefix
columns, a successful finishTextNode extracts exactly prefixEnd BSON
elements into the index prefix, position i coming from an equality
predicate of the filter tagged at key position i; those equalities are
detached, an emptied AND clears the filter and a single survivor replaces
the AND (a non-AND filter must be the single prefix equality itself and is
cleared). -/
theorem c5_finishTextNode_prefix
    (index : IndexEntry) (kp : BObj) (q lang : String) (pfx : BObj)
    (f : MatchExpr) (outNode : QSN)
    (hk : 0 < textPrefixEnd kp)
    (hfin : finishTextNode (.textNode kp q lang pfx (some f)) index
      = .ok outNode) :
    ∃ elts newFilt, outNode = .textNode kp q lang elts newFilt ∧
      elts.length = textPrefixEnd kp ∧
      (f.ty = .AND →
        (∀ (i : Nat) (e : BElt), elts[i]? = some e →
          ∃ c ∈ f.children, c.ty = .EQ ∧
            (∃ t, c.tag = some t ∧ t.pos = i ∧ t.pos < textPrefixEnd kp) ∧
            e = c.getData) ∧
        newFilt = (match f.children.filter (tagPosAtLeast (textPrefixEnd kp))
          with
          | [] => none
          | [c] => some c
          | kept => some (.node f.ty f.tag f.pay kept))) ∧
      (f.ty ≠ .AND →
        textPrefixEnd kp = 1 ∧ f.ty = .EQ ∧ elts = [f.getData] ∧
        newFilt = none) := by
  have hk0 : textPrefixEnd kp ≠ 0 := Nat.pos_iff_ne_zero.mp hk
  simp only [finishTextNode, hk0, if_false] at hfin
  by_cases hAnd : f.ty = .AND
  · rw [if_pos hAnd] at hfin
    by_cases hnum : f.numChildren < textPrefixEnd kp
    · rw [if_pos hnum] at hfin
      cases hfin
    · rw [if_neg hnum] at hfin
      rcases hst : stashPrefixLoop (textPrefixEnd kp) f.children
          (List.replicate (textPrefixEnd kp) none) [] with ⟨arr', kept'⟩ | _ | _ <;>
        simp only [hst] at hfin
      · rcases hco : collectPrefixEqs arr' with _ | elts <;>
          simp only [hco] at hfin
        · cases hfin
        · obtain ⟨htags, hkept, hlen, harr⟩ :=
            stashPrefixLoop_ok (textPrefixEnd kp) f.children _ _ _ _ hst
          obtain ⟨helen, hall⟩ := collectPrefixEqs_ok arr' elts hco
          cases hfin
          refine ⟨elts, _, rfl, ?_, fun _ => ⟨?_, ?_⟩, fun hne => absurd hAnd hne⟩
          · rw [helen, hlen, List.length_replicate]
          · intro i e hi
            obtain ⟨c, hci, hty, hdata⟩ := hall i e hi
            rcases harr i c hci with h1 | ⟨hmem, t, ht, hpos, hlt⟩
            · exfalso
              rw [List.getElem?_replicate] at h1
              by_cases hik : i < textPrefixEnd kp <;> simp [hik] at h1
            · exact ⟨c, hmem, hty, ⟨t, ht, hpos, hlt⟩, hdata⟩
          · rw [hkept, List.nil_append]
            cases hfl : List.filter (tagPosAtLeast (textPrefixEnd kp))
                f.children with
            | nil => rfl
            | cons c1 rest1 => cases rest1 <;> simp [hfl]
      · cases hfin
      · cases hfin
  · rw [if_neg hAnd] at hfin
    by_cases hone : textPrefixEnd kp = 1 ∧ f.ty = .EQ
    · rw [if_pos hone] at hfin
      cases hfin
      exact ⟨[f.getData], none, rfl, by simp [hone.1], fun h => absurd h hAnd,
        fun _ => ⟨hone.1, hone.2, rfl, rfl⟩⟩
    · rw [if_neg hone] at hfin
      cases hfin

def kpText : BObj :=
  [⟨"category", .int 1⟩, ⟨"_fts", .str "text"⟩, ⟨"_ftsx", .int 1⟩]

def idxText : IndexEntry := ⟨kpText, false, .text⟩

def textFilterAnd : MatchExpr :=
  .node .AND none .nothing
    [eqPred "category" 1 (some ⟨0, 0⟩), eqPred "z" 3 (some ⟨0, 2⟩)]

/-- Witness for C5: a text index with one prefix column; the AND filter
holds the prefix equality (tag position 0) and one suffix predicate; the
prefix equality is extracted into the index prefix and the surviving only
child replaces the AND. -/
theorem c5_finishTextNode_prefix_witness :
    0 < textPrefixEnd kpText ∧
    finishTextNode (.textNode kpText "hi" "en" [] (some textFilterAnd))
        idxText
      = .ok (.textNode kpText "hi" "en" [⟨"category", .int 1⟩]
          (some (eqPred "z" 3 (some ⟨0, 2⟩)))) ∧
    (∃ elts newFilt,
      (QSN.textNode kpText "hi" "en" [⟨"category", .int 1⟩]
          (some (eqPred "z" 3 (some ⟨0, 2⟩))))
        = .textNode kpText "hi" "en" elts newFilt ∧
      elts.length = textPrefixEnd kpText ∧
      (textFilterAnd.ty = .AND →
        (∀ (i : Nat) (e : BElt), elts[i]? = some e →
          ∃ c ∈ textFilterAnd.children, c.ty = .EQ ∧
            (∃ t, c.tag = some t ∧ t.pos = i ∧ t.pos < textPrefixEnd kpText) ∧
            e = c.getData) ∧
        newFilt = (match textFilterAnd.children.filter
            (tagPosAtLeast (textPrefixEnd kpText)) with
          | [] => none
          | [c] => some c
          | kept => some (.node textFilterAnd.ty textFilterAnd.tag
              textFilterAnd.pay kept))) ∧
      (textFilterAnd.ty ≠ .AND →
        textPrefixEnd kpText = 1 ∧ textFilterAnd.ty = .EQ ∧
        elts = [textFilterAnd.getData] ∧ newFilt = none)) :=
  ⟨by decide, rfl,
   c5_finishTextNode_prefix idxText kpText "hi" "en" [] textFilterAnd _
     (by decide) rfl⟩

/-- Merge-branch OR fallback of processIndexScans: when a bounds-generating
child merges into the in-flight scan and the tightness dispatch reaches
neither the EXACT nor the covered-attach case under an OR root, the leaf is
finished, wrapped in a Fetch carrying the child as filter, pushed, and the
scan state is reset. -/
theorem pis_merge_or_fetch
    (bida : MatchExpr → Bool → BuildResult QSN) (ob : PlannerOracle)
    (query : CanonicalQuery) (indices : List IndexEntry)
    (inArrayOperator : Bool) (child : MatchExpr) (rest : List MatchExpr)
    (st : ScanState) (ixtag : IndexTag) (cs : QSN) (idx : IndexEntry)
    (cs' : QSN) (t : Tightness) (fin : QSN)
    (htag : child.tag = some ixtag)
    (hbg : isBoundsGenerating child = true)
    (hnot : child.ty ≠ .NOT)
    (hcs : st.currentScan = some cs)
    (hn : st.currentIndexNumber = some ixtag.index)
    (hidx : indices[ixtag.index]? = some idx)
    (hsm : shouldMergeWithLeaf child idx ixtag.pos cs .OR = some true)
    (hmerge : mergeWithLeafNode ob child idx ixtag.pos cs .OR = .ok (cs', t))
    (hnex : t ≠ .EXACT)
    (hncov : ¬(t = .INEXACT_COVERED ∧ (idx.type = .text ∨ idx.multikey = false)))
    (hfin : finishLeafNode cs' idx = .ok fin) :
    processIndexScans bida ob query indices .OR inArrayOperator
        (child :: rest) st
      = processIndexScans bida ob query indices .OR inArrayOperator rest
          { st with currentScan := none, currentIndexNumber := none, out := st.out ++ [.fetch (some child) [fin]] } := by
  simp only [processIndexScans, htag, hbg, Bool.true_eq_false, if_false,
    reduceCtorEq, if_neg, hnot, hcs, hn, hidx, hsm,
    mergedScanDispatch, hmerge, hnex, hncov, hfin]
  simp

/-- New-leaf OR fallback of processIndexScans: with no in-flight scan, a
bounds-generating child whose fresh leaf is neither EXACT (outside an array
operator) nor covered-attachable is finished at once, wrapped in a Fetch
carrying the child, pushed, and the state left reset. -/
theorem pis_open_or_fetch
    (bida : MatchExpr → Bool → BuildResult QSN) (ob : PlannerOracle)
    (query : CanonicalQuery) (indices : List IndexEntry)
    (inArrayOperator : Bool) (child : MatchExpr) (rest : List MatchExpr)
    (st : ScanState) (ixtag : IndexTag) (idx : IndexEntry)
    (cs : QSN) (t : Tightness) (fin : QSN)
    (htag : child.tag = some ixtag)
    (hbg : isBoundsGenerating child = true)
    (hnot : child.ty ≠ .NOT)
    (hcs : st.currentScan = none)
    (hn : st.currentIndexNumber = none)
    (hidx : indices[ixtag.index]? = some idx)
    (hmk : makeLeafNode ob query idx ixtag.pos child = .ok (cs, t))
    (hnex : ¬(t = .EXACT ∧ inArrayOperator = false))
    (hncov : ¬(t = .INEXACT_COVERED ∧ idx.multikey = false))
    (hfin : finishLeafNode cs idx = .ok fin) :
    processIndexScans bida ob query indices .OR inArrayOperator
        (child :: rest) st
      = processIndexScans bida ob query indices .OR inArrayOperator rest
          { st with currentScan := none, currentIndexNumber := none, out := st.out ++ [.fetch (some child) [fin]] } := by
  simp only [processIndexScans, htag, hbg, Bool.true_eq_false, if_false,
    reduceCtorEq, if_neg, hnot, hcs, hn,
    mainOpenNew, emitCurrentScan, hidx, hmk, hnex, hncov, hfin]
  simp [emitCurrentScan, hcs, hn, hidx, hmk, hnex, hncov, hfin]

/-- Result shape of buildIndexedOr outside an array operator with several
collected scans: the root must have been emptied, and the result is a bare
Or (or MergeSort parameterized by the requested sort) over the
text-partitioned scans, carrying no filter; buildIndexedOr never wraps its
result in a Fetch and never attaches a residual filter on or above the
OR. -/
theorem bio_or_structure
    (bida : MatchExpr → Bool → BuildResult QSN) (ob : PlannerOracle)
    (query : CanonicalQuery) (indices : List IndexEntry) (root : MatchExpr)
    (kept : List MatchExpr) (scans : List QSN) (sol : QSN)
    (hpis : processIndexScans bida ob query indices root.ty false
      root.children {} = .ok (kept, scans))
    (hmulti : scans.length ≠ 1)
    (hok : buildIndexedOr bida ob query indices root false = .ok sol) :
    kept = [] ∧
    (sol = .orNode none ((scans.partition QSN.isTextStage).1
        ++ (scans.partition QSN.isTextStage).2) ∨
     sol = .mergeSort query.parsed.sort none
        ((scans.partition QSN.isTextStage).1
          ++ (scans.partition QSN.isTextStage).2)) := by
  simp only [buildIndexedOr, hpis] at hok
  by_cases hk : kept.length = 0
  · have hkept : kept = [] := List.length_eq_zero.mp hk
    refine ⟨hkept, ?_⟩
    rw [hkept] at hok
    simp only [List.length_nil, false_and, reduceCtorEq, if_neg,
      not_false_eq_true, ne_eq] at hok
    · rcases scans with _ | ⟨s1, rest⟩
      · by_cases hsort : query.parsed.sort.isEmpty
        · simp only [hsort, if_pos rfl] at hok
          simp only [if_true] at hok
          cases hok
          left
          rfl
        · simp [hsort] at hok
      · rcases rest with _ | ⟨s2, rest2⟩
        · simp at hmulti
        · by_cases hsort : query.parsed.sort.isEmpty
          · simp only [hsort, if_true] at hok
            cases hok
            left
            rfl
          · simp only [hsort, if_false] at hok
            rcases hsms : (if (ob.getSort s1).isEmpty then ob.getSort s1
                else intersectSortsFold ob (ob.getSort s1)
                  (s2 :: rest2)).contains query.parsed.sort with _ | _ <;>
              rw [hsms] at hok
            · cases hok
              left
              rfl
            · cases hok
              right
              rfl
  · exfalso
    have : kept.length ≠ 0 := hk
    simp [this] at hok

/-- C3: OR residuals never float.  Under an OR root, whenever a
bounds-generating child's tightness dispatch reaches neither the EXACT
case nor the covered-attach case — in the merge branch or in the new-leaf
branch — the current leaf is finished, wrapped in a Fetch whose filter is
that child, the Fetch is pushed to the output and the in-flight state is
reset; and a buildIndexedOr result over several scans is a bare Or or
MergeSort over the text-partitioned scans with no filter attached on or
above it (its root necessarily emptied). -/
theorem c3_or_residuals_never_float :
    (∀ (bida : MatchExpr → Bool → BuildResult QSN) (ob : PlannerOracle)
       (query : CanonicalQuery) (indices : List IndexEntry)
       (inArrayOperator : Bool) (child : MatchExpr) (rest : List MatchExpr)
       (st : ScanState) (ixtag : IndexTag) (cs : QSN) (idx : IndexEntry)
       (cs' : QSN) (t : Tightness) (fin : QSN),
      child.tag = some ixtag →
      isBoundsGenerating child = true →
      child.ty ≠ .NOT →
      st.currentScan = some cs →
      st.currentIndexNumber = some ixtag.index →
      indices[ixtag.index]? = some idx →
      shouldMergeWithLeaf child idx ixtag.pos cs .OR = some true →
      mergeWithLeafNode ob child idx ixtag.pos cs .OR = .ok (cs', t) →
      t ≠ .EXACT →
      ¬(t = .INEXACT_COVERED ∧ (idx.type = .text ∨ idx.multikey = false)) →
      finishLeafNode cs' idx = .ok fin →
      processIndexScans bida ob query indices .OR inArrayOperator
          (child :: rest) st
        = processIndexScans bida ob query indices .OR inArrayOperator rest
            { st with currentScan := none, currentIndexNumber := none, out := st.out ++ [.fetch (some child) [fin]] }) ∧
    (∀ (bida : MatchExpr → Bool → BuildResult QSN) (ob : PlannerOracle)
       (query : CanonicalQuery) (indices : List IndexEntry)
       (inArrayOperator : Bool) (child : MatchExpr) (rest : List MatchExpr)
       (st : ScanState) (ixtag : IndexTag) (idx : IndexEntry) (cs : QSN)
       (t : Tightness) (fin : QSN),
      child.tag = some ixtag →
      isBoundsGenerating child = true →
      child.ty ≠ .NOT →
      st.currentScan = none →
      st.currentIndexNumber = none →
      indices[ixtag.index]? = some idx →
      makeLeafNode ob query idx ixtag.pos child = .ok (cs, t) →
      ¬(t = .EXACT ∧ inArrayOperator = false) →
      ¬(t = .INEXACT_COVERED ∧ idx.multikey = false) →
      finishLeafNode cs idx = .ok fin →
      processIndexScans bida ob query indices .OR inArrayOperator
          (child :: rest) st
        = processIndexScans bida ob query indices .OR inArrayOperator rest
            { st with currentScan := none, currentIndexNumber := none, out := st.out ++ [.fetch (some child) [fin]] }) ∧
    (∀ (bida : MatchExpr → Bool → BuildResult QSN) (ob : PlannerOracle)
       (query : CanonicalQuery) (indices : List IndexEntry)
       (root : MatchExpr) (kept : List MatchExpr) (scans : List QSN)
       (sol : QSN),
      processIndexScans bida ob query indices root.ty false
          root.children {} = .ok (kept, scans) →
      scans.length ≠ 1 →
      buildIndexedOr bida ob query indices root false = .ok sol →
      kept = [] ∧
      (sol = .orNode none ((scans.partition QSN.isTextStage).1
          ++ (scans.partition QSN.isTextStage).2) ∨
       sol = .mergeSort query.parsed.sort none
          ((scans.partition QSN.isTextStage).1
            ++ (scans.partition QSN.isTextStage).2))) :=
  ⟨fun bida ob query indices inA child rest st ixtag cs idx cs' t fin
      h1 h2 h3 h4 h5 h6 h7 h8 h9 h10 h11 =>
    pis_merge_or_fetch bida ob query indices inA child rest st ixtag cs idx
      cs' t fin h1 h2 h3 h4 h5 h6 h7 h8 h9 h10 h11,
   fun bida ob query indices inA child rest st ixtag idx cs t fin
      h1 h2 h3 h4 h5 h6 h7 h8 h9 h10 =>
    pis_open_or_fetch bida ob query indices inA child rest st ixtag idx cs
      t fin h1 h2 h3 h4 h5 h6 h7 h8 h9 h10,
   fun bida ob query indices root kept scans sol h1 h2 h3 =>
    bio_or_structure bida ob query indices root kept scans sol h1 h2 h3⟩

def scanAmod : QSN :=
  .ixscan kpA false
    { fields := [⟨"a", [⟨.scalar (.int 2), .scalar (.int 2), true, true⟩]⟩] }
    none 1 0 false

def orRoot2 : MatchExpr :=
  .node .OR none .nothing
    [eqPred "a" 5 (some ⟨0, 0⟩), eqPred "b" 6 (some ⟨1, 0⟩)]

def qOr2 : CanonicalQuery := { root := orRoot2 }

/-- Witness for C3: part one is exercised by a mod predicate (an
INEXACT_FETCH merge under an OR root) against an in-flight equality scan,
which gets fetch-wrapped; part three by a fully indexed two-branch OR,
which becomes a bare Or node with no filter. -/
theorem c3_or_residuals_never_float_witness :
    (shouldMergeWithLeaf (modPred "a" (some ⟨0, 0⟩)) idxA 0 scanA5 .OR
        = some true ∧
      mergeWithLeafNode sampleOracle (modPred "a" (some ⟨0, 0⟩)) idxA 0
        scanA5 .OR = .ok (scanAmod, .INEXACT_FETCH) ∧
      finishLeafNode scanAmod idxA = .ok scanAmod ∧
      processIndexScans (fun _ _ => .abort) sampleOracle qOr2 [idxA]
          .OR false [modPred "a" (some ⟨0, 0⟩)]
          { currentScan := some scanA5, currentIndexNumber := some 0 }
        = processIndexScans (fun _ _ => .abort) sampleOracle qOr2 [idxA]
            .OR false []
            { currentScan := none, currentIndexNumber := none, kept := [],
              out := [.fetch (some (modPred "a" (some ⟨0, 0⟩))) [scanAmod]] }) ∧
    (processIndexScans (fun _ _ => .abort) sampleOracle qOr2 [idxA, idxB]
        (MatchExpr.ty orRoot2) false (MatchExpr.children orRoot2) {}
      = .ok ([], [scanA5, scanB6]) ∧
      buildIndexedOr (fun _ _ => .abort) sampleOracle qOr2 [idxA, idxB]
        orRoot2 false = .ok (.orNode none [scanA5, scanB6]) ∧
      ([] : List MatchExpr) = [] ∧
      ((QSN.orNode none [scanA5, scanB6])
          = .orNode none (([scanA5, scanB6].partition QSN.isTextStage).1
            ++ ([scanA5, scanB6].partition QSN.isTextStage).2) ∨
       (QSN.orNode none [scanA5, scanB6])
          = .mergeSort qOr2.parsed.sort none
            (([scanA5, scanB6].partition QSN.isTextStage).1
              ++ ([scanA5, scanB6].partition QSN.isTextStage).2))) :=
  ⟨⟨rfl, rfl, rfl,
    c3_or_residuals_never_float.1 (fun _ _ => .abort) sampleOracle qOr2
      [idxA] false (modPred "a" (some ⟨0, 0⟩)) []
      { currentScan := some scanA5, currentIndexNumber := some 0 }
      ⟨0, 0⟩ scanA5 idxA scanAmod .INEXACT_FETCH scanAmod
      rfl rfl (by simp [modPred, MatchExpr.ty]) rfl rfl rfl rfl rfl
      (by simp) (by simp) rfl⟩,
   rfl, rfl, rfl,
   (c3_or_residuals_never_float.2.2 (fun _ _ => .abort) sampleOracle qOr2
      [idxA, idxB] orRoot2 [] [scanA5, scanB6]
      (.orNode none [scanA5, scanB6]) rfl (by simp) rfl).2⟩

/-- Merge-branch covered-attach of processIndexScans: an INEXACT_COVERED
merge over a text or non-multikey index detaches the child from the root
(kept children unchanged) and affixes it to the scan itself. -/
theorem pis_merge_covered_attach
    (bida : MatchExpr → Bool → BuildResult QSN) (ob : PlannerOracle)
    (query : CanonicalQuery) (indices : List IndexEntry)
    (rootTy : MatchType) (inArrayOperator : Bool) (child : MatchExpr)
    (rest : List MatchExpr) (st : ScanState) (ixtag : IndexTag) (cs : QSN)
    (idx : IndexEntry) (cs' cs'' : QSN)
    (htag : child.tag = some ixtag)
    (hbg : isBoundsGenerating child = true)
    (hnot : child.ty ≠ .NOT)
    (hcs : st.currentScan = some cs)
    (hn : st.currentIndexNumber = some ixtag.index)
    (hidx : indices[ixtag.index]? = some idx)
    (hsm : shouldMergeWithLeaf child idx ixtag.pos cs rootTy = some true)
    (hmerge : mergeWithLeafNode ob child idx ixtag.pos cs rootTy
      = .ok (cs', .INEXACT_COVERED))
    (hguard : idx.type = .text ∨ idx.multikey = false)
    (haf : addFilterToSolutionNode cs' child rootTy = some cs'') :
    processIndexScans bida ob query indices rootTy inArrayOperator
        (child :: rest) st
      = processIndexScans bida ob query indices rootTy inArrayOperator rest
          { st with currentScan := some cs'' } := by
  simp only [processIndexScans, htag, hbg, Bool.true_eq_false, if_false,
    reduceCtorEq, if_neg, hnot, hcs, hn, hidx, hsm,
    mergedScanDispatch, hmerge, hguard, haf]
  simp [hguard, haf]

/-- Merge-branch covered fallback under an AND root: an INEXACT_COVERED
merge over a multikey non-text index leaves the child attached to the root
(appended to the kept children) and does not touch the scan's filter. -/
theorem pis_merge_covered_multikey_keep
    (bida : MatchExpr → Bool → BuildResult QSN) (ob : PlannerOracle)
    (query : CanonicalQuery) (indices : List IndexEntry)
    (inArrayOperator : Bool) (child : MatchExpr)
    (rest : List MatchExpr) (st : ScanState) (ixtag : IndexTag) (cs : QSN)
    (idx : IndexEntry) (cs' : QSN)
    (htag : child.tag = some ixtag)
    (hbg : isBoundsGenerating child = true)
    (hnot : child.ty ≠ .NOT)
    (hcs : st.currentScan = some cs)
    (hn : st.currentIndexNumber = some ixtag.index)
    (hidx : indices[ixtag.index]? = some idx)
    (hsm : shouldMergeWithLeaf child idx ixtag.pos cs .AND = some true)
    (hmerge : mergeWithLeafNode ob child idx ixtag.pos cs .AND
      = .ok (cs', .INEXACT_COVERED))
    (hmk : idx.multikey = true)
    (htext : idx.type ≠ .text) :
    processIndexScans bida ob query indices .AND inArrayOperator
        (child :: rest) st
      = processIndexScans bida ob query indices .AND inArrayOperator rest
          { st with currentScan := some cs', kept := st.kept ++ [child] } := by
  have hguard :
      ¬(Tightness.INEXACT_COVERED = .INEXACT_COVERED ∧
        (idx.type = .text ∨ idx.multikey = false)) := by
    simp [hmk, htext]
  simp only [processIndexScans, htag, hbg, Bool.true_eq_false, if_false,
    reduceCtorEq, if_neg, hnot, hcs, hn, hidx, hsm,
    mergedScanDispatch, hmerge]
  simp [htext, hmk]

theorem qsnAllList_iff (p : QSN → Prop) :
    ∀ cs : List QSN, qsnAllList p cs ↔ ∀ c ∈ cs, qsnAll p c := by
  intro cs
  induction cs with
  | nil => simp [qsnAllList]
  | cons c rest ih =>
    rw [qsnAllList]
    constructor
    · rintro ⟨h1, h2⟩ x hx
      rcases List.mem_cons.mp hx with rfl | hx
      · exact h1
      · exact (ih.mp h2) x hx
    · intro h
      exact ⟨h c (List.mem_cons_self _ _), ih.mpr fun x hx =>
        h x (List.mem_cons_of_mem _ hx)⟩

/-- qsnAll on a node all of whose children are known: it reduces to the
node predicate plus the children's qsnAll (nodes without child lists are
just the node predicate). -/
theorem qsnAll_node (p : QSN → Prop) (n : QSN) :
    qsnAll p n ↔ p n ∧ ∀ c ∈ n.getChildren, qsnAll p c := by
  cases n <;>
    simp [qsnAll, QSN.getChildren, qsnAllList_iff]

/-- In-flight leaf invariant for multikey covered-filter safety: an index
scan in flight over index entry idx records idx's key pattern and multikey
flag, and if multikey over a non-text pattern it carries no filter. -/
def leafSafe1 (idx : IndexEntry) (cs : QSN) : Prop :=
  match cs with
  | .ixscan kp mk _ f _ _ _ =>
    kp = idx.keyPattern ∧ mk = idx.multikey ∧
    (mk = true → kpHasTextMarker kp = false → f = none)
  | _ => True

theorem makeLeafNode_leafSafe1 (ob : PlannerOracle) (query : CanonicalQuery)
    (idx : IndexEntry) (pos : Nat) (e : MatchExpr) (s : QSN) (t : Tightness)
    (h : makeLeafNode ob query idx pos e = .ok (s, t)) :
    leafSafe1 idx s := by
  simp only [makeLeafNode] at h
  split at h
  · split at h
    · cases h
    · cases h
      simp [leafSafe1]
  · split at h
    · split at h
      · cases h
        simp [leafSafe1]
      · cases h
    · split at h
      · cases h
        simp [leafSafe1]
      · split at h
        · cases h
        · cases h
          simp [leafSafe1]

theorem mergeWithLeafNode_leafSafe1 (ob : PlannerOracle) (e : MatchExpr)
    (idx idx2 : IndexEntry) (pos : Nat) (s s' : QSN) (mt : MatchType)
    (t : Tightness)
    (hsafe : leafSafe1 idx s)
    (h : mergeWithLeafNode ob e idx2 pos s mt = .ok (s', t)) :
    leafSafe1 idx s' := by
  cases s <;> simp only [mergeWithLeafNode] at h
  case geo2d => cases h; trivial
  case textNode => cases h; trivial
  case geoNear2dsphere =>
    rcases hm : mergeBoundsFields ob e idx2 pos _ mt with ⟨bb', t'⟩ | _ | _ <;>
      rw [hm] at h <;> cases h
    trivial
  case ixscan kp mk bounds f d ms ak =>
    rcases hm : mergeBoundsFields ob e idx2 pos bounds mt with ⟨b', t'⟩ | _ | _ <;>
      rw [hm] at h <;> cases h
    exact hsafe
  all_goals cases h

theorem addFilter_leafSafe1 (indices : List IndexEntry) (idx : IndexEntry)
    (s s' : QSN) (c : MatchExpr) (mt : MatchType)
    (hmem : idx ∈ indices)
    (ht : textIndexesMarked indices)
    (hsafe : leafSafe1 idx s)
    (hguard : idx.type = .text ∨ idx.multikey = false)
    (h : addFilterToSolutionNode s c mt = some s') :
    leafSafe1 idx s' := by
  have hset : ∀ m, leafSafe1 idx (s.setFilter m) := by
    intro m
    cases s <;> simp only [QSN.setFilter, leafSafe1]
    case ixscan kp mk bounds f d msc ak =>
      obtain ⟨hkp, hmk, _⟩ := hsafe
      refine ⟨hkp, hmk, fun hmkt hmarker => ?_⟩
      exfalso
      rcases hguard with htext | hmk0
      · have := ht idx hmem htext
        rw [hkp] at hmarker
        rw [this] at hmarker
        cases hmarker
      · rw [hmk0] at hmk
        rw [hmk] at hmkt
        cases hmkt
  simp only [addFilterToSolutionNode] at h
  split at h
  · cases h
    exact hset _
  · split at h
    · cases h
      exact hset _
    · split at h
      · cases h
        exact hset _
      · split at h
        · cases h
          exact hset _
        · cases h

theorem finishTextNode_ok_shape (s : QSN) (idx : IndexEntry) (fin : QSN)
    (h : finishTextNode s idx = .ok fin) :
    ∃ kp q l p f, fin = .textNode kp q l p f := by
  cases s <;> try (simp only [finishTextNode] at h; cases h)
  case textNode kp q lang pfx filt =>
    rcases filt with _ | f <;> simp only [finishTextNode] at h
    · by_cases h0 : textPrefixEnd kp = 0
      · rw [if_pos h0] at h
        cases h
        exact ⟨_, _, _, _, _, rfl⟩
      · rw [if_neg h0] at h
        cases h
    · by_cases h0 : textPrefixEnd kp = 0
      · rw [if_pos h0] at h
        cases h
        exact ⟨_, _, _, _, _, rfl⟩
      · rw [if_neg h0] at h
        by_cases hA : f.ty = .AND
        · rw [if_pos hA] at h
          by_cases hnum : f.numChildren < textPrefixEnd kp
          · rw [if_pos hnum] at h
            cases h
          · rw [if_neg hnum] at h
            rcases hst : stashPrefixLoop (textPrefixEnd kp) f.children
                (List.replicate (textPrefixEnd kp) none) [] with ⟨a, k⟩ | _ | _ <;>
              simp only [hst] at h
            · rcases hco : collectPrefixEqs a with _ | elts <;>
                simp only [hco] at h
              · cases h
              · cases h
                exact ⟨_, _, _, _, _, rfl⟩
            · cases h
            · cases h
        · rw [if_neg hA] at h
          by_cases h1 : textPrefixEnd kp = 1 ∧ f.ty = .EQ
          · rw [if_pos h1] at h
            cases h
            exact ⟨_, _, _, _, _, rfl⟩
          · rw [if_neg h1] at h
            cases h

theorem finishLeafNode_leafSafe1 (idx : IndexEntry) (s fin : QSN)
    (hsafe : leafSafe1 idx s)
    (h : finishLeafNode s idx = .ok fin) :
    leafSafe1 idx fin ∧ qsnAll multikeyCoveredSafe fin := by
  cases s <;> simp only [finishLeafNode] at h
  case geo2d =>
    cases h
    exact ⟨trivial, by simp [qsnAll, multikeyCoveredSafe]⟩
  case textNode kp q lang pfx filt =>
    obtain ⟨kp', q', l', p', f', rfl⟩ := finishTextNode_ok_shape _ idx fin h
    exact ⟨trivial, by simp [qsnAll, multikeyCoveredSafe]⟩
  case geoNear2dsphere kp nq bb f ap ad =>
    rcases hb : finishBounds bb idx.keyPattern with bb' | _ | _ <;>
      rw [hb] at h <;> cases h
    exact ⟨trivial, by simp [qsnAll, multikeyCoveredSafe]⟩
  case ixscan kp mk bounds f d ms ak =>
    rcases hb : finishBounds bounds idx.keyPattern with b' | _ | _ <;>
      rw [hb] at h <;> cases h
    refine ⟨hsafe, ?_⟩
    simp only [qsnAll, multikeyCoveredSafe]
    exact hsafe.2.2
  all_goals cases h

/-- Scan-state invariant for multikey safety: any in-flight scan is tied
to a valid catalog index it is safe for. -/
def stInv1 (indices : List IndexEntry) (st : ScanState) : Prop :=
  ∀ cs, st.currentScan = some cs →
    ∃ n idx, st.currentIndexNumber = some n ∧ indices[n]? = some idx ∧
      leafSafe1 idx cs

/-- Output invariant for multikey safety. -/
def outInv1 (st : ScanState) : Prop :=
  ∀ q ∈ st.out, qsnAll multikeyCoveredSafe q

theorem emitCurrentScan_safe1 (indices : List IndexEntry) (st st1 : ScanState)
    (hst : stInv1 indices st) (hout : outInv1 st)
    (h : emitCurrentScan indices st = .ok st1) :
    stInv1 indices st1 ∧ outInv1 st1 ∧ st1.currentScan = none ∧
    st1.kept = st.kept := by
  simp only [emitCurrentScan] at h
  rcases hcs : st.currentScan with _ | cs <;> simp only [hcs] at h
  · split at h
    · cases h
      refine ⟨?_, hout, hcs, rfl⟩
      intro x hx
      rw [hcs] at hx
      cases hx
    · cases h
  · obtain ⟨n, idx, hn, hidx, hsafe⟩ := hst cs hcs
    simp only [hn, hidx] at h
    rcases hf : finishLeafNode cs idx with fin | _ | _ <;>
      simp only [hf] at h <;> cases h
    obtain ⟨_, hq⟩ := finishLeafNode_leafSafe1 idx cs fin hsafe hf
    refine ⟨?_, ?_, rfl, rfl⟩
    · intro x hx
      cases hx
    · intro x hx
      rcases List.mem_append.mp hx with hx | hx
      · exact hout x hx
      · rcases List.mem_singleton.mp hx with rfl
        exact hq

theorem flushScanEnd_safe1 (indices : List IndexEntry) (st st1 : ScanState)
    (hst : stInv1 indices st) (hout : outInv1 st)
    (h : flushScanEnd indices st = .ok st1) :
    outInv1 st1 ∧ st1.kept = st.kept := by
  simp only [flushScanEnd] at h
  rcases hcs : st.currentScan with _ | cs <;> simp only [hcs] at h
  · cases h
    exact ⟨hout, rfl⟩
  · obtain ⟨n, idx, hn, hidx, hsafe⟩ := hst cs hcs
    simp only [hn, hidx] at h
    rcases hf : finishLeafNode cs idx with fin | _ | _ <;>
      simp only [hf] at h <;> cases h
    obtain ⟨_, hq⟩ := finishLeafNode_leafSafe1 idx cs fin hsafe hf
    refine ⟨?_, rfl⟩
    intro x hx
    rcases List.mem_append.mp hx with hx | hx
    · exact hout x hx
    · rcases List.mem_singleton.mp hx with rfl
      exact hq

theorem elemMatchOpenNew_safe1 (ob : PlannerOracle) (query : CanonicalQuery)
    (indices : List IndexEntry) (rootTy : MatchType) (outerIndex : Nat)
    (innerPos : Nat) (emChild : MatchExpr) (st st' : ScanState)
    (ht : textIndexesMarked indices)
    (hst : stInv1 indices st) (hout : outInv1 st)
    (h : elemMatchOpenNew ob query indices rootTy outerIndex innerPos
      emChild st = .ok st') :
    stInv1 indices st' ∧ outInv1 st' := by
  simp only [elemMatchOpenNew] at h
  rcases he : emitCurrentScan indices st with st1 | _ | _ <;>
    simp only [he] at h
  · obtain ⟨hst1, hout1, _, _⟩ := emitCurrentScan_safe1 indices st st1 hst hout he
    rcases hidx : indices[outerIndex]? with _ | idx <;> simp only [hidx] at h
    · cases h
    · rcases hmk : makeLeafNode ob query idx innerPos emChild with ⟨cs, t⟩ | _ | _ <;>
        simp only [hmk] at h
      · have hsafe := makeLeafNode_leafSafe1 ob query idx innerPos emChild cs t hmk
        split at h
        · rcases haf : addFilterToSolutionNode cs emChild rootTy with _ | cs' <;>
            simp only [haf] at h
          · cases h
          · cases h
            rename_i hcond
            refine ⟨?_, hout1⟩
            intro x hx
            cases hx
            exact ⟨outerIndex, idx, rfl, hidx,
              addFilter_leafSafe1 indices idx cs _ emChild rootTy
                (List.getElem?_mem hidx) ht hsafe (Or.inr hcond.2) haf⟩
        · cases h
          refine ⟨?_, hout1⟩
          intro x hx
          cases hx
          exact ⟨outerIndex, idx, rfl, hidx, hsafe⟩
      · cases h
      · cases h
  · cases h
  · cases h

theorem elemMatchScanLoop_safe1 (ob : PlannerOracle) (query : CanonicalQuery)
    (indices : List IndexEntry) (rootTy : MatchType) (outerIndex : Nat)
    (ht : textIndexesMarked indices) :
    ∀ (ems : List MatchExpr) (st st' : ScanState),
      stInv1 indices st → outInv1 st →
      elemMatchScanLoop ob query indices rootTy outerIndex ems st = .ok st' →
      stInv1 indices st' ∧ outInv1 st' := by
  intro ems
  induction ems with
  | nil =>
    intro st st' hst hout h
    simp only [elemMatchScanLoop] at h
    cases h
    exact ⟨hst, hout⟩
  | cons em rest ih =>
    intro st st' hst hout h
    simp only [elemMatchScanLoop] at h
    rcases htag : em.tag with _ | innerTag <;> simp only [htag] at h
    · cases h
    · rcases hstep : (match st.currentScan, st.currentIndexNumber with
        | some cs, some n =>
          if n = outerIndex then
            match indices[n]? with
            | none => BuildResult.abort
            | some idx =>
              match shouldMergeWithLeaf em idx innerTag.pos cs rootTy with
              | none => .abort
              | some true =>
                match mergeWithLeafNode ob em idx innerTag.pos cs rootTy with
                | .ok (cs', t) =>
                  if t = .INEXACT_COVERED ∧ idx.multikey = false then
                    match addFilterToSolutionNode cs' em rootTy with
                    | some cs'' => .ok { st with currentScan := some cs'' }
                    | none => .abort
                  else .ok { st with currentScan := some cs' }
                | .noPlan => .noPlan
                | .abort => .abort
              | some false =>
                elemMatchOpenNew ob query indices rootTy outerIndex
                  innerTag.pos em st
          else
            elemMatchOpenNew ob query indices rootTy outerIndex
              innerTag.pos em st
        | _, _ =>
          elemMatchOpenNew ob query indices rootTy outerIndex
            innerTag.pos em st : BuildResult ScanState) with st1 | _ | _ <;>
        simp only [hstep] at h
      · -- a successful step: show the step preserves the invariants, then
        -- recurse
        have hstep1 : stInv1 indices st1 ∧ outInv1 st1 := by
          rcases hcs : st.currentScan with _ | cs <;> simp only [hcs] at hstep
          · exact elemMatchOpenNew_safe1 ob query indices rootTy outerIndex
              innerTag.pos em st st1 ht hst hout hstep
          · rcases hn : st.currentIndexNumber with _ | n <;>
              simp only [hn] at hstep
            · exact elemMatchOpenNew_safe1 ob query indices rootTy outerIndex
                innerTag.pos em st st1 ht hst hout hstep
            · by_cases hno : n = outerIndex
              · rw [if_pos hno] at hstep
                obtain ⟨n', idx', hn', hidx', hsafe⟩ := hst cs hcs
                have hnn : n' = n := by
                  rw [hn] at hn'
                  cases hn'
                  rfl
                subst hnn
                simp only [hidx'] at hstep
                rcases hsm : shouldMergeWithLeaf em idx' innerTag.pos cs
                    rootTy with _ | b <;> simp only [hsm] at hstep
                · cases hstep
                · cases b
                  · exact elemMatchOpenNew_safe1 ob query indices rootTy
                      outerIndex innerTag.pos em st st1 ht hst hout hstep
                  · rcases hm : mergeWithLeafNode ob em idx' innerTag.pos cs
                        rootTy with ⟨cs', t⟩ | _ | _ <;>
                      simp only [hm] at hstep
                    · have hsafe' := mergeWithLeafNode_leafSafe1 ob em idx'
                        idx' innerTag.pos cs cs' rootTy t hsafe hm
                      split at hstep
                      · rcases haf : addFilterToSolutionNode cs' em rootTy
                            with _ | cs'' <;> simp only [haf] at hstep
                        · cases hstep
                        · cases hstep
                          rename_i hcond
                          refine ⟨?_, hout⟩
                          intro x hx
                          cases hx
                          exact ⟨n', idx', rfl, hidx',
                            addFilter_leafSafe1 indices idx' cs' _ em rootTy
                              (List.getElem?_mem hidx') ht hsafe'
                              (Or.inr hcond.2) haf⟩
                      · cases hstep
                        refine ⟨?_, hout⟩
                        intro x hx
                        cases hx
                        exact ⟨n', idx', rfl, hidx', hsafe'⟩
                    · cases hstep
                    · cases hstep
              · rw [if_neg hno] at hstep
                exact elemMatchOpenNew_safe1 ob query indices rootTy
                  outerIndex innerTag.pos em st st1 ht hst hout hstep
        exact ih st1 st' hstep1.1 hstep1.2 h
      · cases h
      · cases h

theorem mergedScanDispatch_safe1 (ob : PlannerOracle)
    (indices : List IndexEntry) (rootTy : MatchType) (n : Nat)
    (idx : IndexEntry) (effPos : Nat) (child : MatchExpr) (cs : QSN)
    (st st' : ScanState)
    (ht : textIndexesMarked indices)
    (hn : st.currentIndexNumber = some n)
    (hidx : indices[n]? = some idx)
    (hsafe : leafSafe1 idx cs)
    (hout : outInv1 st)
    (h : mergedScanDispatch ob rootTy idx effPos child cs st = .ok st') :
    stInv1 indices st' ∧ outInv1 st' := by
  simp only [mergedScanDispatch] at h
  rcases hm : mergeWithLeafNode ob child idx effPos cs rootTy
      with ⟨cs', t⟩ | _ | _ <;> simp only [hm] at h
  · have hsafe' := mergeWithLeafNode_leafSafe1 ob child idx idx effPos cs cs'
      rootTy t hsafe hm
    split at h
    · cases h
      refine ⟨?_, hout⟩
      intro x hx
      cases hx
      exact ⟨n, idx, hn, hidx, hsafe'⟩
    · split at h
      · rcases haf : addFilterToSolutionNode cs' child rootTy with _ | cs'' <;>
          simp only [haf] at h
        · cases h
        · cases h
          rename_i hcond
          refine ⟨?_, hout⟩
          intro x hx
          cases hx
          exact ⟨n, idx, hn, hidx,
            addFilter_leafSafe1 indices idx cs' _ child rootTy
              (List.getElem?_mem hidx) ht hsafe' hcond.2 haf⟩
      · split at h
        · rcases hf : finishLeafNode cs' idx with fin | _ | _ <;>
            simp only [hf] at h <;> cases h
          obtain ⟨_, hq⟩ := finishLeafNode_leafSafe1 idx cs' fin hsafe' hf
          refine ⟨?_, ?_⟩
          · intro x hx
            cases hx
          · intro x hx
            rcases List.mem_append.mp hx with hx | hx
            · exact hout x hx
            · rcases List.mem_singleton.mp hx with rfl
              rw [qsnAll_node]
              refine ⟨trivial, ?_⟩
              intro c hc
              rcases List.mem_singleton.mp hc with rfl
              exact hq
        · cases h
          refine ⟨?_, hout⟩
          intro x hx
          cases hx
          exact ⟨n, idx, hn, hidx, hsafe'⟩
  · cases h
  · cases h

theorem mainOpenNew_safe1 (ob : PlannerOracle) (query : CanonicalQuery)
    (indices : List IndexEntry) (rootTy : MatchType)
    (inArrayOperator : Bool) (effIndex effPos : Nat) (child : MatchExpr)
    (st st' : ScanState)
    (ht : textIndexesMarked indices)
    (hst : stInv1 indices st) (hout : outInv1 st)
    (h : mainOpenNew ob query indices rootTy inArrayOperator effIndex
      effPos child st = .ok st') :
    stInv1 indices st' ∧ outInv1 st' := by
  simp only [mainOpenNew] at h
  rcases he : emitCurrentScan indices st with st1 | _ | _ <;>
    simp only [he] at h
  · obtain ⟨hst1, hout1, _, _⟩ := emitCurrentScan_safe1 indices st st1 hst hout he
    rcases hidx : indices[effIndex]? with _ | idx <;> simp only [hidx] at h
    · cases h
    · rcases hmk : makeLeafNode ob query idx effPos child
          with ⟨cs, t⟩ | _ | _ <;> simp only [hmk] at h
      · have hsafe := makeLeafNode_leafSafe1 ob query idx effPos child cs t hmk
        split at h
        · cases h
          refine ⟨?_, hout1⟩
          intro x hx
          cases hx
          exact ⟨effIndex, idx, rfl, hidx, hsafe⟩
        · split at h
          · rcases haf : addFilterToSolutionNode cs child rootTy
                with _ | cs' <;> simp only [haf] at h
            · cases h
            · cases h
              rename_i hcond
              refine ⟨?_, hout1⟩
              intro x hx
              cases hx
              exact ⟨effIndex, idx, rfl, hidx,
                addFilter_leafSafe1 indices idx cs _ child rootTy
                  (List.getElem?_mem hidx) ht hsafe (Or.inr hcond.2) haf⟩
          · split at h
            · rcases hf : finishLeafNode cs idx with fin | _ | _ <;>
                simp only [hf] at h <;> cases h
              obtain ⟨_, hq⟩ := finishLeafNode_leafSafe1 idx cs fin hsafe hf
              refine ⟨?_, ?_⟩
              · intro x hx
                cases hx
              · intro x hx
                rcases List.mem_append.mp hx with hx | hx
                · exact hout1 x hx
                · rcases List.mem_singleton.mp hx with rfl
                  rw [qsnAll_node]
                  refine ⟨trivial, ?_⟩
                  intro c hc
                  rcases List.mem_singleton.mp hc with rfl
                  exact hq
            · cases h
              refine ⟨?_, hout1⟩
              intro x hx
              cases hx
              exact ⟨effIndex, idx, rfl, hidx, hsafe⟩
      · cases h
      · cases h
  · cases h
  · cases h

theorem pis_safe1 (bida : MatchExpr → Bool → BuildResult QSN)
    (ob : PlannerOracle) (query : CanonicalQuery)
    (indices : List IndexEntry) (rootTy : MatchType)
    (inArrayOperator : Bool)
    (ht : textIndexesMarked indices)
    (hbida : ∀ c a s, bida c a = .ok s → qsnAll multikeyCoveredSafe s) :
    ∀ (children : List MatchExpr) (st : ScanState) (kept : List MatchExpr)
      (outs : List QSN),
      stInv1 indices st → outInv1 st →
      processIndexScans bida ob query indices rootTy inArrayOperator
        children st = .ok (kept, outs) →
      ∀ q ∈ outs, qsnAll multikeyCoveredSafe q := by
  intro children
  induction children with
  | nil =>
    intro st kept outs hst hout h
    simp only [processIndexScans] at h
    rcases hfl : flushScanEnd indices st with st1 | _ | _ <;>
      simp only [hfl] at h
    · cases h
      exact (flushScanEnd_safe1 indices st st1 hst hout hfl).1
    · cases h
    · cases h
  | cons child rest ih =>
    intro st kept outs hst hout h
    simp only [processIndexScans] at h
    rcases htag : child.tag with _ | ixtag <;> simp only [htag] at h
    · -- untagged: break and flush
      rcases hfl : flushScanEnd indices
          { st with kept := st.kept ++ child :: rest } with st1 | _ | _ <;>
        simp only [hfl] at h
      · cases h
        exact (flushScanEnd_safe1 indices
          { st with kept := st.kept ++ child :: rest } st1
          (fun cs hcs => hst cs hcs) (fun q hq => hout q hq) hfl).1
      · cases h
      · cases h
    · by_cases hbgf : isBoundsGenerating child = false
      · rw [if_pos hbgf] at h
        split at h
        · -- AND + ELEM_MATCH_OBJECT child
          rcases heml : elemMatchScanLoop ob query indices rootTy ixtag.index
              (findElemMatchChildren child) st with st1 | _ | _ <;>
            simp only [heml] at h
          · obtain ⟨hst1, hout1⟩ := elemMatchScanLoop_safe1 ob query indices
              rootTy ixtag.index ht _ st st1 hst hout heml
            exact ih { st1 with kept := st1.kept ++ [child] } kept outs
              (fun cs hcs => hst1 cs hcs) (fun q hq => hout1 q hq) h
          · cases h
          · cases h
        · -- logical child handled by the recursive build
          rcases hb : bida child inArrayOperator with s | _ | _ <;>
            simp only [hb] at h
          · refine ih _ kept outs ?_ ?_ h
            · intro cs hcs
              have hcs2 : st.currentScan = some cs := by
                cases inArrayOperator <;> exact hcs
              obtain ⟨n, idx, hn2, hidx2, hs2⟩ := hst cs hcs2
              refine ⟨n, idx, ?_, hidx2, hs2⟩
              cases inArrayOperator <;> exact hn2
            · intro q hq
              have hmem : q ∈ st.out ++ [s] := by
                cases inArrayOperator <;> exact hq
              rcases List.mem_append.mp hmem with hq2 | hq2
              · exact hout q hq2
              · rcases List.mem_singleton.mp hq2 with rfl
                exact hbida child _ _ hb
          · cases h
          · cases h
      · rw [if_neg hbgf] at h
        rcases hefr : (if child.ty = .NOT then
            match child.children.head? with
            | some c0 =>
              match c0.tag with
              | some t => BuildResult.ok t
              | none => .abort
            | none => .abort
          else .ok ixtag : BuildResult IndexTag) with effTag | _ | _ <;>
          simp only [hefr] at h
        · rcases hstep : (match st.currentScan, st.currentIndexNumber with
            | some cs, some n =>
              if n = effTag.index then
                match indices[n]? with
                | none => BuildResult.abort
                | some idx =>
                  match shouldMergeWithLeaf child idx effTag.pos cs rootTy with
                  | none => .abort
                  | some true =>
                    mergedScanDispatch ob rootTy idx effTag.pos child cs st
                  | some false =>
                    mainOpenNew ob query indices rootTy inArrayOperator
                      effTag.index effTag.pos child st
              else
                mainOpenNew ob query indices rootTy inArrayOperator
                  effTag.index effTag.pos child st
            | _, _ =>
              mainOpenNew ob query indices rootTy inArrayOperator
                effTag.index effTag.pos child st : BuildResult ScanState)
              with st1 | _ | _ <;> simp only [hstep] at h
          · have hstep1 : stInv1 indices st1 ∧ outInv1 st1 := by
              rcases hcs : st.currentScan with _ | cs <;>
                simp only [hcs] at hstep
              · exact mainOpenNew_safe1 ob query indices rootTy
                  inArrayOperator effTag.index effTag.pos child st st1 ht
                  hst hout hstep
              · rcases hn : st.currentIndexNumber with _ | n <;>
                  simp only [hn] at hstep
                · exact mainOpenNew_safe1 ob query indices rootTy
                    inArrayOperator effTag.index effTag.pos child st st1 ht
                    hst hout hstep
                · by_cases hno : n = effTag.index
                  · rw [if_pos hno] at hstep
                    obtain ⟨n', idx', hn', hidx', hsafe⟩ := hst cs hcs
                    have hnn : n' = n := by
                      rw [hn] at hn'
                      cases hn'
                      rfl
                    subst hnn
                    simp only [hidx'] at hstep
                    rcases hsm : shouldMergeWithLeaf child idx' effTag.pos cs
                        rootTy with _ | b <;> simp only [hsm] at hstep
                    · cases hstep
                    · cases b
                      · exact mainOpenNew_safe1 ob query indices rootTy
                          inArrayOperator effTag.index effTag.pos child st
                          st1 ht hst hout hstep
                      · exact mergedScanDispatch_safe1 ob indices rootTy n'
                          idx' effTag.pos child cs st st1 ht hn hidx' hsafe
                          hout hstep
                  · rw [if_neg hno] at hstep
                    exact mainOpenNew_safe1 ob query indices rootTy
                      inArrayOperator effTag.index effTag.pos child st st1 ht
                      hst hout hstep
            exact ih _ kept outs hstep1.1 hstep1.2 h
          · cases h
          · cases h
        · cases h
        · cases h

theorem mem_swapWithLast (cs : List QSN) (i : Nat) (c : QSN)
    (h : c ∈ swapWithLast cs i) : c ∈ cs := by
  unfold swapWithLast at h
  rcases hl : cs.getLast? with _ | last <;> rw [hl] at h
  · exact h
  · rcases hi : cs[i]? with _ | ci <;> rw [hi] at h
    · exact h
    · rcases List.mem_or_eq_of_mem_set h with h2 | rfl
      · rcases List.mem_or_eq_of_mem_set h2 with h3 | rfl
        · exact h3
        · exact List.mem_of_mem_getLast? hl
      · exact List.getElem?_mem hi

theorem mem_swapSortChildToBack (ob : PlannerOracle) (query : CanonicalQuery)
    (cs : List QSN) (c : QSN) (h : c ∈ swapSortChildToBack ob query cs) :
    c ∈ cs := by
  unfold swapSortChildToBack at h
  rcases hf : cs.findIdx?
      (fun x => (ob.getSort x).contains query.parsed.sort) with _ | i <;>
    rw [hf] at h
  · exact h
  · exact mem_swapWithLast cs i c h

theorem stablePartition_safe1 (s : QSN)
    (h : qsnAll multikeyCoveredSafe s) :
    qsnAll multikeyCoveredSafe (stablePartitionTextToFront s) := by
  have hmem : ∀ (cs : List QSN) (c : QSN),
      c ∈ (cs.partition QSN.isTextStage).1 ++ (cs.partition QSN.isTextStage).2 →
      c ∈ cs := by
    intro cs c hc
    rw [List.partition_eq_filter_filter] at hc
    rcases List.mem_append.mp hc with hc | hc
    · exact List.mem_of_mem_filter hc
    · exact List.mem_of_mem_filter hc
  cases s <;> simp only [stablePartitionTextToFront] <;> try exact h
  all_goals
    rw [qsnAll_node] at h ⊢
    refine ⟨trivial, ?_⟩
    intro c hc
    exact h.2 c (hmem _ c hc)

theorem fetchResidualAnd_safe1 (root : MatchExpr) (inArrayOperator : Bool)
    (andResult : QSN) (kept : List MatchExpr) (s : QSN)
    (hq : qsnAll multikeyCoveredSafe andResult)
    (h : fetchResidualAnd root inArrayOperator andResult kept = .ok s) :
    qsnAll multikeyCoveredSafe s := by
  unfold fetchResidualAnd at h
  split at h
  · cases h
    exact hq
  · split at h
    · cases h
      exact hq
    · cases h
      rw [qsnAll_node]
      refine ⟨trivial, ?_⟩
      intro c hc
      rcases List.mem_singleton.mp hc with rfl
      exact hq

theorem bia_safe1 (bida : MatchExpr → Bool → BuildResult QSN)
    (ob : PlannerOracle) (query : CanonicalQuery)
    (indices : List IndexEntry) (root : MatchExpr)
    (inArrayOperator : Bool) (s : QSN)
    (ht : textIndexesMarked indices)
    (hbida : ∀ c a s2, bida c a = .ok s2 → qsnAll multikeyCoveredSafe s2)
    (h : buildIndexedAnd bida ob query indices root inArrayOperator = .ok s) :
    qsnAll multikeyCoveredSafe s := by
  simp only [buildIndexedAnd] at h
  rcases hp : processIndexScans bida ob query indices root.ty
      inArrayOperator root.children {} with ⟨kept, scans⟩ | _ | _
  · have hall : ∀ q ∈ scans, qsnAll multikeyCoveredSafe q := by
      refine pis_safe1 bida ob query indices root.ty inArrayOperator ht hbida
        root.children {} kept scans ?_ ?_ hp
      · intro cs hcs
        cases hcs
      · intro q hq
        cases hq
    rcases scans with _ | ⟨s1, rest⟩
    · simp only [hp] at h
      cases h
    · rcases rest with _ | ⟨s2, rest2⟩
      · simp only [hp] at h
        exact fetchResidualAnd_safe1 root inArrayOperator s1 kept s
          (hall s1 (List.mem_singleton_self s1)) h
      · simp only [hp] at h
        split at h
        · refine fetchResidualAnd_safe1 root inArrayOperator _ kept s ?_ h
          rw [qsnAll_node]
          refine ⟨trivial, ?_⟩
          intro c hc
          exact hall c hc
        · refine fetchResidualAnd_safe1 root inArrayOperator _ kept s ?_ h
          rw [qsnAll_node]
          refine ⟨trivial, ?_⟩
          intro c hc
          exact hall c (mem_swapSortChildToBack ob query _ c hc)
  · simp only [hp] at h
    cases h
  · simp only [hp] at h
    cases h

theorem bio_safe1 (bida : MatchExpr → Bool → BuildResult QSN)
    (ob : PlannerOracle) (query : CanonicalQuery)
    (indices : List IndexEntry) (root : MatchExpr)
    (inArrayOperator : Bool) (s : QSN)
    (ht : textIndexesMarked indices)
    (hbida : ∀ c a s2, bida c a = .ok s2 → qsnAll multikeyCoveredSafe s2)
    (h : buildIndexedOr bida ob query indices root inArrayOperator = .ok s) :
    qsnAll multikeyCoveredSafe s := by
  simp only [buildIndexedOr] at h
  rcases hp : processIndexScans bida ob query indices root.ty
      inArrayOperator root.children {} with ⟨kept, scans⟩ | _ | _
  case noPlan =>
    simp only [hp] at h
    cases h
  case abort =>
    simp only [hp] at h
    cases h
  · have hall : ∀ q ∈ scans, qsnAll multikeyCoveredSafe q := by
      refine pis_safe1 bida ob query indices root.ty inArrayOperator ht hbida
        root.children {} kept scans ?_ ?_ hp
      · intro cs hcs
        cases hcs
      · intro q hq
        cases hq
    have horq : ∀ cs2, (∀ q ∈ cs2, qsnAll multikeyCoveredSafe q) →
        qsnAll multikeyCoveredSafe
          (stablePartitionTextToFront (.orNode none cs2)) := by
      intro cs2 hcs2
      refine stablePartition_safe1 _ ?_
      rw [qsnAll_node]
      exact ⟨trivial, hcs2⟩
    have hmsq : ∀ cs2, (∀ q ∈ cs2, qsnAll multikeyCoveredSafe q) →
        qsnAll multikeyCoveredSafe (stablePartitionTextToFront
          (.mergeSort query.parsed.sort none cs2)) := by
      intro cs2 hcs2
      refine stablePartition_safe1 _ ?_
      rw [qsnAll_node]
      exact ⟨trivial, hcs2⟩
    have hgen : ∀ (cs2 : List QSN) (b : Bool),
        (∀ q ∈ cs2, qsnAll multikeyCoveredSafe q) →
        qsnAll multikeyCoveredSafe (stablePartitionTextToFront
          (if b = true then QSN.mergeSort query.parsed.sort none cs2
           else QSN.orNode none cs2)) := by
      intro cs2 b hcs2
      cases b
      · simp only [Bool.false_eq_true, if_false]
        exact horq _ hcs2
      · simp only [if_true]
        exact hmsq _ hcs2
    simp only [hp] at h
    split at h
    · cases h
    · rcases scans with _ | ⟨s1, rest⟩
      · by_cases hsort : query.parsed.sort.isEmpty
        · simp only [hsort, if_true] at h
          cases h
          exact horq [] hall
        · simp only [hsort, if_false] at h
          cases h
      · rcases rest with _ | ⟨s2, rest2⟩
        · cases h
          exact stablePartition_safe1 s1 (hall s1 (List.mem_singleton_self s1))
        · by_cases hsort : query.parsed.sort.isEmpty
          · simp only [hsort, if_true] at h
            cases h
            exact hgen _ false hall
          · simp only [hsort, if_false] at h
            cases h
            exact hgen _ _ hall

theorem setFilter_safe1 (idx : IndexEntry) (fin : QSN) (m : Option MatchExpr)
    (hsafe : leafSafe1 idx fin)
    (hq : qsnAll multikeyCoveredSafe fin)
    (hmk : idx.multikey = false) :
    qsnAll multikeyCoveredSafe (fin.setFilter m) := by
  cases fin <;> simp only [QSN.setFilter]
  case ixscan kp mk bounds f d ms ak =>
    simp only [qsnAll, multikeyCoveredSafe]
    intro hmkt _
    exfalso
    rw [hsafe.2.1, hmk] at hmkt
    cases hmkt
  case collScan => simp [qsnAll, multikeyCoveredSafe]
  case geo2d => simp [qsnAll, multikeyCoveredSafe]
  case geoNear2dsphere => simp [qsnAll, multikeyCoveredSafe]
  case textNode => simp [qsnAll, multikeyCoveredSafe]
  all_goals
    rw [qsnAll] at hq ⊢
    exact ⟨trivial, hq.2⟩

theorem allBuild_safe1 (bida : MatchExpr → Bool → BuildResult QSN)
    (hbida : ∀ c a s2, bida c a = .ok s2 → qsnAll multikeyCoveredSafe s2) :
    ∀ (cs : List MatchExpr) (built : List QSN),
      allBuildChildren bida cs = .ok built →
      ∀ c ∈ built, qsnAll multikeyCoveredSafe c := by
  intro cs
  induction cs with
  | nil =>
    intro built h c hc
    simp only [allBuildChildren] at h
    cases h
    cases hc
  | cons x rest ih =>
    intro built h c hc
    simp only [allBuildChildren] at h
    rcases hb : bida x true with s | _ | _ <;> simp only [hb] at h
    · rcases hr : allBuildChildren bida rest with l | _ | _ <;>
        simp only [hr] at h
      · cases h
        rcases List.mem_cons.mp hc with rfl | hc
        · exact hbida x true c hb
        · exact ih l hr c hc
      · cases h
      · cases h
    · exact ih built h c hc
    · cases h

theorem bida_safe1 (ob : PlannerOracle) (query : CanonicalQuery)
    (indices : List IndexEntry)
    (ht : textIndexesMarked indices) :
    ∀ (fuel : Nat) (root : MatchExpr) (inArrayOperator : Bool) (s : QSN),
      buildIndexedDataAccess ob query indices fuel root inArrayOperator
        = .ok s →
      qsnAll multikeyCoveredSafe s := by
  intro fuel
  induction fuel with
  | zero =>
    intro root inArrayOperator s h
    simp only [buildIndexedDataAccess] at h
    cases h
  | succ f ihf =>
    intro root inArrayOperator s h
    rw [buildIndexedDataAccess] at h
    have hbida : ∀ c a s2,
        buildIndexedDataAccess ob query indices f c a = .ok s2 →
        qsnAll multikeyCoveredSafe s2 := fun c a s2 h2 => ihf c a s2 h2
    simp only [buildStep] at h
    split at h
    · split at h
      · exact bia_safe1 _ ob query indices root inArrayOperator s ht hbida h
      · split at h
        · exact bio_safe1 _ ob query indices root inArrayOperator s ht hbida h
        · cases h
    · rcases htag : root.tag with _ | tag <;> simp only [htag] at h
      · cases h
      · split at h
        · -- bounds-generating single leaf
          rcases hidx : indices[tag.index]? with _ | idx <;>
            simp only [hidx] at h
          · cases h
          · rcases hmk : makeLeafNode ob query idx tag.pos root
                with ⟨soln, tightness⟩ | _ | _ <;> simp only [hmk] at h
            · rcases hf : finishLeafNode soln idx with soln' | _ | _ <;>
                simp only [hf] at h
              · have hsafe0 := makeLeafNode_leafSafe1 ob query idx tag.pos
                  root soln tightness hmk
                obtain ⟨hsafe', hq'⟩ :=
                  finishLeafNode_leafSafe1 idx soln soln' hsafe0 hf
                split at h
                · cases h
                  exact hq'
                · split at h
                  · cases h
                    exact hq'
                  · split at h
                    · rcases hgf : soln'.getFilter with _ | f0 <;>
                        simp only [hgf] at h
                      · cases h
                        rename_i hcond
                        exact setFilter_safe1 idx soln' (some root) hsafe'
                          hq' hcond.2
                      · cases h
                    · cases h
                      rw [qsnAll_node]
                      refine ⟨trivial, ?_⟩
                      intro c hc
                      rcases List.mem_singleton.mp hc with rfl
                      exact hq'
              · cases h
              · cases h
            · cases h
            · cases h
        · split at h
          · -- array operator using indexes on children
            rcases hsol : (if root.ty = .ALL then
                match allBuildChildren
                    (fun c b => buildIndexedDataAccess ob query indices f c b)
                    root.children with
                | .ok built =>
                  match built with
                  | [] => BuildResult.noPlan
                  | [c] => .ok c
                  | _ => .ok (.andHash none built)
                | .noPlan => .noPlan
                | .abort => .abort
              else
                match root.children with
                | [c] => buildIndexedDataAccess ob query indices f c true
                | _ => .abort : BuildResult QSN) with sol | _ | _ <;>
              simp only [hsol] at h
            · have hqsol : qsnAll multikeyCoveredSafe sol := by
                split at hsol
                · rcases hab : allBuildChildren
                      (fun c b => buildIndexedDataAccess ob query indices f c b)
                      root.children with built | _ | _ <;>
                    simp only [hab] at hsol
                  · have hballs := allBuild_safe1 _ hbida root.children built hab
                    rcases built with _ | ⟨b1, brest⟩
                    · cases hsol
                    · rcases brest with _ | ⟨b2, brest2⟩
                      · cases hsol
                        exact hballs _ (List.mem_singleton_self _)
                      · cases hsol
                        rw [qsnAll_node]
                        exact ⟨trivial, fun c hc => hballs c hc⟩
                  · cases hsol
                  · cases hsol
                · rcases hrc : root.children with _ | ⟨c0, crest⟩ <;>
                    simp only [hrc] at hsol
                  · cases hsol
                  · rcases crest with _ | ⟨c1, crest2⟩
                    · exact hbida c0 true sol hsol
                    · cases hsol
              split at h
              · cases h
                exact hqsol
              · cases h
                rw [qsnAll_node]
                refine ⟨trivial, ?_⟩
                intro c hc
                rcases List.mem_singleton.mp hc with rfl
                exact hqsol
            · cases h
            · cases h
          · cases h

/-- C1: multikey covered-filter safety.  In the merge branch of
processIndexScans, an INEXACT_COVERED verdict detaches the child from the
root and affixes it to the scan itself exactly when the index is a text
index or is not multikey; for a multikey non-text index under an AND root
the child stays attached to the root and the scan's filter is untouched.
Consequently, over a catalog whose text indexes are recognisable from
their key patterns, no IndexScan over a multikey non-text index in any
returned solution tree carries a filter at all. -/
theorem c1_multikey_covered_filter_safety :
    (∀ (bida : MatchExpr → Bool → BuildResult QSN) (ob : PlannerOracle)
       (query : CanonicalQuery) (indices : List IndexEntry)
       (rootTy : MatchType) (inArrayOperator : Bool) (child : MatchExpr)
       (rest : List MatchExpr) (st : ScanState) (ixtag : IndexTag) (cs : QSN)
       (idx : IndexEntry) (cs' cs'' : QSN),
      child.tag = some ixtag →
      isBoundsGenerating child = true →
      child.ty ≠ .NOT →
      st.currentScan = some cs →
      st.currentIndexNumber = some ixtag.index →
      indices[ixtag.index]? = some idx →
      shouldMergeWithLeaf child idx ixtag.pos cs rootTy = some true →
      mergeWithLeafNode ob child idx ixtag.pos cs rootTy
        = .ok (cs', .INEXACT_COVERED) →
      (idx.type = .text ∨ idx.multikey = false) →
      addFilterToSolutionNode cs' child rootTy = some cs'' →
      processIndexScans bida ob query indices rootTy inArrayOperator
          (child :: rest) st
        = processIndexScans bida ob query indices rootTy inArrayOperator
            rest { st with currentScan := some cs'' }) ∧
    (∀ (bida : MatchExpr → Bool → BuildResult QSN) (ob : PlannerOracle)
       (query : CanonicalQuery) (indices : List IndexEntry)
       (inArrayOperator : Bool) (child : MatchExpr) (rest : List MatchExpr)
       (st : ScanState) (ixtag : IndexTag) (cs : QSN) (idx : IndexEntry)
       (cs' : QSN),
      child.tag = some ixtag →
      isBoundsGenerating child = true →
      child.ty ≠ .NOT →
      st.currentScan = some cs →
      st.currentIndexNumber = some ixtag.index →
      indices[ixtag.index]? = some idx →
      shouldMergeWithLeaf child idx ixtag.pos cs .AND = some true →
      mergeWithLeafNode ob child idx ixtag.pos cs .AND
        = .ok (cs', .INEXACT_COVERED) →
      idx.multikey = true →
      idx.type ≠ .text →
      processIndexScans bida ob query indices .AND inArrayOperator
          (child :: rest) st
        = processIndexScans bida ob query indices .AND inArrayOperator rest
            { st with currentScan := some cs', kept := st.kept ++ [child] }) ∧
    (∀ (ob : PlannerOracle) (query : CanonicalQuery)
       (indices : List IndexEntry) (fuel : Nat) (root : MatchExpr)
       (inArrayOperator : Bool) (soln : QSN),
      textIndexesMarked indices →
      buildIndexedDataAccess ob query indices fuel root inArrayOperator
        = .ok soln →
      qsnAll multikeyCoveredSafe soln) :=
  ⟨fun bida ob query indices rootTy inA child rest st ixtag cs idx cs' cs''
      h1 h2 h3 h4 h5 h6 h7 h8 h9 h10 =>
    pis_merge_covered_attach bida ob query indices rootTy inA child rest st
      ixtag cs idx cs' cs'' h1 h2 h3 h4 h5 h6 h7 h8 h9 h10,
   fun bida ob query indices inA child rest st ixtag cs idx cs'
      h1 h2 h3 h4 h5 h6 h7 h8 h9 h10 =>
    pis_merge_covered_multikey_keep bida ob query indices inA child rest st
      ixtag cs idx cs' h1 h2 h3 h4 h5 h6 h7 h8 h9 h10,
   fun ob query indices fuel root inA soln htm h =>
    bida_safe1 ob query indices htm fuel root inA soln h⟩

def idxABmk : IndexEntry := ⟨kpAB, true, .btree⟩

def oilA5 : OIL :=
  ⟨"a", [⟨.scalar (.int 5), .scalar (.int 5), true, true⟩]⟩

def oilBre : OIL :=
  ⟨"b", [⟨.scalar (.str "re"), .scalar (.str "re"), true, true⟩]⟩

def oilAre : OIL :=
  ⟨"a", [⟨.scalar (.str "re"), .scalar (.str "re"), true, true⟩]⟩

def scanABpartialMk : QSN :=
  .ixscan kpAB true { fields := [oilA5, {}] } none 1 0 false

def scanABmergedMk : QSN :=
  .ixscan kpAB true { fields := [oilA5, oilBre] } none 1 0 false

def scanAre : QSN :=
  .ixscan kpA false { fields := [oilAre] } none 1 0 false

/-- Witness for C1: a covered regex merge over the non-multikey single
field index attaches the regex to the scan's filter; the same merge
compounding onto a multikey index keeps the regex on the AND root; and a
full build over the compound index satisfies the tree-wide multikey
safety predicate. -/
theorem c1_multikey_covered_filter_safety_witness :
    (mergeWithLeafNode sampleOracle (regexPred "a" (some ⟨0, 0⟩)) idxA 0
        scanA5 .AND = .ok (scanAre, .INEXACT_COVERED) ∧
      addFilterToSolutionNode scanAre (regexPred "a" (some ⟨0, 0⟩)) .AND
        = some (scanAre.setFilter (some (regexPred "a" (some ⟨0, 0⟩)))) ∧
      processIndexScans (fun _ _ => .abort) sampleOracle qAB [idxA] .AND
          false [regexPred "a" (some ⟨0, 0⟩)]
          { currentScan := some scanA5, currentIndexNumber := some 0 }
        = processIndexScans (fun _ _ => .abort) sampleOracle qAB [idxA] .AND
            false []
            { currentScan :=
                some (scanAre.setFilter (some (regexPred "a" (some ⟨0, 0⟩)))),
              currentIndexNumber := some 0 }) ∧
    (mergeWithLeafNode sampleOracle (regexPred "b" (some ⟨0, 1⟩)) idxABmk 1
        scanABpartialMk .AND = .ok (scanABmergedMk, .INEXACT_COVERED) ∧
      processIndexScans (fun _ _ => .abort) sampleOracle qAB [idxABmk] .AND
          false [regexPred "b" (some ⟨0, 1⟩)]
          { currentScan := some scanABpartialMk, currentIndexNumber := some 0 }
        = processIndexScans (fun _ _ => .abort) sampleOracle qAB [idxABmk]
            .AND false []
            { currentScan := some scanABmergedMk, currentIndexNumber := some 0,
              kept := [regexPred "b" (some ⟨0, 1⟩)] }) ∧
    (textIndexesMarked [idxAB] ∧
      qsnAll multikeyCoveredSafe
        (.ixscan kpAB false
          { fields := [⟨"a", [⟨.scalar (.int 5), .scalar (.int 5), true,
              true⟩]⟩, ⟨"b", [⟨.scalar (.int 7), .scalar (.int 7), true,
              true⟩]⟩] } none 1 0 false)) :=
  ⟨⟨rfl, rfl,
    c1_multikey_covered_filter_safety.1 (fun _ _ => .abort) sampleOracle qAB
      [idxA] .AND false (regexPred "a" (some ⟨0, 0⟩)) []
      { currentScan := some scanA5, currentIndexNumber := some 0 }
      ⟨0, 0⟩ scanA5 idxA scanAre
      (scanAre.setFilter (some (regexPred "a" (some ⟨0, 0⟩))))
      rfl rfl (by simp [regexPred, MatchExpr.ty]) rfl rfl rfl rfl rfl
      (Or.inr rfl) rfl⟩,
   ⟨rfl,
    c1_multikey_covered_filter_safety.2.1 (fun _ _ => .abort) sampleOracle
      qAB [idxABmk] false (regexPred "b" (some ⟨0, 1⟩)) []
      { currentScan := some scanABpartialMk, currentIndexNumber := some 0 }
      ⟨0, 1⟩ scanABpartialMk idxABmk scanABmergedMk
      rfl rfl (by simp [regexPred, MatchExpr.ty]) rfl rfl rfl rfl rfl rfl
      (by simp [idxABmk])⟩,
   ⟨by
      intro idx hidx htype
      rcases List.mem_singleton.mp hidx with rfl
      simp [idxAB] at htype,
    c1_multikey_covered_filter_safety.2.2 sampleOracle qAB [idxAB] 4
      andRootAB false _
      (by
        intro idx hidx htype
        rcases List.mem_singleton.mp hidx with rfl
        simp [idxAB] at htype)
      rfl⟩⟩

theorem findIdx_before {α : Type} (p : α → Bool) :
    ∀ (l : List α) (j : Nat), j < l.findIdx p →
      ∀ x, l[j]? = some x → p x = false := by
  intro l
  induction l with
  | nil =>
    intro j hj x hx
    cases hx
  | cons a rest ih =>
    intro j hj x hx
    rw [List.findIdx_cons] at hj
    rcases hp : p a with _ | _ <;> rw [hp] at hj
    · simp only [cond_false] at hj
      cases j with
      | zero =>
        simp only [List.getElem?_cons_zero] at hx
        cases hx
        exact hp
      | succ j2 =>
        simp only [List.getElem?_cons_succ] at hx
        exact ih j2 (Nat.lt_of_succ_lt_succ hj) x hx
    · simp only [cond_true] at hj
      cases hj

theorem findIdx_found {α : Type} (p : α → Bool) :
    ∀ (l : List α), l.findIdx p < l.length →
      ∃ x, l[l.findIdx p]? = some x ∧ p x = true := by
  intro l
  induction l with
  | nil =>
    intro h
    cases h
  | cons a rest ih =>
    intro h
    rw [List.findIdx_cons]
    rw [List.findIdx_cons] at h
    rcases hp : p a with _ | _
    · simp only [hp, cond_false] at h ⊢
      obtain ⟨x, hx, hpx⟩ := ih (Nat.lt_of_succ_lt_succ h)
      exact ⟨x, by simpa using hx, hpx⟩
    · simp only [hp, cond_true]
      exact ⟨a, by simp, hp⟩

theorem findIdx_none {α : Type} (p : α → Bool) :
    ∀ (l : List α), l.findIdx p = l.length →
      ∀ (j : Nat) x, l[j]? = some x → p x = false := by
  intro l h j x hx
  by_cases hj : j < l.findIdx p
  · exact findIdx_before p l j hj x hx
  · exfalso
    rw [h] at hj
    have := List.getElem?_eq_some_iff.mp hx
    exact hj this.choose

/-- Pointwise description of the all-values fill loop on the tail of the
key pattern: it runs to the end of the key, fills every still-unbound
position at or after idx0 with the all-values OIL for the corresponding key
element, and leaves everything else unchanged. -/
theorem fillAllValues_ok (kp : BObj) :
    ∀ (kpRest : List BElt) (idx0 : Nat) (fields : List OIL)
      (idxOut : Nat) (fields' : List OIL),
      kpRest = kp.drop idx0 →
      idx0 ≤ kp.length →
      fields.length = kp.length →
      fillAllValues kpRest idx0 fields = .ok (idxOut, fields') →
      idxOut = kp.length ∧ fields'.length = kp.length ∧
      (∀ (i : Nat), i < idx0 → fields'[i]? = fields[i]?) ∧
      (∀ (i : Nat) o e, fields[i]? = some o → kp[i]? = some e → idx0 ≤ i →
        fields'[i]? = some (if o.name = "" then allValuesForField e else o)) := by
  intro kpRest
  induction kpRest with
  | nil =>
    intro idx0 fields idxOut fields' hdrop hle hlen h
    simp only [fillAllValues] at h
    cases h
    have hlen0 : kp.length ≤ idx0 := by
      have := congrArg List.length hdrop
      simp only [List.length_nil, List.length_drop] at this
      omega
    have heq : idx0 = kp.length := Nat.le_antisymm hle hlen0
    refine ⟨heq, hlen, fun i _ => rfl, ?_⟩
    intro i o e ho he hge
    exfalso
    have : i < kp.length := (List.getElem?_eq_some_iff.mp he).choose
    omega
  | cons kpElt rest ih =>
    intro idx0 fields idxOut fields' hdrop hle hlen h
    have hlt : idx0 < kp.length := by
      have := congrArg List.length hdrop
      simp only [List.length_cons, List.length_drop] at this
      omega
    have hkp0 : kp[idx0]? = some kpElt := by
      have h2 : kp.drop idx0 = kpElt :: rest := hdrop.symm
      have h3 := List.getElem?_drop kp idx0 0
      rw [h2] at h3
      simpa using h3.symm
    have hrest : rest = kp.drop (idx0 + 1) := by
      have h2 : kp.drop idx0 = kpElt :: rest := hdrop.symm
      have h3 := List.drop_drop 1 idx0 kp
      rw [h2] at h3
      simpa using h3
    simp only [fillAllValues] at h
    rcases hgo : fields[idx0]? with _ | o0 <;> simp only [hgo] at h
    · cases h
    · by_cases hname : o0.name = ""
      · rw [if_pos hname] at h
        rcases hint : o0.intervals.isEmpty with _ | _ <;> rw [hint] at h
        · cases h
        · obtain ⟨h1, h2, h3, h4⟩ := ih (idx0 + 1)
            (fields.set idx0 (allValuesForField kpElt)) idxOut fields'
            hrest hlt (by simpa using hlen) h
          refine ⟨h1, h2, ?_, ?_⟩
          · intro i hi
            rw [h3 i (by omega)]
            rw [List.getElem?_set_ne (by omega)]
          · intro i o e ho he hge
            by_cases hii : i = idx0
            · subst hii
              rw [hgo] at ho
              cases ho
              rw [if_pos hname]
              rw [hkp0] at he
              cases he
              have := h3 i (by omega)
              rw [this]
              rw [List.getElem?_set_eq_of_lt _ (by omega)]
            · have hge2 : idx0 + 1 ≤ i := by omega
              have := h4 i o e (by rw [List.getElem?_set_ne (by omega)]; exact ho)
                he hge2
              exact this
      · rw [if_neg hname] at h
        obtain ⟨h1, h2, h3, h4⟩ := ih (idx0 + 1) fields idxOut fields'
          hrest hlt hlen h
        refine ⟨h1, h2, ?_, ?_⟩
        · intro i hi
          exact h3 i (by omega)
        · intro i o e ho he hge
          by_cases hii : i = idx0
          · subst hii
            rw [hgo] at ho
            cases ho
            rw [if_neg hname]
            rw [h3 i (by omega)]
            exact hgo
          · exact h4 i o e ho he (by omega)

theorem reverseOIL_boundOk (e : BElt) (o : OIL) (h : oilBoundOk e o) :
    oilBoundOk e (reverseOIL o) := by
  obtain ⟨h1, h2⟩ := h
  refine ⟨h1, ?_⟩
  simp only [reverseOIL, ne_eq, List.reverse_eq_nil_iff, List.map_eq_nil_iff]
  exact h2

theorem alignBounds_getElem (b : IndexBounds) (kp : BObj) (i : Nat) :
    (alignBounds b kp).fields[i]?
      = if kpFirstDescending kp then (b.fields[i]?).map reverseOIL
        else b.fields[i]? := by
  unfold alignBounds
  by_cases hd : kpFirstDescending kp <;> simp [hd]

theorem alignBounds_length (b : IndexBounds) (kp : BObj) :
    (alignBounds b kp).fields.length = b.fields.length := by
  unfold alignBounds
  by_cases hd : kpFirstDescending kp <;> simp [hd]

/-- A successful finishBounds on in-flight bounds yields finished bounds:
every position is bound to its key element's name with a non-empty
interval list, and positions that were unbound received the (possibly
direction-reversed) all-values OIL. -/
theorem finishBounds_ok (kp : BObj) (bounds bounds' : IndexBounds)
    (hpart : partialBoundsOk kp bounds)
    (h : finishBounds bounds kp = .ok bounds') :
    finishedBoundsOk kp bounds' ∧
    (∀ (i : Nat) o e, bounds.fields[i]? = some o → kp[i]? = some e →
      o.name = "" →
      bounds'.fields[i]? = some (allValuesForField e) ∨
      bounds'.fields[i]? = some (reverseOIL (allValuesForField e))) := by
  obtain ⟨hlen, hinv⟩ := hpart
  simp only [finishBounds] at h
  by_cases hfe : bounds.fields.findIdx (fun o => o.name = "")
      = bounds.fields.length
  · rw [if_pos hfe] at h
    cases h
    have hnone := findIdx_none (fun o => decide (o.name = "")) bounds.fields hfe
    constructor
    · refine ⟨by rw [alignBounds_length]; exact hlen, ?_⟩
      intro i o' e ho' he
      rw [alignBounds_getElem] at ho'
      have hi : i < bounds.fields.length := by
        have h2 : i < kp.length := (List.getElem?_eq_some_iff.mp he).choose
        omega
      obtain ⟨o, ho⟩ : ∃ x, bounds.fields[i]? = some x :=
        ⟨_, List.getElem?_eq_getElem hi⟩
      have hname : o.name ≠ "" := by
        have := hnone i o ho
        simpa using this
      have hbo : oilBoundOk e o := by
        rcases hinv i o e ho he with ⟨h1, _⟩ | h2
        · exact absurd h1 hname
        · exact h2
      split at ho'
      · rw [ho] at ho'
        simp only [Option.map_some'] at ho'
        cases ho'
        exact reverseOIL_boundOk e o hbo
      · rw [ho] at ho'
        cases ho'
        exact hbo
    · intro i o e ho he hname
      exfalso
      exact absurd (by simpa using hnone i o ho) (by simp [hname])
  · rw [if_neg hfe] at h
    have hfl : bounds.fields.findIdx (fun o => o.name = "")
        < bounds.fields.length :=
      Nat.lt_of_le_of_ne (List.findIdx_le_length _) hfe
    obtain ⟨o0, ho0, hpo0⟩ :=
      findIdx_found (fun o => decide (o.name = "")) bounds.fields hfl
    simp only [ho0] at h
    rcases hint : o0.intervals.isEmpty with _ | _ <;> rw [hint] at h
    · simp at h
    · rw [if_neg (by simp)] at h
      split at h
      · cases h
      · rcases hfill : fillAllValues
            (kp.drop (bounds.fields.findIdx (fun o => o.name = "")))
            (bounds.fields.findIdx (fun o => o.name = ""))
            bounds.fields with ⟨idxOut, fields2⟩ | _ | _ <;>
          simp only [hfill] at h
        · obtain ⟨h1, h2, h3, h4⟩ := fillAllValues_ok kp _ _ _ _ _ rfl
            (by omega) hlen hfill
          split at h
          · cases h
            have hgetf : ∀ (i : Nat) o e, bounds.fields[i]? = some o →
                kp[i]? = some e →
                fields2[i]? = some (if o.name = "" then allValuesForField e
                  else o) := by
              intro i o e ho he
              by_cases hge : bounds.fields.findIdx (fun x => x.name = "") ≤ i
              · exact h4 i o e ho he hge
              · rw [h3 i (by omega), ho]
                have : o.name ≠ "" := by
                  have := findIdx_before (fun x => decide (x.name = ""))
                    bounds.fields i (by omega) o ho
                  simpa using this
                rw [if_neg this]
            constructor
            · refine ⟨by rw [alignBounds_length]; simpa using h2, ?_⟩
              intro i o' e ho' he
              rw [alignBounds_getElem] at ho'
              have hi : i < bounds.fields.length := by
                have hik : i < kp.length := (List.getElem?_eq_some_iff.mp he).choose
                omega
              obtain ⟨o, ho⟩ : ∃ x, bounds.fields[i]? = some x :=
                ⟨_, List.getElem?_eq_getElem hi⟩
              have hf2 := hgetf i o e ho he
              have hbo : oilBoundOk e (if o.name = "" then allValuesForField e
                  else o) := by
                by_cases hname : o.name = ""
                · rw [if_pos hname]
                  exact ⟨rfl, by simp [allValuesForField]⟩
                · rw [if_neg hname]
                  rcases hinv i o e ho he with ⟨hn1, _⟩ | hok
                  · exact absurd hn1 hname
                  · exact hok
              split at ho'
              · rw [hf2] at ho'
                simp only [Option.map_some'] at ho'
                cases ho'
                exact reverseOIL_boundOk _ _ hbo
              · rw [hf2] at ho'
                cases ho'
                exact hbo
            · intro i o e ho he hname
              rw [alignBounds_getElem]
              have hf2 := hgetf i o e ho he
              rw [hname] at hf2
              simp only [if_pos rfl] at hf2
              split
              · right
                rw [hf2]
                rfl
              · left
                exact hf2
          · cases h
        · cases h
        · cases h

/-- C4 part one: finishing an index-scan leaf whose in-flight bounds obey
the partial invariant yields, on success, bounds with one properly bound
OIL per key-pattern position; previously unbound positions hold the
(possibly direction-reversed) all-values OIL. -/
theorem finishLeafNode_ixscan_bounds (idx : IndexEntry) (kp0 : BObj)
    (mk : Bool) (bounds : IndexBounds) (f : Option MatchExpr) (d : Int)
    (ms : Nat) (ak : Bool) (fin : QSN)
    (hpart : partialBoundsOk idx.keyPattern bounds)
    (hfin : finishLeafNode (.ixscan kp0 mk bounds f d ms ak) idx
      = .ok fin) :
    ∃ bounds', fin = .ixscan kp0 mk bounds' f d ms ak ∧
      finishedBoundsOk idx.keyPattern bounds' ∧
      (∀ (i : Nat) o e, bounds.fields[i]? = some o →
        idx.keyPattern[i]? = some e → o.name = "" →
        bounds'.fields[i]? = some (allValuesForField e) ∨
        bounds'.fields[i]? = some (reverseOIL (allValuesForField e))) := by
  simp only [finishLeafNode] at hfin
  rcases hb : finishBounds bounds idx.keyPattern with bounds' | _ | _ <;>
    simp only [hb] at hfin <;> cases hfin
  obtain ⟨h1, h2⟩ := finishBounds_ok idx.keyPattern bounds bounds' hpart hb
  exact ⟨bounds', rfl, h1, h2⟩

/-- In-flight leaf invariant for the finished-bounds property: an index
scan in flight over idx records idx's key pattern and keeps the partial
bounds invariant. -/
def leafB (idx : IndexEntry) (cs : QSN) : Prop :=
  match cs with
  | .ixscan kp _ bounds _ _ _ _ =>
    kp = idx.keyPattern ∧ partialBoundsOk idx.keyPattern bounds
  | _ => True

theorem makeLeafNode_leafB (ob : PlannerOracle) (query : CanonicalQuery)
    (idx : IndexEntry) (pos : Nat) (e : MatchExpr) (s : QSN) (t : Tightness)
    (hc : oracleBoundsContract ob)
    (h : makeLeafNode ob query idx pos e = .ok (s, t)) :
    leafB idx s := by
  simp only [makeLeafNode] at h
  split at h
  · split at h
    · cases h
    · cases h
      trivial
  · split at h
    · split at h
      · cases h
        trivial
      · cases h
    · split at h
      · cases h
        trivial
      · rcases hkp : idx.keyPattern[pos]? with _ | keyElt <;>
          simp only [hkp] at h
        · cases h
        · cases h
          refine ⟨rfl, by simp, ?_⟩
          intro i o e2 ho he2
          rw [List.getElem?_set] at ho
          by_cases hip : pos = i
          · subst hip
            by_cases hlt : pos < (List.replicate idx.keyPattern.length
                ({} : OIL)).length
            · rw [if_pos rfl, if_pos hlt] at ho
              cases ho
              right
              have : e2 = keyElt := by
                rw [hkp] at he2
                cases he2
                rfl
              rw [this]
              exact hc.1 e keyElt idx
            · rw [if_pos rfl, if_neg hlt] at ho
              cases ho
          · rw [if_neg hip] at ho
            rw [List.getElem?_replicate] at ho
            split at ho
            · cases ho
              left
              exact ⟨rfl, rfl⟩
            · cases ho

theorem mergeBoundsFields_partial (ob : PlannerOracle) (e : MatchExpr)
    (idx : IndexEntry) (pos : Nat) (b b' : IndexBounds) (mt : MatchType)
    (t : Tightness)
    (hc : oracleBoundsContract ob)
    (hpart : partialBoundsOk idx.keyPattern b)
    (h : mergeBoundsFields ob e idx pos b mt = .ok (b', t)) :
    partialBoundsOk idx.keyPattern b' := by
  obtain ⟨hlen, hinv⟩ := hpart
  simp only [mergeBoundsFields] at h
  rcases hkp : idx.keyPattern[pos]? with _ | keyElt <;> simp only [hkp] at h
  · cases h
  · rcases hof : b.fields[pos]? with _ | oil <;> simp only [hof] at h
    · cases h
    · have hgen : ∀ (oil' : OIL), oilBoundOk keyElt oil' →
          partialBoundsOk idx.keyPattern
            { b with fields := b.fields.set pos oil' } := by
        intro oil' hbo
        refine ⟨by simpa using hlen, ?_⟩
        intro i o e2 ho he2
        simp only at ho
        rw [List.getElem?_set] at ho
        by_cases hip : pos = i
        · subst hip
          by_cases hlt : pos < b.fields.length
          · rw [if_pos rfl, if_pos hlt] at ho
            cases ho
            right
            have : e2 = keyElt := by
              rw [hkp] at he2
              cases he2
              rfl
            subst this
            exact hbo
          · rw [if_pos rfl, if_neg hlt] at ho
            cases ho
        · rw [if_neg hip] at ho
          exact hinv i o e2 ho he2
      split at h
      · cases h
        exact hgen _ (hc.1 e keyElt idx)
      · split at h
        · cases h
          exact hgen _ (hc.2.1 e keyElt idx oil)
        · split at h
          · cases h
            exact hgen _ (hc.2.2 e keyElt idx oil)
          · cases h

theorem mergeWithLeafNode_leafB (ob : PlannerOracle) (e : MatchExpr)
    (idx : IndexEntry) (pos : Nat) (s s' : QSN) (mt : MatchType)
    (t : Tightness)
    (hc : oracleBoundsContract ob)
    (hsafe : leafB idx s)
    (h : mergeWithLeafNode ob e idx pos s mt = .ok (s', t)) :
    leafB idx s' := by
  cases s
  case geo2d =>
    simp only [mergeWithLeafNode] at h
    cases h
    trivial
  case textNode =>
    simp only [mergeWithLeafNode] at h
    cases h
    trivial
  case geoNear2dsphere kp nq bb f2 ap ad =>
    simp only [mergeWithLeafNode] at h
    rcases hm : mergeBoundsFields ob e idx pos bb mt with ⟨bb', t2⟩ | _ | _ <;>
      simp only [hm] at h <;> cases h
    trivial
  case ixscan kp mk bounds f d ms ak =>
    simp only [mergeWithLeafNode] at h
    rcases hm : mergeBoundsFields ob e idx pos bounds mt
        with ⟨b', t2⟩ | _ | _ <;> simp only [hm] at h <;> cases h
    exact ⟨hsafe.1, mergeBoundsFields_partial ob e idx pos bounds b' mt _
      hc hsafe.2 hm⟩
  all_goals simp only [mergeWithLeafNode] at h
  all_goals cases h

theorem setFilter_leafB (idx : IndexEntry) (s : QSN) (m : Option MatchExpr)
    (hsafe : leafB idx s) : leafB idx (s.setFilter m) := by
  cases s <;> simp only [QSN.setFilter, leafB]
  all_goals try trivial

theorem addFilter_leafB (idx : IndexEntry) (s s' : QSN) (c : MatchExpr)
    (mt : MatchType)
    (hsafe : leafB idx s)
    (h : addFilterToSolutionNode s c mt = some s') : leafB idx s' := by
  simp only [addFilterToSolutionNode] at h
  split at h
  · cases h
    exact setFilter_leafB idx s _ hsafe
  · split at h
    · cases h
      exact setFilter_leafB idx s _ hsafe
    · split at h
      · cases h
        exact setFilter_leafB idx s _ hsafe
      · split at h
        · cases h
          exact setFilter_leafB idx s _ hsafe
        · cases h

theorem finishLeafNode_leafB (idx : IndexEntry) (s fin : QSN)
    (hsafe : leafB idx s)
    (h : finishLeafNode s idx = .ok fin) :
    qsnAll ixscanBoundsFinished fin := by
  cases s <;> simp only [finishLeafNode] at h
  case geo2d =>
    cases h
    simp [qsnAll, ixscanBoundsFinished]
  case textNode kp q lang pfx filt =>
    obtain ⟨kp', q', l', p', f', rfl⟩ := finishTextNode_ok_shape _ idx fin h
    simp [qsnAll, ixscanBoundsFinished]
  case geoNear2dsphere kp nq bb f ap ad =>
    rcases hb : finishBounds bb idx.keyPattern with bb' | _ | _ <;>
      simp only [hb] at h <;> cases h
    simp [qsnAll, ixscanBoundsFinished]
  case ixscan kp mk bounds f d ms ak =>
    rcases hb : finishBounds bounds idx.keyPattern with b' | _ | _ <;>
      simp only [hb] at h <;> cases h
    obtain ⟨h1, _⟩ := finishBounds_ok idx.keyPattern bounds b' hsafe.2 hb
    simp only [qsnAll, ixscanBoundsFinished]
    rw [hsafe.1]
    exact h1
  all_goals cases h

theorem setFilter_bounds2 (fin : QSN) (m : Option MatchExpr)
    (hq : qsnAll ixscanBoundsFinished fin) :
    qsnAll ixscanBoundsFinished (fin.setFilter m) := by
  cases fin <;> simp only [QSN.setFilter]
  case ixscan kp mk bounds f d ms ak =>
    simpa [qsnAll, ixscanBoundsFinished] using hq
  case collScan => simp [qsnAll, ixscanBoundsFinished]
  case geo2d => simp [qsnAll, ixscanBoundsFinished]
  case geoNear2dsphere => simp [qsnAll, ixscanBoundsFinished]
  case textNode => simp [qsnAll, ixscanBoundsFinished]
  all_goals
    rw [qsnAll] at hq ⊢
    exact ⟨trivial, hq.2⟩

theorem finishLeafNode_qsnAll_leafB (idx : IndexEntry) (s fin : QSN)
    (hsafe : leafB idx s)
    (h : finishLeafNode s idx = .ok fin) :
    qsnAll ixscanBoundsFinished fin :=
  finishLeafNode_leafB idx s fin hsafe h

/-- Scan-state invariant for finished bounds: any in-flight scan is tied
to a valid catalog index whose key pattern it records, with partial
bounds. -/
def stInv2 (indices : List IndexEntry) (st : ScanState) : Prop :=
  ∀ cs, st.currentScan = some cs →
    ∃ n idx, st.currentIndexNumber = some n ∧ indices[n]? = some idx ∧
      leafB idx cs

/-- Output invariant for finished bounds. -/
def outInv2 (st : ScanState) : Prop :=
  ∀ q ∈ st.out, qsnAll ixscanBoundsFinished q

theorem emitCurrentScan_safe2 (indices : List IndexEntry) (st st1 : ScanState)
    (hst : stInv2 indices st) (hout : outInv2 st)
    (h : emitCurrentScan indices st = .ok st1) :
    stInv2 indices st1 ∧ outInv2 st1 ∧ st1.currentScan = none ∧
    st1.kept = st.kept := by
  simp only [emitCurrentScan] at h
  rcases hcs : st.currentScan with _ | cs <;> simp only [hcs] at h
  · split at h
    · cases h
      refine ⟨?_, hout, hcs, rfl⟩
      intro x hx
      rw [hcs] at hx
      cases hx
    · cases h
  · obtain ⟨n, idx, hn, hidx, hsafe⟩ := hst cs hcs
    simp only [hn, hidx] at h
    rcases hf : finishLeafNode cs idx with fin | _ | _ <;>
      simp only [hf] at h <;> cases h
    have hq := finishLeafNode_leafB idx cs fin hsafe hf
    refine ⟨?_, ?_, rfl, rfl⟩
    · intro x hx
      cases hx
    · intro x hx
      rcases List.mem_append.mp hx with hx | hx
      · exact hout x hx
      · rcases List.mem_singleton.mp hx with rfl
        exact hq

theorem flushScanEnd_safe2 (indices : List IndexEntry) (st st1 : ScanState)
    (hst : stInv2 indices st) (hout : outInv2 st)
    (h : flushScanEnd indices st = .ok st1) :
    outInv2 st1 ∧ st1.kept = st.kept := by
  simp only [flushScanEnd] at h
  rcases hcs : st.currentScan with _ | cs <;> simp only [hcs] at h
  · cases h
    exact ⟨hout, rfl⟩
  · obtain ⟨n, idx, hn, hidx, hsafe⟩ := hst cs hcs
    simp only [hn, hidx] at h
    rcases hf : finishLeafNode cs idx with fin | _ | _ <;>
      simp only [hf] at h <;> cases h
    have hq := finishLeafNode_leafB idx cs fin hsafe hf
    refine ⟨?_, rfl⟩
    intro x hx
    rcases List.mem_append.mp hx with hx | hx
    · exact hout x hx
    · rcases List.mem_singleton.mp hx with rfl
      exact hq

theorem elemMatchOpenNew_safe2 (ob : PlannerOracle) (query : CanonicalQuery)
    (indices : List IndexEntry) (rootTy : MatchType) (outerIndex : Nat)
    (innerPos : Nat) (emChild : MatchExpr) (st st' : ScanState)
    (hc : oracleBoundsContract ob)
    (hst : stInv2 indices st) (hout : outInv2 st)
    (h : elemMatchOpenNew ob query indices rootTy outerIndex innerPos
      emChild st = .ok st') :
    stInv2 indices st' ∧ outInv2 st' := by
  simp only [elemMatchOpenNew] at h
  rcases he : emitCurrentScan indices st with st1 | _ | _ <;>
    simp only [he] at h
  · obtain ⟨hst1, hout1, _, _⟩ := emitCurrentScan_safe2 indices st st1 hst hout he
    rcases hidx : indices[outerIndex]? with _ | idx <;> simp only [hidx] at h
    · cases h
    · rcases hmk : makeLeafNode ob query idx innerPos emChild with ⟨cs, t⟩ | _ | _ <;>
        simp only [hmk] at h
      · have hsafe := makeLeafNode_leafB ob query idx innerPos emChild cs t hc hmk
        split at h
        · rcases haf : addFilterToSolutionNode cs emChild rootTy with _ | cs' <;>
            simp only [haf] at h
          · cases h
          · cases h
            refine ⟨?_, hout1⟩
            intro x hx
            cases hx
            exact ⟨outerIndex, idx, rfl, hidx,
              addFilter_leafB idx cs _ emChild rootTy hsafe haf⟩
        · cases h
          refine ⟨?_, hout1⟩
          intro x hx
          cases hx
          exact ⟨outerIndex, idx, rfl, hidx, hsafe⟩
      · cases h
      · cases h
  · cases h
  · cases h

theorem elemMatchScanLoop_safe2 (ob : PlannerOracle) (query : CanonicalQuery)
    (indices : List IndexEntry) (rootTy : MatchType) (outerIndex : Nat)
    (hc : oracleBoundsContract ob) :
    ∀ (ems : List MatchExpr) (st st' : ScanState),
      stInv2 indices st → outInv2 st →
      elemMatchScanLoop ob query indices rootTy outerIndex ems st = .ok st' →
      stInv2 indices st' ∧ outInv2 st' := by
  intro ems
  induction ems with
  | nil =>
    intro st st' hst hout h
    simp only [elemMatchScanLoop] at h
    cases h
    exact ⟨hst, hout⟩
  | cons em rest ih =>
    intro st st' hst hout h
    simp only [elemMatchScanLoop] at h
    rcases htag : em.tag with _ | innerTag <;> simp only [htag] at h
    · cases h
    · rcases hstep : (match st.currentScan, st.currentIndexNumber with
        | some cs, some n =>
          if n = outerIndex then
            match indices[n]? with
            | none => BuildResult.abort
            | some idx =>
              match shouldMergeWithLeaf em idx innerTag.pos cs rootTy with
              | none => .abort
              | some true =>
                match mergeWithLeafNode ob em idx innerTag.pos cs rootTy with
                | .ok (cs', t) =>
                  if t = .INEXACT_COVERED ∧ idx.multikey = false then
                    match addFilterToSolutionNode cs' em rootTy with
                    | some cs'' => .ok { st with currentScan := some cs'' }
                    | none => .abort
                  else .ok { st with currentScan := some cs' }
                | .noPlan => .noPlan
                | .abort => .abort
              | some false =>
                elemMatchOpenNew ob query indices rootTy outerIndex
                  innerTag.pos em st
          else
            elemMatchOpenNew ob query indices rootTy outerIndex
              innerTag.pos em st
        | _, _ =>
          elemMatchOpenNew ob query indices rootTy outerIndex
            innerTag.pos em st : BuildResult ScanState) with st1 | _ | _ <;>
        simp only [hstep] at h
      · have hstep1 : stInv2 indices st1 ∧ outInv2 st1 := by
          rcases hcs : st.currentScan with _ | cs <;> simp only [hcs] at hstep
          · exact elemMatchOpenNew_safe2 ob query indices rootTy outerIndex
              innerTag.pos em st st1 hc hst hout hstep
          · rcases hn : st.currentIndexNumber with _ | n <;>
              simp only [hn] at hstep
            · exact elemMatchOpenNew_safe2 ob query indices rootTy outerIndex
                innerTag.pos em st st1 hc hst hout hstep
            · by_cases hno : n = outerIndex
              · rw [if_pos hno] at hstep
                obtain ⟨n', idx', hn', hidx', hsafe⟩ := hst cs hcs
                have hnn : n' = n := by
                  rw [hn] at hn'
                  cases hn'
                  rfl
                subst hnn
                simp only [hidx'] at hstep
                rcases hsm : shouldMergeWithLeaf em idx' innerTag.pos cs
                    rootTy with _ | b <;> simp only [hsm] at hstep
                · cases hstep
                · cases b
                  · exact elemMatchOpenNew_safe2 ob query indices rootTy
                      outerIndex innerTag.pos em st st1 hc hst hout hstep
                  · rcases hm : mergeWithLeafNode ob em idx' innerTag.pos cs
                        rootTy with ⟨cs', t⟩ | _ | _ <;>
                      simp only [hm] at hstep
                    · have hsafe' := mergeWithLeafNode_leafB ob em idx'
                        innerTag.pos cs cs' rootTy t hc hsafe hm
                      split at hstep
                      · rcases haf : addFilterToSolutionNode cs' em rootTy
                            with _ | cs'' <;> simp only [haf] at hstep
                        · cases hstep
                        · cases hstep
                          refine ⟨?_, hout⟩
                          intro x hx
                          cases hx
                          exact ⟨n', idx', rfl, hidx',
                            addFilter_leafB idx' cs' _ em rootTy hsafe' haf⟩
                      · cases hstep
                        refine ⟨?_, hout⟩
                        intro x hx
                        cases hx
                        exact ⟨n', idx', rfl, hidx', hsafe'⟩
                    · cases hstep
                    · cases hstep
              · rw [if_neg hno] at hstep
                exact elemMatchOpenNew_safe2 ob query indices rootTy
                  outerIndex innerTag.pos em st st1 hc hst hout hstep
        exact ih st1 st' hstep1.1 hstep1.2 h
      · cases h
      · cases h

theorem mergedScanDispatch_safe2 (ob : PlannerOracle)
    (indices : List IndexEntry) (rootTy : MatchType) (n : Nat)
    (idx : IndexEntry) (effPos : Nat) (child : MatchExpr) (cs : QSN)
    (st st' : ScanState)
    (hc : oracleBoundsContract ob)
    (hn : st.currentIndexNumber = some n)
    (hidx : indices[n]? = some idx)
    (hsafe : leafB idx cs)
    (hout : outInv2 st)
    (h : mergedScanDispatch ob rootTy idx effPos child cs st = .ok st') :
    stInv2 indices st' ∧ outInv2 st' := by
  simp only [mergedScanDispatch] at h
  rcases hm : mergeWithLeafNode ob child idx effPos cs rootTy
      with ⟨cs', t⟩ | _ | _ <;> simp only [hm] at h
  · have hsafe' := mergeWithLeafNode_leafB ob child idx effPos cs cs'
      rootTy t hc hsafe hm
    split at h
    · cases h
      refine ⟨?_, hout⟩
      intro x hx
      cases hx
      exact ⟨n, idx, hn, hidx, hsafe'⟩
    · split at h
      · rcases haf : addFilterToSolutionNode cs' child rootTy with _ | cs'' <;>
          simp only [haf] at h
        · cases h
        · cases h
          refine ⟨?_, hout⟩
          intro x hx
          cases hx
          exact ⟨n, idx, hn, hidx,
            addFilter_leafB idx cs' _ child rootTy hsafe' haf⟩
      · split at h
        · rcases hf : finishLeafNode cs' idx with fin | _ | _ <;>
            simp only [hf] at h <;> cases h
          have hq := finishLeafNode_leafB idx cs' fin hsafe' hf
          refine ⟨?_, ?_⟩
          · intro x hx
            cases hx
          · intro x hx
            rcases List.mem_append.mp hx with hx | hx
            · exact hout x hx
            · rcases List.mem_singleton.mp hx with rfl
              rw [qsnAll_node]
              refine ⟨trivial, ?_⟩
              intro c hcm
              rcases List.mem_singleton.mp hcm with rfl
              exact hq
        · cases h
          refine ⟨?_, hout⟩
          intro x hx
          cases hx
          exact ⟨n, idx, hn, hidx, hsafe'⟩
  · cases h
  · cases h

theorem mainOpenNew_safe2 (ob : PlannerOracle) (query : CanonicalQuery)
    (indices : List IndexEntry) (rootTy : MatchType)
    (inArrayOperator : Bool) (effIndex effPos : Nat) (child : MatchExpr)
    (st st' : ScanState)
    (hc : oracleBoundsContract ob)
    (hst : stInv2 indices st) (hout : outInv2 st)
    (h : mainOpenNew ob query indices rootTy inArrayOperator effIndex
      effPos child st = .ok st') :
    stInv2 indices st' ∧ outInv2 st' := by
  simp only [mainOpenNew] at h
  rcases he : emitCurrentScan indices st with st1 | _ | _ <;>
    simp only [he] at h
  · obtain ⟨hst1, hout1, _, _⟩ := emitCurrentScan_safe2 indices st st1 hst hout he
    rcases hidx : indices[effIndex]? with _ | idx <;> simp only [hidx] at h
    · cases h
    · rcases hmk : makeLeafNode ob query idx effPos child
          with ⟨cs, t⟩ | _ | _ <;> simp only [hmk] at h
      · have hsafe := makeLeafNode_leafB ob query idx effPos child cs t hc hmk
        split at h
        · cases h
          refine ⟨?_, hout1⟩
          intro x hx
          cases hx
          exact ⟨effIndex, idx, rfl, hidx, hsafe⟩
        · split at h
          · rcases haf : addFilterToSolutionNode cs child rootTy
                with _ | cs' <;> simp only [haf] at h
            · cases h
            · cases h
              refine ⟨?_, hout1⟩
              intro x hx
              cases hx
              exact ⟨effIndex, idx, rfl, hidx,
                addFilter_leafB idx cs _ child rootTy hsafe haf⟩
          · split at h
            · rcases hf : finishLeafNode cs idx with fin | _ | _ <;>
                simp only [hf] at h <;> cases h
              have hq := finishLeafNode_leafB idx cs fin hsafe hf
              refine ⟨?_, ?_⟩
              · intro x hx
                cases hx
              · intro x hx
                rcases List.mem_append.mp hx with hx | hx
                · exact hout1 x hx
                · rcases List.mem_singleton.mp hx with rfl
                  rw [qsnAll_node]
                  refine ⟨trivial, ?_⟩
                  intro c hcm
                  rcases List.mem_singleton.mp hcm with rfl
                  exact hq
            · cases h
              refine ⟨?_, hout1⟩
              intro x hx
              cases hx
              exact ⟨effIndex, idx, rfl, hidx, hsafe⟩
      · cases h
      · cases h
  · cases h
  · cases h

theorem pis_safe2 (bida : MatchExpr → Bool → BuildResult QSN)
    (ob : PlannerOracle) (query : CanonicalQuery)
    (indices : List IndexEntry) (rootTy : MatchType)
    (inArrayOperator : Bool)
    (hc : oracleBoundsContract ob)
    (hbida : ∀ c a s, bida c a = .ok s → qsnAll ixscanBoundsFinished s) :
    ∀ (children : List MatchExpr) (st : ScanState) (kept : List MatchExpr)
      (outs : List QSN),
      stInv2 indices st → outInv2 st →
      processIndexScans bida ob query indices rootTy inArrayOperator
        children st = .ok (kept, outs) →
      ∀ q ∈ outs, qsnAll ixscanBoundsFinished q := by
  intro children
  induction children with
  | nil =>
    intro st kept outs hst hout h
    simp only [processIndexScans] at h
    rcases hfl : flushScanEnd indices st with st1 | _ | _ <;>
      simp only [hfl] at h
    · cases h
      exact (flushScanEnd_safe2 indices st st1 hst hout hfl).1
    · cases h
    · cases h
  | cons child rest ih =>
    intro st kept outs hst hout h
    simp only [processIndexScans] at h
    rcases htag : child.tag with _ | ixtag <;> simp only [htag] at h
    · rcases hfl : flushScanEnd indices
          { st with kept := st.kept ++ child :: rest } with st1 | _ | _ <;>
        simp only [hfl] at h
      · cases h
        exact (flushScanEnd_safe2 indices
          { st with kept := st.kept ++ child :: rest } st1
          (fun cs hcs => hst cs hcs) (fun q hq => hout q hq) hfl).1
      · cases h
      · cases h
    · by_cases hbgf : isBoundsGenerating child = false
      · rw [if_pos hbgf] at h
        split at h
        · rcases heml : elemMatchScanLoop ob query indices rootTy ixtag.index
              (findElemMatchChildren child) st with st1 | _ | _ <;>
            simp only [heml] at h
          · obtain ⟨hst1, hout1⟩ := elemMatchScanLoop_safe2 ob query indices
              rootTy ixtag.index hc _ st st1 hst hout heml
            exact ih { st1 with kept := st1.kept ++ [child] } kept outs
              (fun cs hcs => hst1 cs hcs) (fun q hq => hout1 q hq) h
          · cases h
          · cases h
        · rcases hb : bida child inArrayOperator with s | _ | _ <;>
            simp only [hb] at h
          · refine ih _ kept outs ?_ ?_ h
            · intro cs hcs
              have hcs2 : st.currentScan = some cs := by
                cases inArrayOperator <;> exact hcs
              obtain ⟨n, idx, hn2, hidx2, hs2⟩ := hst cs hcs2
              refine ⟨n, idx, ?_, hidx2, hs2⟩
              cases inArrayOperator <;> exact hn2
            · intro q hq
              have hmem : q ∈ st.out ++ [s] := by
                cases inArrayOperator <;> exact hq
              rcases List.mem_append.mp hmem with hq2 | hq2
              · exact hout q hq2
              · rcases List.mem_singleton.mp hq2 with rfl
                exact hbida child _ _ hb
          · cases h
          · cases h
      · rw [if_neg hbgf] at h
        rcases hefr : (if child.ty = .NOT then
            match child.children.head? with
            | some c0 =>
              match c0.tag with
              | some t => BuildResult.ok t
              | none => .abort
            | none => .abort
          else .ok ixtag : BuildResult IndexTag) with effTag | _ | _ <;>
          simp only [hefr] at h
        · rcases hstep : (match st.currentScan, st.currentIndexNumber with
            | some cs, some n =>
              if n = effTag.index then
                match indices[n]? with
                | none => BuildResult.abort
                | some idx =>
                  match shouldMergeWithLeaf child idx effTag.pos cs rootTy with
                  | none => .abort
                  | some true =>
                    mergedScanDispatch ob rootTy idx effTag.pos child cs st
                  | some false =>
                    mainOpenNew ob query indices rootTy inArrayOperator
                      effTag.index effTag.pos child st
              else
                mainOpenNew ob query indices rootTy inArrayOperator
                  effTag.index effTag.pos child st
            | _, _ =>
              mainOpenNew ob query indices rootTy inArrayOperator
                effTag.index effTag.pos child st : BuildResult ScanState)
              with st1 | _ | _ <;> simp only [hstep] at h
          · have hstep1 : stInv2 indices st1 ∧ outInv2 st1 := by
              rcases hcs : st.currentScan with _ | cs <;>
                simp only [hcs] at hstep
              · exact mainOpenNew_safe2 ob query indices rootTy
                  inArrayOperator effTag.index effTag.pos child st st1 hc
                  hst hout hstep
              · rcases hn : st.currentIndexNumber with _ | n <;>
                  simp only [hn] at hstep
                · exact mainOpenNew_safe2 ob query indices rootTy
                    inArrayOperator effTag.index effTag.pos child st st1 hc
                    hst hout hstep
                · by_cases hno : n = effTag.index
                  · rw [if_pos hno] at hstep
                    obtain ⟨n', idx', hn', hidx', hsafe⟩ := hst cs hcs
                    have hnn : n' = n := by
                      rw [hn] at hn'
                      cases hn'
                      rfl
                    subst hnn
                    simp only [hidx'] at hstep
                    rcases hsm : shouldMergeWithLeaf child idx' effTag.pos cs
                        rootTy with _ | b <;> simp only [hsm] at hstep
                    · cases hstep
                    · cases b
                      · exact mainOpenNew_safe2 ob query indices rootTy
                          inArrayOperator effTag.index effTag.pos child st
                          st1 hc hst hout hstep
                      · exact mergedScanDispatch_safe2 ob indices rootTy n'
                          idx' effTag.pos child cs st st1 hc hn hidx' hsafe
                          hout hstep
                  · rw [if_neg hno] at hstep
                    exact mainOpenNew_safe2 ob query indices rootTy
                      inArrayOperator effTag.index effTag.pos child st st1 hc
                      hst hout hstep
            exact ih _ kept outs hstep1.1 hstep1.2 h
          · cases h
          · cases h
        · cases h
        · cases h

theorem stablePartition_safe2 (s : QSN)
    (h : qsnAll ixscanBoundsFinished s) :
    qsnAll ixscanBoundsFinished (stablePartitionTextToFront s) := by
  have hmem : ∀ (cs : List QSN) (c : QSN),
      c ∈ (cs.partition QSN.isTextStage).1 ++ (cs.partition QSN.isTextStage).2 →
      c ∈ cs := by
    intro cs c hcm
    rw [List.partition_eq_filter_filter] at hcm
    rcases List.mem_append.mp hcm with hcm | hcm
    · exact List.mem_of_mem_filter hcm
    · exact List.mem_of_mem_filter hcm
  cases s <;> simp only [stablePartitionTextToFront] <;> try exact h
  all_goals
    rw [qsnAll_node] at h ⊢
    refine ⟨trivial, ?_⟩
    intro c hcm
    exact h.2 c (hmem _ c hcm)

theorem fetchResidualAnd_safe2 (root : MatchExpr) (inArrayOperator : Bool)
    (andResult : QSN) (kept : List MatchExpr) (s : QSN)
    (hq : qsnAll ixscanBoundsFinished andResult)
    (h : fetchResidualAnd root inArrayOperator andResult kept = .ok s) :
    qsnAll ixscanBoundsFinished s := by
  unfold fetchResidualAnd at h
  split at h
  · cases h
    exact hq
  · split at h
    · cases h
      exact hq
    · cases h
      rw [qsnAll_node]
      refine ⟨trivial, ?_⟩
      intro c hcm
      rcases List.mem_singleton.mp hcm with rfl
      exact hq

theorem bia_safe2 (bida : MatchExpr → Bool → BuildResult QSN)
    (ob : PlannerOracle) (query : CanonicalQuery)
    (indices : List IndexEntry) (root : MatchExpr)
    (inArrayOperator : Bool) (s : QSN)
    (hc : oracleBoundsContract ob)
    (hbida : ∀ c a s2, bida c a = .ok s2 → qsnAll ixscanBoundsFinished s2)
    (h : buildIndexedAnd bida ob query indices root inArrayOperator = .ok s) :
    qsnAll ixscanBoundsFinished s := by
  simp only [buildIndexedAnd] at h
  rcases hp : processIndexScans bida ob query indices root.ty
      inArrayOperator root.children {} with ⟨kept, scans⟩ | _ | _
  · have hall : ∀ q ∈ scans, qsnAll ixscanBoundsFinished q := by
      refine pis_safe2 bida ob query indices root.ty inArrayOperator hc hbida
        root.children {} kept scans ?_ ?_ hp
      · intro cs hcs
        cases hcs
      · intro q hq
        cases hq
    rcases scans with _ | ⟨s1, rest⟩
    · simp only [hp] at h
      cases h
    · rcases rest with _ | ⟨s2, rest2⟩
      · simp only [hp] at h
        exact fetchResidualAnd_safe2 root inArrayOperator s1 kept s
          (hall s1 (List.mem_singleton_self s1)) h
      · simp only [hp] at h
        split at h
        · refine fetchResidualAnd_safe2 root inArrayOperator _ kept s ?_ h
          rw [qsnAll_node]
          refine ⟨trivial, ?_⟩
          intro c hcm
          exact hall c hcm
        · refine fetchResidualAnd_safe2 root inArrayOperator _ kept s ?_ h
          rw [qsnAll_node]
          refine ⟨trivial, ?_⟩
          intro c hcm
          exact hall c (mem_swapSortChildToBack ob query _ c hcm)
  · simp only [hp] at h
    cases h
  · simp only [hp] at h
    cases h

theorem bio_safe2 (bida : MatchExpr → Bool → BuildResult QSN)
    (ob : PlannerOracle) (query : CanonicalQuery)
    (indices : List IndexEntry) (root : MatchExpr)
    (inArrayOperator : Bool) (s : QSN)
    (hc : oracleBoundsContract ob)
    (hbida : ∀ c a s2, bida c a = .ok s2 → qsnAll ixscanBoundsFinished s2)
    (h : buildIndexedOr bida ob query indices root inArrayOperator = .ok s) :
    qsnAll ixscanBoundsFinished s := by
  simp only [buildIndexedOr] at h
  rcases hp : processIndexScans bida ob query indices root.ty
      inArrayOperator root.children {} with ⟨kept, scans⟩ | _ | _
  case noPlan =>
    simp only [hp] at h
    cases h
  case abort =>
    simp only [hp] at h
    cases h
  · have hall : ∀ q ∈ scans, qsnAll ixscanBoundsFinished q := by
      refine pis_safe2 bida ob query indices root.ty inArrayOperator hc hbida
        root.children {} kept scans ?_ ?_ hp
      · intro cs hcs
        cases hcs
      · intro q hq
        cases hq
    have horq : ∀ cs2, (∀ q ∈ cs2, qsnAll ixscanBoundsFinished q) →
        qsnAll ixscanBoundsFinished
          (stablePartitionTextToFront (.orNode none cs2)) := by
      intro cs2 hcs2
      refine stablePartition_safe2 _ ?_
      rw [qsnAll_node]
      exact ⟨trivial, hcs2⟩
    have hmsq : ∀ cs2, (∀ q ∈ cs2, qsnAll ixscanBoundsFinished q) →
        qsnAll ixscanBoundsFinished (stablePartitionTextToFront
          (.mergeSort query.parsed.sort none cs2)) := by
      intro cs2 hcs2
      refine stablePartition_safe2 _ ?_
      rw [qsnAll_node]
      exact ⟨trivial, hcs2⟩
    have hgen : ∀ (cs2 : List QSN) (b : Bool),
        (∀ q ∈ cs2, qsnAll ixscanBoundsFinished q) →
        qsnAll ixscanBoundsFinished (stablePartitionTextToFront
          (if b = true then QSN.mergeSort query.parsed.sort none cs2
           else QSN.orNode none cs2)) := by
      intro cs2 b hcs2
      cases b
      · simp only [Bool.false_eq_true, if_false]
        exact horq _ hcs2
      · simp only [if_true]
        exact hmsq _ hcs2
    simp only [hp] at h
    split at h
    · cases h
    · rcases scans with _ | ⟨s1, rest⟩
      · by_cases hsort : query.parsed.sort.isEmpty
        · simp only [hsort, if_true] at h
          cases h
          exact horq [] hall
        · simp only [hsort, if_false] at h
          cases h
      · rcases rest with _ | ⟨s2, rest2⟩
        · cases h
          exact stablePartition_safe2 s1 (hall s1 (List.mem_singleton_self s1))
        · by_cases hsort : query.parsed.sort.isEmpty
          · simp only [hsort, if_true] at h
            cases h
            exact hgen _ false hall
          · simp only [hsort, if_false] at h
            cases h
            exact hgen _ _ hall

theorem allBuild_safe2 (bida : MatchExpr → Bool → BuildResult QSN)
    (hbida : ∀ c a s2, bida c a = .ok s2 → qsnAll ixscanBoundsFinished s2) :
    ∀ (cs : List MatchExpr) (built : List QSN),
      allBuildChildren bida cs = .ok built →
      ∀ c ∈ built, qsnAll ixscanBoundsFinished c := by
  intro cs
  induction cs with
  | nil =>
    intro built h c hcm
    simp only [allBuildChildren] at h
    cases h
    cases hcm
  | cons x rest ih =>
    intro built h c hcm
    simp only [allBuildChildren] at h
    rcases hb : bida x true with s | _ | _ <;> simp only [hb] at h
    · rcases hr : allBuildChildren bida rest with l | _ | _ <;>
        simp only [hr] at h
      · cases h
        rcases List.mem_cons.mp hcm with rfl | hcm
        · exact hbida x true c hb
        · exact ih l hr c hcm
      · cases h
      · cases h
    · exact ih built h c hcm
    · cases h

theorem bida_safe2 (ob : PlannerOracle) (query : CanonicalQuery)
    (indices : List IndexEntry)
    (hc : oracleBoundsContract ob) :
    ∀ (fuel : Nat) (root : MatchExpr) (inArrayOperator : Bool) (s : QSN),
      buildIndexedDataAccess ob query indices fuel root inArrayOperator
        = .ok s →
      qsnAll ixscanBoundsFinished s := by
  intro fuel
  induction fuel with
  | zero =>
    intro root inArrayOperator s h
    simp only [buildIndexedDataAccess] at h
    cases h
  | succ f ihf =>
    intro root inArrayOperator s h
    rw [buildIndexedDataAccess] at h
    have hbida : ∀ c a s2,
        buildIndexedDataAccess ob query indices f c a = .ok s2 →
        qsnAll ixscanBoundsFinished s2 := fun c a s2 h2 => ihf c a s2 h2
    simp only [buildStep] at h
    split at h
    · split at h
      · exact bia_safe2 _ ob query indices root inArrayOperator s hc hbida h
      · split at h
        · exact bio_safe2 _ ob query indices root inArrayOperator s hc hbida h
        · cases h
    · rcases htag : root.tag with _ | tag <;> simp only [htag] at h
      · cases h
      · split at h
        · rcases hidx : indices[tag.index]? with _ | idx <;>
            simp only [hidx] at h
          · cases h
          · rcases hmk : makeLeafNode ob query idx tag.pos root
                with ⟨soln, tightness⟩ | _ | _ <;> simp only [hmk] at h
            · rcases hf : finishLeafNode soln idx with soln' | _ | _ <;>
                simp only [hf] at h
              · have hsafe0 := makeLeafNode_leafB ob query idx tag.pos
                  root soln tightness hc hmk
                have hq' := finishLeafNode_leafB idx soln soln' hsafe0 hf
                split at h
                · cases h
                  exact hq'
                · split at h
                  · cases h
                    exact hq'
                  · split at h
                    · rcases hgf : soln'.getFilter with _ | f0 <;>
                        simp only [hgf] at h
                      · cases h
                        exact setFilter_bounds2 soln' (some root) hq'
                      · cases h
                    · cases h
                      rw [qsnAll_node]
                      refine ⟨trivial, ?_⟩
                      intro c hcm
                      rcases List.mem_singleton.mp hcm with rfl
                      exact hq'
              · cases h
              · cases h
            · cases h
            · cases h
        · split at h
          · rcases hsol : (if root.ty = .ALL then
                match allBuildChildren
                    (fun c b => buildIndexedDataAccess ob query indices f c b)
                    root.children with
                | .ok built =>
                  match built with
                  | [] => BuildResult.noPlan
                  | [c] => .ok c
                  | _ => .ok (.andHash none built)
                | .noPlan => .noPlan
                | .abort => .abort
              else
                match root.children with
                | [c] => buildIndexedDataAccess ob query indices f c true
                | _ => .abort : BuildResult QSN) with sol | _ | _ <;>
              simp only [hsol] at h
            · have hqsol : qsnAll ixscanBoundsFinished sol := by
                split at hsol
                · rcases hab : allBuildChildren
                      (fun c b => buildIndexedDataAccess ob query indices f c b)
                      root.children with built | _ | _ <;>
                    simp only [hab] at hsol
                  · have hballs := allBuild_safe2 _ hbida root.children built hab
                    rcases built with _ | ⟨b1, brest⟩
                    · cases hsol
                    · rcases brest with _ | ⟨b2, brest2⟩
                      · cases hsol
                        exact hballs _ (List.mem_singleton_self _)
                      · cases hsol
                        rw [qsnAll_node]
                        exact ⟨trivial, fun c hcm => hballs c hcm⟩
                  · cases hsol
                  · cases hsol
                · rcases hrc : root.children with _ | ⟨c0, crest⟩ <;>
                    simp only [hrc] at hsol
                  · cases hsol
                  · rcases crest with _ | ⟨c1, crest2⟩
                    · exact hbida c0 true sol hsol
                    · cases hsol
              split at h
              · cases h
                exact hqsol
              · cases h
                rw [qsnAll_node]
                refine ⟨trivial, ?_⟩
                intro c hcm
                rcases List.mem_singleton.mp hcm with rfl
                exact hqsol
            · cases h
            · cases h
          · cases h

/-- C4: finished-bounds invariant.  Locally: finishing an index-scan leaf
whose in-flight bounds hold one OIL per key-pattern position (each either
untouched or properly bound) succeeds only with bounds of the key
pattern's length in which every position carries the corresponding key
element's field name and a non-empty interval list, the previously
unbound positions being filled with the (possibly direction-reversed)
all-values interval.  Globally: under a bounds builder that binds every
translated OIL to its key element, every IndexScan in any solution
returned by buildIndexedDataAccess satisfies the finished-bounds
invariant against its own recorded key pattern. -/
theorem c4_finished_bounds_invariant :
    (∀ (idx : IndexEntry) (kp0 : BObj) (mk : Bool) (bounds : IndexBounds)
       (f : Option MatchExpr) (d : Int) (ms : Nat) (ak : Bool) (fin : QSN),
      partialBoundsOk idx.keyPattern bounds →
      finishLeafNode (.ixscan kp0 mk bounds f d ms ak) idx = .ok fin →
      ∃ bounds', fin = .ixscan kp0 mk bounds' f d ms ak ∧
        bounds'.fields.length = idx.keyPattern.length ∧
        finishedBoundsOk idx.keyPattern bounds' ∧
        (∀ (i : Nat) o e, bounds.fields[i]? = some o →
          idx.keyPattern[i]? = some e → o.name = "" →
          bounds'.fields[i]? = some (allValuesForField e) ∨
          bounds'.fields[i]? = some (reverseOIL (allValuesForField e)))) ∧
    (∀ (ob : PlannerOracle) (query : CanonicalQuery)
       (indices : List IndexEntry) (fuel : Nat) (root : MatchExpr)
       (inArrayOperator : Bool) (soln : QSN),
      oracleBoundsContract ob →
      buildIndexedDataAccess ob query indices fuel root inArrayOperator
        = .ok soln →
      qsnAll ixscanBoundsFinished soln) :=
  ⟨fun idx kp0 mk bounds f d ms ak fin hpart hfin => by
    obtain ⟨bounds', h1, h2, h3⟩ :=
      finishLeafNode_ixscan_bounds idx kp0 mk bounds f d ms ak fin hpart hfin
    exact ⟨bounds', h1, h2.1, h2, h3⟩,
   fun ob query indices fuel root inA soln hc h =>
    bida_safe2 ob query indices hc fuel root inA soln h⟩

/-- Witness for C4: finishing a fresh single-column scan with untouched
bounds yields the all-values OIL for field a; sampleOracle obeys the
bounds contract, and a full build over the compound index satisfies the
tree-wide finished-bounds predicate. -/
theorem c4_finished_bounds_invariant_witness :
    (partialBoundsOk idxA.keyPattern
        ({ fields := [({} : OIL)] } : IndexBounds) ∧
      ∃ bounds',
        (QSN.ixscan kpA false
            ({ fields := [⟨"a", [⟨.minKey, .maxKey, true, true⟩]⟩] } :
              IndexBounds) none 1 0 false)
          = .ixscan kpA false bounds' none 1 0 false ∧
        bounds'.fields.length = idxA.keyPattern.length ∧
        finishedBoundsOk idxA.keyPattern bounds' ∧
        (∀ (i : Nat) o e,
          (({ fields := [({} : OIL)] } : IndexBounds)).fields[i]? = some o →
          idxA.keyPattern[i]? = some e → o.name = "" →
          bounds'.fields[i]? = some (allValuesForField e) ∨
          bounds'.fields[i]? = some (reverseOIL (allValuesForField e)))) ∧
    (oracleBoundsContract sampleOracle ∧
      qsnAll ixscanBoundsFinished
        (.ixscan kpAB false
          { fields := [⟨"a", [⟨.scalar (.int 5), .scalar (.int 5), true,
              true⟩]⟩, ⟨"b", [⟨.scalar (.int 7), .scalar (.int 7), true,
              true⟩]⟩] } none 1 0 false)) := by
  have hpart : partialBoundsOk idxA.keyPattern
      ({ fields := [({} : OIL)] } : IndexBounds) := by
    refine ⟨rfl, ?_⟩
    intro i o e ho he
    rcases i with _ | i
    · cases ho
      exact Or.inl ⟨rfl, rfl⟩
    · cases ho
  have hcon : oracleBoundsContract sampleOracle := by
    refine ⟨fun e k idx => ⟨rfl, by simp [sampleOracle, sampleOIL]⟩,
      fun e k idx o => ⟨rfl, by simp [sampleOracle, sampleOIL]⟩,
      fun e k idx o => ⟨rfl, by simp [sampleOracle, sampleOIL]⟩⟩
  exact ⟨⟨hpart,
      c4_finished_bounds_invariant.1 idxA kpA false
        ({ fields := [({} : OIL)] } : IndexBounds) none 1 0 false _
        hpart rfl⟩,
    ⟨hcon,
      c4_finished_bounds_invariant.2 sampleOracle qAB [idxAB] 4 andRootAB
        false _ hcon rfl⟩⟩
